import Mathlib

/-!
# GTFileSystem: the transactional engine of `src/src/gtfs.cpp`

A shallow embedding of the transaction manager, the log codec, the log store,
single-log cleanup and the session layer of `gtfs.cpp` (declarations in
`gtfs.hpp`), followed by theorems about them.

Conventions of the embedding.

* A `char` is its value as an unsigned byte, a natural number; a `vector<char>`
  and a file's content are `List Nat`.
* `size_t` quantities are naturals.  The one place where the source relies on
  unsigned wrap-around at small values, `vmSegment.size() - offset`, is
  computed modulo `2 ^ 64`; `int` arguments are integers and `toSizeT` is
  their conversion to `size_t`.  The transaction counter is a natural number:
  the embedding covers fewer than `2 ^ 31` creations on one manager.
* A step of the source without defined behaviour (a read or write outside a
  vector, a null pointer followed, the use of an indeterminate value) makes
  the embedded function return `none`.
* The directory `gtfs->dirname` is a list of named nodes, regular files with
  their content or other entries; file names stand for their paths.  The
  advisory locks are a list of locked names, each with the descriptor that
  holds the lock.  System calls succeed, except
  where the argument `fd` of `gtfs_open_file` says that `open` failed.
* An input stream is its unread bytes with `eofbit` and `failbit`; the
  extractors follow the standard's rules for a stream with `skipws` cleared.
-/

namespace GTFS

/-! ## Bytes and vectors -/

/-- Conversion of an `int` to `size_t` (two's complement, 64 bits). -/
def toSizeT (i : Int) : Nat := (i % 2 ^ 64).toNat

/-- The call `v.resize(n)` of `vector<char>`: truncates, or pads with value-initialised (zero) chars. -/
def resize (v : List Nat) (n : Nat) : List Nat :=
  v.take n ++ List.replicate (n - v.length) 0

/-- The call `copy(src.begin(), src.end(), dst.begin() + pos)`; the callers
establish `pos + src.length ≤ dst.length`. -/
def copyInto (dst : List Nat) (pos : Nat) (src : List Nat) : List Nat :=
  dst.take pos ++ src ++ dst.drop (pos + src.length)

/-! ## Transactions and the base transaction manager (`gtfs.hpp` 122-146) -/

/-- The `struct Transaction` of the header. -/
structure Transaction where
  transactionId : Nat
  offset : Nat
  oldData : List Nat
  newData : List Nat
deriving DecidableEq, Repr

/-- The `class BaseTransactionManager` of the header: the counter starts at 0.  The counter and
the ids drawn from it are naturals (the `int` and `uint32_t` of the source, below `2 ^ 31`). -/
structure BaseTransactionManager where
  totalTransactionCount : Nat
  vmSegment : List Nat
  uncommittedTransactions : List Transaction
deriving DecidableEq, Repr

/-- The constructor `BaseTransactionManager(VMSegment&&)`. -/
def BaseTransactionManager.new (vmSegment : List Nat) : BaseTransactionManager :=
  { totalTransactionCount := 0, vmSegment := vmSegment, uncommittedTransactions := [] }

/-- Line 390: `max(min(length, vmSegment.size() - offset), size_t{0})`, all in `size_t`, so the
subtraction wraps modulo `2 ^ 64`. -/
def oldSize (segSize offset length : Nat) : Nat :=
  max (min length (toSizeT ((segSize : Int) - (offset : Int)))) 0

/-- Lines 399-404 of `createTransaction`: the segment the call leaves, extended when the write
ends past the old end and then overwritten with the first `length` chars of the caller's buffer.
It depends on the old segment, the offset, the length and the buffer only; what the undo copy of
line 395 has read plays no part in it. -/
def createSegment (vmSegment : List Nat) (offset length : Nat) (newData : List Nat) : List Nat :=
  copyInto
    (if offset + length > vmSegment.length then resize vmSegment (offset + length)
      else vmSegment)
    offset (newData.take length)

/-- The method `BaseTransactionManager::createTransaction` (lines 385-408).  `newData` is the caller's buffer,
of which `length` chars are read.  The result is `none` when the undo copy of line 395 reads
outside the segment or the redo copy reads outside the caller's buffer. -/
def createTransaction (b : BaseTransactionManager) (offset length : Nat) (newData : List Nat) :
    Option (BaseTransactionManager × Nat) :=
  let old := oldSize b.vmSegment.length offset length
  if (old = 0 ∨ offset + old ≤ b.vmSegment.length) ∧ length ≤ newData.length then
    let transaction : Transaction :=
      { transactionId := b.totalTransactionCount
        offset := offset
        oldData := (b.vmSegment.drop offset).take old
        newData := newData.take length }
    some ({ totalTransactionCount := b.totalTransactionCount + 1
            vmSegment := createSegment b.vmSegment offset length newData
            uncommittedTransactions := b.uncommittedTransactions ++ [transaction] },
          transaction.transactionId)
  else none

/-- The search loop shared by `abortTransaction` and `commitTransaction`: the first transaction
of the table with the given id, together with the table after `erase(it)`. -/
def findErase (transactionId : Nat) : List Transaction → Option (Transaction × List Transaction)
  | [] => none
  | t :: ts =>
    if t.transactionId = transactionId then some (t, ts)
    else (findErase transactionId ts).map (fun r => (r.1, t :: r.2))

/-- The method `BaseTransactionManager::abortTransaction` (lines 410-420), with its return code.  The result is
`none` when the undo copy would write outside the segment. -/
def abortTransaction (b : BaseTransactionManager) (transactionId : Nat) :
    Option (BaseTransactionManager × Int) :=
  match findErase transactionId b.uncommittedTransactions with
  | none => some (b, -1)
  | some (t, rest) =>
    if t.oldData.length = 0 ∨ t.offset + t.oldData.length ≤ b.vmSegment.length then
      some ({ b with vmSegment := copyInto b.vmSegment t.offset t.oldData
                     uncommittedTransactions := rest }, 0)
    else none

/-- The key of the `max_element` call of lines 424-426, maximised over the records (0 for none). -/
def maxOffset (transactions : List Transaction) : Nat :=
  transactions.foldl (fun m t => max m (t.offset + t.newData.length)) 0

/-- The loop of lines 435-437: each record's redo bytes copied over the segment, in order. -/
def applyRedo (segment : List Nat) (transactions : List Transaction) : List Nat :=
  transactions.foldl (fun s t => copyInto s t.offset t.newData) segment

/-- The effect of `BaseTransactionManager::replayTransactions` on the segment (lines 422-439). -/
def replaySegment (segment : List Nat) (transactions : List Transaction) : List Nat :=
  match transactions with
  | [] => segment
  | _ :: _ =>
    let segment' :=
      if maxOffset transactions > segment.length then resize segment (maxOffset transactions)
      else segment
    applyRedo segment' transactions

/-- The method `BaseTransactionManager::replayTransactions`; it always returns 0. -/
def replayTransactions (b : BaseTransactionManager) (transactions : List Transaction) :
    BaseTransactionManager × Int :=
  ({ b with vmSegment := replaySegment b.vmSegment transactions }, 0)

/-! ## The log codec (lines 471-496) -/

/-- Decimal digits of `n`, most significant first, as `os << n` prints an unsigned integer. -/
def decimalAux : Nat → Nat → List Nat → List Nat
  | 0, _, acc => acc
  | fuel + 1, n, acc =>
    if n < 10 then (48 + n) :: acc else decimalAux fuel (n / 10) ((48 + n % 10) :: acc)

/-- The text `os << n` writes for an unsigned `n`. -/
def decimal (n : Nat) : List Nat := decimalAux (n + 1) n []

/-- The `operator<<` for a `Transaction` (lines 471-477): id, offset and redo length in decimal, each followed by one
space, then the redo bytes verbatim. -/
def encode (t : Transaction) : List Nat :=
  decimal t.transactionId ++ [32] ++ decimal t.offset ++ [32] ++ decimal t.newData.length ++ [32]
    ++ t.newData

/-- The bytes `writeTransaction` appends for each record of a list, one after the other. -/
def encodeLog (ts : List Transaction) : List Nat :=
  (ts.map encode).flatten

/-- An input stream: the unread bytes and the two state bits the decoder depends on. -/
structure IStream where
  input : List Nat
  eofbit : Bool
  failbit : Bool
deriving DecidableEq, Repr

/-- The test `is.good()`. -/
def IStream.good (s : IStream) : Bool := !s.eofbit && !s.failbit

/-- Whether a byte is one of the characters 0 to 9. -/
def isDigit (c : Nat) : Bool := decide (48 ≤ c) && decide (c ≤ 57)

/-- The number a run of digit characters denotes. -/
def digitsValue (ds : List Nat) : Nat :=
  ds.foldl (fun a d => 10 * a + (d - 48)) 0

/-- Extraction `is >> x` of an unsigned integer of `bits` bits with `skipws` cleared.  A stream
that is not good only gets `failbit` and `x` is left alone (`none`).  Otherwise the maximal run of
digits is consumed (reaching the end sets `eofbit`); an empty run stores 0 and a value that does
not fit stores the largest value, both with `failbit`.  A sign in front of the digits, which the
library would accept, counts as an empty run: `operator<<` never writes one. -/
def extractUnsigned (bits : Nat) (s : IStream) : IStream × Option Nat :=
  if s.good then
    let ds := s.input.takeWhile isDigit
    let rest := s.input.dropWhile isDigit
    if ds.isEmpty then
      ({ input := rest, eofbit := rest.isEmpty, failbit := true }, some 0)
    else if digitsValue ds < 2 ^ bits then
      ({ input := rest, eofbit := rest.isEmpty, failbit := false }, some (digitsValue ds))
    else
      ({ input := rest, eofbit := rest.isEmpty, failbit := true }, some (2 ^ bits - 1))
  else ({ s with failbit := true }, none)

/-- The call `is.ignore(1)`. -/
def ignore1 (s : IStream) : IStream :=
  if s.good then
    match s.input with
    | [] => { s with eofbit := true }
    | _ :: rest => { s with input := rest }
  else { s with failbit := true }

/-- The loop of lines 492-494: `n` extractions `is >> newData[i]` of a single char with `skipws`
cleared.  The chars read are returned; after a failure the remaining extractions do nothing. -/
def extractChars : Nat → IStream → IStream × List Nat
  | 0, s => (s, [])
  | n + 1, s =>
    if s.good then
      match s.input with
      | [] => ({ s with eofbit := true, failbit := true }, [])
      | c :: rest =>
        let r := extractChars n { s with input := rest }
        (r.1, c :: r.2)
    else ({ s with failbit := true }, [])

/-- The `operator>>` for a `Transaction` (lines 479-496).  The inner result is the record when the stream has not
failed at the end (`logFile >> transaction` converts to `true`), and `none` when it has.  The
outer result is `none` when `newDataSize` is used while indeterminate (its extraction was skipped
on a stream that was no longer good) or exceeds the `max_size()` of `vector<char>`, `2 ^ 63 - 1`:
`resize` then throws `length_error`, which nothing catches. -/
def readTransaction (s : IStream) : Option (IStream × Option Transaction) :=
  let r1 := extractUnsigned 32 s
  let s2 := ignore1 r1.1
  let r3 := extractUnsigned 64 s2
  let s4 := ignore1 r3.1
  let r5 := extractUnsigned 64 s4
  let s6 := ignore1 r5.1
  match r5.2 with
  | none => none
  | some newDataSize =>
    if 2 ^ 63 ≤ newDataSize then none
    else
      let r7 := extractChars newDataSize s6
      if r7.1.failbit then some (r7.1, none)
      else
        some (r7.1, some { transactionId := r1.2.getD 0
                           offset := r3.2.getD 0
                           oldData := []
                           newData := r7.2 })

/-- The loop of `getTransactionsInLog` (line 506): while `peek()` is not end-of-file and a record
is extracted, keep it.  `fuel` bounds the number of records; every record consumes input. -/
def readLoop : Nat → IStream → Option (List Transaction)
  | 0, _ => some []
  | fuel + 1, s =>
    if s.good && !s.input.isEmpty then
      match readTransaction s with
      | none => none
      | some (_, none) => some []
      | some (s', some t) => (readLoop fuel s').map (fun ts => t :: ts)
    else some []

/-- The records held by a log file with the given content. -/
def decodeLog (content : List Nat) : Option (List Transaction) :=
  readLoop (content.length + 1) { input := content, eofbit := false, failbit := false }

/-! ## The directory and the log store (lines 498-521) -/

/-- An entry of the directory: a regular file with its content, or anything else. -/
inductive Node where
  | regular (content : List Nat)
  | directory
deriving DecidableEq, Repr

/-- The directory named by `gtfs->dirname`: its entries by name, in directory order. -/
abbrev Dir := List (String × Node)

/-- The node a name denotes, if any. -/
def lookupNode : Dir → String → Option Node
  | [], _ => none
  | (n, x) :: d, name => if n = name then some x else lookupNode d name

/-- The directory after the name is bound to the node: in place when present, as a new entry
otherwise. -/
def storeNode : Dir → String → Node → Dir
  | [], name, x => [(name, x)]
  | (n, y) :: d, name, x => if n = name then (n, x) :: d else (n, y) :: storeNode d name x

/-- The directory after `fs::remove` of a name. -/
def removeNode : Dir → String → Dir
  | [], _ => []
  | (n, x) :: d, name => if n = name then removeNode d name else (n, x) :: removeNode d name

/-- The content read through an `ifstream` on a path: empty unless it is a regular file. -/
def readFile (fs : Dir) (path : String) : List Nat :=
  match lookupNode fs path with
  | some (Node.regular content) => content
  | _ => []

/-- The static method `LogManager::getTransactionsInLog` (lines 498-511). -/
def LogManager.getTransactionsInLog (fs : Dir) (logFilePath : String) :
    Option (List Transaction) :=
  match lookupNode fs logFilePath with
  | some (Node.regular content) => decodeLog content
  | _ => some []

/-- The static method `LogManager::writeTransaction` (lines 513-521): append one encoded record, creating the file
when absent; -1 when the stream cannot be opened. -/
def LogManager.writeTransaction (fs : Dir) (logFilePath : String) (t : Transaction) : Dir × Int :=
  match lookupNode fs logFilePath with
  | some Node.directory => (fs, -1)
  | some (Node.regular content) =>
    (storeNode fs logFilePath (Node.regular (content ++ encode t)), 0)
  | none => (storeNode fs logFilePath (Node.regular (encode t)), 0)

/-! ## The file transaction manager (lines 445-469) -/

/-- The `class TransactionManager` of the header. -/
structure TransactionManager extends BaseTransactionManager where
  logFilePath : String
deriving DecidableEq, Repr

/-- The constructor `TransactionManager(originalFilePath, vmSegment)`. -/
def TransactionManager.new (originalFilePath : String) (vmSegment : List Nat) :
    TransactionManager :=
  { toBaseTransactionManager := BaseTransactionManager.new vmSegment
    logFilePath := originalFilePath ++ ".log" }

/-- The method `TransactionManager::commitTransaction` (lines 448-465); `bytes = -1` is the default argument.  The
comparison `bytes > it->newData.size()` is made in `size_t`.  The return code of
`writeTransaction` is dropped, as in the source. -/
def commitTransaction (fs : Dir) (m : TransactionManager) (transactionId : Nat) (bytes : Int) :
    Dir × TransactionManager × Int :=
  match findErase transactionId m.uncommittedTransactions with
  | none => (fs, m, -1)
  | some (t, rest) =>
    if bytes ≠ -1 ∧ toSizeT bytes > t.newData.length then (fs, m, -1)
    else
      let t' := if bytes ≠ -1 then { t with newData := resize t.newData (toSizeT bytes) } else t
      ((LogManager.writeTransaction fs m.logFilePath t').1,
        { m with uncommittedTransactions := rest }, 0)

/-! ## Single-log cleanup and directory cleanup (lines 50-120, 336-361) -/

/-- The loop of lines 53-63 and the `erase` of line 65: the records kept under a budget of
`bytes ≥ 0`. -/
def retainBudget : List Transaction → Nat → List Transaction
  | [], _ => []
  | t :: ts, bytes =>
    if t.newData.length > bytes then []
    else if bytes - t.newData.length = 0 then [t]
    else t :: retainBudget ts (bytes - t.newData.length)

/-- The test `p.path().extension() == ".log"`: the name ends in `.log` after a non-empty stem. -/
def hasLogExtension (name : String) : Bool :=
  decide (4 < name.data.length) && (".log".data).isSuffixOf name.data

/-- The path of line 71: the log path without its last four characters. -/
def originalPath (logFilePath : String) : String :=
  String.mk (logFilePath.data.take (logFilePath.data.length - 4))

/-- The function `clean_n_bytes` (lines 50-94); `bytes = -1` is the default argument.  `none` when decoding the log
has no defined result, and when the path without `.log` is a directory: the `istreambuf_iterator`
of line 75 then reads a directory, the stream buffer throws `ios_failure`, nothing catches it and
the program ends with the log still in place. -/
def clean_n_bytes (fs : Dir) (logFilePath : String) (bytes : Int) : Option (Dir × Int) :=
  match LogManager.getTransactionsInLog fs logFilePath with
  | none => none
  | some transactions =>
    let retained := if bytes ≥ 0 then retainBudget transactions bytes.toNat else transactions
    let originalFilePath := originalPath logFilePath
    match lookupNode fs originalFilePath with
    | some Node.directory => none
    | _ =>
      let originalFileBuffer := readFile fs originalFilePath
      let transactionManager :=
        (replayTransactions (BaseTransactionManager.new originalFileBuffer) retained).1
      let fs1 := storeNode fs originalFilePath (Node.regular transactionManager.vmSegment)
      match lookupNode fs1 logFilePath with
      | none => some (fs1, -1)
      | some _ => some (removeNode fs1 logFilePath, 0)

/-- The test `fs::is_regular_file(p)`. -/
def isRegularFile (fs : Dir) (name : String) : Bool :=
  match lookupNode fs name with
  | some (Node.regular _) => true
  | _ => false

/-- The directory loop of `gtfs_clean` and `gtfs_clean_n_bytes` (lines 106-112, 347-353) over the
names the directory holds when the iteration starts; each is examined in the directory as it is
when its turn comes. -/
def cleanLoop (bytes : Int) : List String → Dir → Int → Option (Dir × Int)
  | [], fs, ret => some (fs, ret)
  | p :: ps, fs, ret =>
    if isRegularFile fs p && hasLogExtension p then
      match clean_n_bytes fs p bytes with
      | none => none
      | some (fs', r) => cleanLoop bytes ps fs' (if r ≠ 0 then -2 else ret)
    else cleanLoop bytes ps fs ret

/-- The `struct gtfs` of the header. -/
structure gtfs_t where
  dirname : String
deriving DecidableEq, Repr

/-- The function `gtfs_clean` (lines 96-120); `fs` is the content of the directory `gtfs->dirname`. -/
def gtfs_clean (fs : Dir) (gtfs : Option gtfs_t) : Option (Dir × Int) :=
  match gtfs with
  | none => some (fs, -1)
  | some _ =>
    (cleanLoop (-1) (fs.map Prod.fst) fs (-1)).map
      (fun r => (r.1, if r.2 ≠ -2 then 0 else r.2))

/-- The function `gtfs_clean_n_bytes` (lines 336-361). -/
def gtfs_clean_n_bytes (fs : Dir) (gtfs : Option gtfs_t) (bytes : Int) : Option (Dir × Int) :=
  match gtfs with
  | none => some (fs, -1)
  | some _ =>
    (cleanLoop bytes (fs.map Prod.fst) fs (-1)).map
      (fun r => (r.1, if r.2 ≠ -2 then 0 else r.2))

/-! ## The session layer (lines 122-332, 363-381) -/

/-- The `struct file` of the header.  `transactionManager = none` is the null `unique_ptr`. -/
structure file_t where
  filename : String
  fileLength : Int
  fileDescriptor : Int
  transactionManager : Option TransactionManager
deriving DecidableEq, Repr

/-- The `struct write` of the header, without its `file` pointer: the functions that follow the
pointer receive the `file_t` it points to as an argument. -/
structure write_t where
  filename : String
  offset : Int
  length : Int
  transactionId : Nat
deriving DecidableEq, Repr

/-- The directory together with the exclusive `flock`s in force: one entry for each lock, made of
the name of the locked file and the descriptor that holds the lock.  A descriptor stands for the
open file description, the number together with the process it belongs to, so that descriptors
that are open at the same time differ.  An entry leaves the list when its descriptor is closed,
and when its file is unlinked: the lock is then on a file that no name denotes any more. -/
structure World where
  files : Dir
  locked : List (String × Int)
deriving DecidableEq, Repr

/-- The function `gtfs_open_file` (lines 122-185).  `fd` is what `open` returns (-1 for a failure).  The size
comparisons of lines 147 and 150 are made in the unsigned type of `fs::file_size`.  The outer
result is `none` when the call does not return, which is so for a negative `fileLength` once
`fs::resize_file` (line 153) or the construction of the buffer (line 168) is reached, both of
which throw on the converted value, and when decoding the log has no defined result. -/
def gtfs_open_file (w : World) (gtfs : Option gtfs_t) (filename : String) (fileLength : Int)
    (fd : Int) : Option (World × Option file_t) :=
  match gtfs with
  | none => some (w, none)
  | some _ =>
    if filename.length = 0 then some (w, none)
    else
      match lookupNode w.files filename with
      | some Node.directory => some (w, none)
      | node =>
        let files1 := if node = none then storeNode w.files filename (Node.regular []) else w.files
        let file_size := (readFile files1 filename).length
        if toSizeT fileLength < file_size then some ({ w with files := files1 }, none)
        else if toSizeT fileLength > file_size ∧ fileLength < 0 then none
        else
          let files2 :=
            if toSizeT fileLength > file_size then
              storeNode files1 filename
                (Node.regular (resize (readFile files1 filename) (toSizeT fileLength)))
            else files1
          if fd = -1 then some ({ w with files := files2 }, none)
          else if filename ∈ w.locked.map Prod.fst then some ({ w with files := files2 }, none)
          else if fileLength < 0 then none
          else
            let buffer := resize (readFile files2 filename) (toSizeT fileLength)
            let manager := TransactionManager.new filename buffer
            match LogManager.getTransactionsInLog files2 manager.logFilePath with
            | none => none
            | some transactions =>
              some ({ files := files2, locked := (filename, fd) :: w.locked },
                some { filename := filename
                       fileLength := fileLength
                       fileDescriptor := fd
                       transactionManager := some
                         { manager with
                           toBaseTransactionManager :=
                             (replayTransactions manager.toBaseTransactionManager
                               transactions).1 } })

/-- The function `gtfs_close_file` (lines 187-210): the handle after the call and the return code; closing the
descriptor drops the lock that this descriptor holds, if it still holds one. -/
def gtfs_close_file (w : World) (gtfs : Option gtfs_t) (fl : Option file_t) :
    World × Option file_t × Int :=
  match gtfs, fl with
  | some _, some f =>
    if f.fileDescriptor = -1 then (w, some f, -1)
    else
      ({ w with locked := w.locked.filter (fun e => decide (e.2 ≠ f.fileDescriptor)) },
        some { f with fileDescriptor := -1, fileLength := 0, transactionManager := none }, 0)
  | _, _ => (w, fl, -1)

/-- The loop of lines 254-259: up to `length` chars of the segment from `offset` on (all of them
for a negative `length`, whose decrement never reaches 0), nothing when `offset` as a `size_t` is not below
the segment size. -/
def readData (segment : List Nat) (offset length : Int) : List Nat :=
  if toSizeT offset < segment.length then
    (segment.drop (toSizeT offset)).take (if length < 0 then segment.length else length.toNat)
  else []

/-- The content of the buffer `strdup(data.c_str())` returns: the chars before the first zero. -/
def cString (data : List Nat) : List Nat :=
  data.takeWhile (fun c => decide (c ≠ 0))

/-- The function `gtfs_read_file` (lines 236-265): `some none` is the null pointer, `some (some s)` a buffer
holding the C string `s`.  The outer result is `none` when a null manager is dereferenced. -/
def gtfs_read_file (gtfs : Option gtfs_t) (fl : Option file_t) (offset length : Int) :
    Option (Option (List Nat)) :=
  match gtfs, fl with
  | some _, some f =>
    if f.fileDescriptor = -1 then some none
    else
      match f.transactionManager with
      | none => none
      | some m => some (some (cString (readData m.vmSegment offset length)))
  | _, _ => some none

/-- The function `gtfs_write_file` (lines 267-292): the handle after the call and the write handle (`none` for
null).  `data` is the caller's buffer.  The outer result is `none` when a null manager is
dereferenced or `createTransaction` has no defined result. -/
def gtfs_write_file (gtfs : Option gtfs_t) (fl : Option file_t) (offset length : Int)
    (data : List Nat) : Option (Option file_t × Option write_t) :=
  match gtfs, fl with
  | some _, some f =>
    if f.fileDescriptor = -1 then some (some f, none)
    else
      match f.transactionManager with
      | none => none
      | some m =>
        match createTransaction m.toBaseTransactionManager (toSizeT offset) (toSizeT length)
            data with
        | none => none
        | some (b, transactionId) =>
          some (some { f with transactionManager := some { m with toBaseTransactionManager := b } },
            some { filename := f.filename
                   offset := offset
                   length := length
                   transactionId := transactionId })
  | _, _ => some (fl, none)

/-- The function `gtfs_sync_write_file` (lines 294-312).  `file` is the `file_t` that `write_id->file` points to
(`none` for a null pointer); the result holds the directory, that `file_t` after the call and the
return code. -/
def gtfs_sync_write_file (fs : Dir) (write_id : Option write_t) (file : Option file_t) :
    Dir × Option file_t × Int :=
  match write_id with
  | none => (fs, file, -1)
  | some wr =>
    match file with
    | none => (fs, file, -1)
    | some f =>
      match f.transactionManager with
      | none => (fs, file, -1)
      | some m =>
        let r := commitTransaction fs m wr.transactionId (-1)
        (r.1, some { f with transactionManager := some r.2.1 }, r.2.2)

/-- The function `gtfs_abort_write_file` (lines 314-332), with the same conventions.  The outer result is `none`
when `abortTransaction` has no defined result. -/
def gtfs_abort_write_file (write_id : Option write_t) (file : Option file_t) :
    Option (Option file_t × Int) :=
  match write_id with
  | none => some (file, -1)
  | some wr =>
    match file with
    | none => some (file, -1)
    | some f =>
      match f.transactionManager with
      | none => some (file, -1)
      | some m =>
        match abortTransaction m.toBaseTransactionManager wr.transactionId with
        | none => none
        | some (b, ret) =>
          some (some { f with transactionManager := some { m with toBaseTransactionManager := b } },
            ret)

/-- The function `gtfs_sync_write_file_n_bytes` (lines 363-381).  Neither `write_id->file` nor its manager is
checked before line 373 dereferences them: the result is `none` when one of them is null. -/
def gtfs_sync_write_file_n_bytes (fs : Dir) (write_id : Option write_t) (file : Option file_t)
    (bytes : Int) : Option (Dir × Option file_t × Int) :=
  match write_id with
  | none => some (fs, file, -1)
  | some wr =>
    match file with
    | none => none
    | some f =>
      match f.transactionManager with
      | none => none
      | some m =>
        let r := commitTransaction fs m wr.transactionId bytes
        some (r.1, some { f with transactionManager := some r.2.1 }, r.2.2)

/-! ## Runs of manager operations -/

/-- One call on a file transaction manager. -/
inductive Op where
  | create (offset length : Nat) (newData : List Nat)
  | commit (transactionId : Nat) (bytes : Int)
  | abort (transactionId : Nat)
  | replay (transactions : List Transaction)
deriving DecidableEq, Repr

/-- The directory and the manager after one call, with the value the call returns (the new id
for `create`); `none` when the call has no defined result. -/
def step (s : Dir × TransactionManager) : Op → Option ((Dir × TransactionManager) × Int)
  | Op.create offset length newData =>
    (createTransaction s.2.toBaseTransactionManager offset length newData).map
      (fun r => ((s.1, { s.2 with toBaseTransactionManager := r.1 }), (r.2 : Int)))
  | Op.commit transactionId bytes =>
    let r := commitTransaction s.1 s.2 transactionId bytes
    some ((r.1, r.2.1), r.2.2)
  | Op.abort transactionId =>
    (abortTransaction s.2.toBaseTransactionManager transactionId).map
      (fun r => ((s.1, { s.2 with toBaseTransactionManager := r.1 }), r.2))
  | Op.replay transactions =>
    let r := replayTransactions s.2.toBaseTransactionManager transactions
    some ((s.1, { s.2 with toBaseTransactionManager := r.1 }), r.2)

/-- The state after a sequence of calls. -/
def run (s : Dir × TransactionManager) : List Op → Option (Dir × TransactionManager)
  | [] => some s
  | op :: ops =>
    match step s op with
    | none => none
    | some (s', _) => run s' ops

/-- A manager state some sequence of calls produces from a freshly constructed manager. -/
def Reachable (m : TransactionManager) : Prop :=
  ∃ (fs : Dir) (originalFilePath : String) (vmSegment : List Nat) (ops : List Op) (fs' : Dir),
    run (fs, TransactionManager.new originalFilePath vmSegment) ops = some (fs', m)

/-- What every reachable table satisfies: ids below the counter and increasing along the
table, and each undo buffer within the segment at its offset. -/
def TableInvariant (b : BaseTransactionManager) : Prop :=
  (∀ t ∈ b.uncommittedTransactions, t.transactionId < b.totalTransactionCount) ∧
  b.uncommittedTransactions.Pairwise (fun x y => x.transactionId < y.transactionId) ∧
  (∀ t ∈ b.uncommittedTransactions, t.offset + t.oldData.length ≤ b.vmSegment.length)

/-- The table without the transactions of a given id. -/
def withoutId (ts : List Transaction) (transactionId : Nat) : List Transaction :=
  ts.filter (fun x => decide (x.transactionId ≠ transactionId))

/-- The total redo length of a list of records. -/
def cumulativeRedo (ts : List Transaction) : Nat :=
  (ts.map (fun t => t.newData.length)).sum

/-- A record as the decoder rebuilds it: the undo data is not stored in the log. -/
def stripUndo (t : Transaction) : Transaction := { t with oldData := [] }

/-- The fields of a record fit the types of the source: a `uint32_t` id, a `size_t` offset and
a redo `vector<char>` within `max_size()`. -/
def WellTyped (t : Transaction) : Prop :=
  t.transactionId < 2 ^ 32 ∧ t.offset < 2 ^ 64 ∧ t.newData.length < 2 ^ 63

instance (t : Transaction) : Decidable (WellTyped t) := by
  unfold WellTyped; infer_instance

/-- The scenario of the first test (`writer` then `reader`): open, write, sync, close, open again
and read the written range; `fd1` and `fd2` are the descriptors the two `open` calls return.
The result is what `gtfs_read_file` returns; `none` when a step has no defined result or hands
back a null handle on the way. -/
def writeSyncReopenRead (w : World) (gtfs : Option gtfs_t) (filename : String) (fileLength : Int)
    (offset : Int) (data : List Nat) (fd1 fd2 : Int) : Option (Option (List Nat)) :=
  match gtfs_open_file w gtfs filename fileLength fd1 with
  | some (w1, some fl) =>
    match gtfs_write_file gtfs (some fl) offset data.length data with
    | some (some fl1, some wrt) =>
      match gtfs_sync_write_file w1.files (some wrt) (some fl1) with
      | (files2, fl2, 0) =>
        match gtfs_close_file { w1 with files := files2 } gtfs fl2 with
        | (w3, _, _) =>
          match gtfs_open_file w3 gtfs filename fileLength fd2 with
          | some (_, some fl4) => gtfs_read_file gtfs (some fl4) offset data.length
          | _ => none
      | _ => none
    | _ => none
  | _ => none

/-- The scenario of the second test on an open handle: read a range, write to it, abort the write
and read the range again.  The result holds the two reads; `none` when a step has no defined
result, the write returns null or the abort does not return 0. -/
def readWriteAbortRead (gtfs : Option gtfs_t) (fl : file_t) (offset length : Int)
    (data : List Nat) : Option (Option (List Nat) × Option (List Nat)) :=
  match gtfs_read_file gtfs (some fl) offset length,
      gtfs_write_file gtfs (some fl) offset length data with
  | some before, some (fl1, some wrt) =>
    match gtfs_abort_write_file (some wrt) fl1 with
    | some (fl2, 0) => (gtfs_read_file gtfs fl2 offset length).map (fun after => (before, after))
    | _ => none
  | _, _ => none

/-! ## Data of the tests -/

/-- The 20 chars of the string of test 1, `Hi, I'm the writer.` and a newline. -/
def writerString : List Nat :=
  [72, 105, 44, 32, 73, 39, 109, 32, 116, 104, 101, 32, 119, 114, 105, 116, 101, 114, 46, 10]

/-- The 16 chars of the string of the other tests, `Testing string.` and a newline. -/
def testingString : List Nat :=
  [84, 101, 115, 116, 105, 110, 103, 32, 115, 116, 114, 105, 110, 103, 46, 10]

/-- The transaction of `writer`: 20 bytes at offset 10 of a zero segment. -/
def writerTransaction : Transaction :=
  ⟨0, 10, List.replicate 20 0, writerString⟩

/-- The manager of `test1.txt` (100 zero bytes) after the write of `writer`. -/
def writerManager : TransactionManager :=
  { totalTransactionCount := 1
    vmSegment := List.replicate 10 0 ++ writerString ++ List.replicate 70 0
    uncommittedTransactions := [writerTransaction]
    logFilePath := "test1.txt.log" }

/-- The transaction most tests create: 16 bytes at offset 0 of a zero segment. -/
def testingTransaction : Transaction :=
  ⟨0, 0, List.replicate 16 0, testingString⟩

/-- The manager of `test10.txt` (100 zero bytes) after that write. -/
def testingManager : TransactionManager :=
  { totalTransactionCount := 1
    vmSegment := testingString ++ List.replicate 84 0
    uncommittedTransactions := [testingTransaction]
    logFilePath := "test10.txt.log" }

/-- The manager of `test10.txt` once that write has left the table. -/
def settledManager (vmSegment : List Nat) : TransactionManager :=
  { totalTransactionCount := 1
    vmSegment := vmSegment
    uncommittedTransactions := []
    logFilePath := "test10.txt.log" }


/-! ## Removal and the calls that act on the directory and the locks -/

/-- The function `gtfs_remove_file` (lines 212-234): the return code is the `bool` that `fs::remove` returns
for the data file, converted to `int` (1 when an entry was deleted, 0 when there was none); the
result of the second `fs::remove` is dropped.  An entry that is not a regular file is taken to be
one that `fs::remove` can delete.  A lock stays with the file that was unlinked, which the name
no longer denotes: the entries of the two names leave `locked`. -/
def gtfs_remove_file (w : World) (gtfs : Option gtfs_t) (fl : Option file_t) : World × Int :=
  match gtfs, fl with
  | some _, some f =>
    if f.fileDescriptor ≠ -1 then (w, -1)
    else
      let ret : Int := if lookupNode w.files f.filename = none then 0 else 1
      ({ files := removeNode (removeNode w.files f.filename) (f.filename ++ ".log")
         locked := w.locked.filter
           (fun e => decide (e.1 ≠ f.filename ∧ e.1 ≠ f.filename ++ ".log")) }, ret)
  | _, _ => (w, -1)

/-- One call of the session layer that can change the directory or the locks, with the handles
it is given.  Reads, writes and aborts act on the handle only. -/
inductive Call where
  | openFile (filename : String) (fileLength fd : Int)
  | closeFile (fl : file_t)
  | removeFile (fl : file_t)
  | syncWrite (write_id : write_t) (file : file_t)
  | syncWriteN (write_id : write_t) (file : file_t) (bytes : Int)
  | clean
  | cleanN (bytes : Int)
deriving DecidableEq, Repr

/-- The locks after a cleanup of the directory that ran to its end: every regular file with
extension `.log` has been unlinked when its turn came (a file of such a name that exists
afterwards is a new one), so the locks on these names are on files that no name denotes any
more. -/
def locksAfterClean (w : World) (gtfs : Option gtfs_t) : List (String × Int) :=
  match gtfs with
  | none => w.locked
  | some _ => w.locked.filter (fun e => !(isRegularFile w.files e.1 && hasLogExtension e.1))

/-- The directory and the locks after one call; `none` when the call does not return or has no
defined result. -/
def call (gtfs : Option gtfs_t) (w : World) : Call → Option World
  | Call.openFile filename fileLength fd =>
    (gtfs_open_file w gtfs filename fileLength fd).map (fun r => r.1)
  | Call.closeFile fl => some (gtfs_close_file w gtfs (some fl)).1
  | Call.removeFile fl => some (gtfs_remove_file w gtfs (some fl)).1
  | Call.syncWrite write_id file =>
    some { w with files := (gtfs_sync_write_file w.files (some write_id) (some file)).1 }
  | Call.syncWriteN write_id file bytes =>
    (gtfs_sync_write_file_n_bytes w.files (some write_id) (some file) bytes).map
      (fun r => { w with files := r.1 })
  | Call.clean =>
    (gtfs_clean w.files gtfs).map (fun r => World.mk r.1 (locksAfterClean w gtfs))
  | Call.cleanN bytes =>
    (gtfs_clean_n_bytes w.files gtfs bytes).map
      (fun r => World.mk r.1 (locksAfterClean w gtfs))

/-- The directory and the locks after a sequence of calls. -/
def runCalls (gtfs : Option gtfs_t) (w : World) : List Call → Option World
  | [] => some w
  | c :: cs =>
    match call gtfs w c with
    | none => none
    | some w' => runCalls gtfs w' cs

/-- The calls that neither close the descriptor `fd`, which holds the lock on the name, nor
unlink the name: a removal through a closed handle unlinks the data file of the handle and its
log, a cleanup unlinks the regular files with extension `.log`. -/
def keepsLock (filename : String) (fd : Int) : Call → Bool
  | Call.closeFile fl => decide (fl.fileDescriptor ≠ fd)
  | Call.removeFile fl =>
    decide (fl.fileDescriptor ≠ -1 ∨ (fl.filename ≠ filename ∧ fl.filename ++ ".log" ≠ filename))
  | Call.clean => !hasLogExtension filename
  | Call.cleanN _ => !hasLogExtension filename
  | _ => true

/-- A scenario on a name: open a handle, which stays open, clean the directory, open again.
The result holds the first handle, the return code of `gtfs_clean` and what the second
`gtfs_open_file` returns; `none` when a step does not return or the first open returns null. -/
def openAfterClean (w : World) (gtfs : Option gtfs_t) (filename : String) (fileLength : Int)
    (fd1 fd2 : Int) : Option (file_t × Int × Option file_t) :=
  match gtfs_open_file w gtfs filename fileLength fd1 with
  | some (w1, some fl1) =>
    match gtfs_clean w1.files gtfs with
    | some (files2, ret) =>
      (gtfs_open_file (World.mk files2 (locksAfterClean w1 gtfs)) gtfs filename fileLength
        fd2).map (fun r => (fl1, ret, r.2))
    | none => none
  | _ => none

/-- A scenario on one name: open and close a first handle, open a second handle, which stays
open, remove the file through the first handle, then open once more.  The result holds the
second handle, the return code of the removal and what the last `gtfs_open_file` returns;
`none` when a step has no defined result or one of the first two opens returns null. -/
def openAfterRemove (w : World) (gtfs : Option gtfs_t) (filename : String) (fileLength : Int)
    (fd1 fd2 fd3 : Int) : Option (file_t × Int × Option file_t) :=
  match gtfs_open_file w gtfs filename fileLength fd1 with
  | some (w1, some fl1) =>
    match gtfs_close_file w1 gtfs (some fl1) with
    | (w2, closed, _) =>
      match gtfs_open_file w2 gtfs filename fileLength fd2 with
      | some (w3, some fl2) =>
        match gtfs_remove_file w3 gtfs closed with
        | (w4, ret) =>
          (gtfs_open_file w4 gtfs filename fileLength fd3).map (fun r => (fl2, ret, r.2))
      | _ => none
  | _ => none

/-- The scenario of the test of removal after a synced write: open, write, sync, close, remove.
The result holds the directory and the locks before the removal, and what `gtfs_remove_file`
returns; `none` when a step has no defined result or hands back a null handle on the way. -/
def writeSyncCloseRemove (w : World) (gtfs : Option gtfs_t) (filename : String)
    (fileLength fd offset : Int) (data : List Nat) : Option (World × World × Int) :=
  match gtfs_open_file w gtfs filename fileLength fd with
  | some (w1, some fl) =>
    match gtfs_write_file gtfs (some fl) offset data.length data with
    | some (some fl1, some wrt) =>
      match gtfs_sync_write_file w1.files (some wrt) (some fl1) with
      | (files2, fl2, _) =>
        match gtfs_close_file { w1 with files := files2 } gtfs fl2 with
        | (w3, fl3, _) => some (w3, gtfs_remove_file w3 gtfs fl3)
    | _ => none
  | _ => none

/-- The scenario of the tests on a write whose file was closed: open, write, close.  The result
holds the directory, the closed handle and the write handle; `none` when a step has no defined
result or hands back a null handle on the way. -/
def writeThenClose (w : World) (gtfs : Option gtfs_t) (filename : String)
    (fileLength fd offset : Int) (data : List Nat) : Option (World × file_t × write_t) :=
  match gtfs_open_file w gtfs filename fileLength fd with
  | some (w1, some fl) =>
    match gtfs_write_file gtfs (some fl) offset data.length data with
    | some (some fl1, some wrt) =>
      match gtfs_close_file w1 gtfs (some fl1) with
      | (w2, some closed, _) => some (w2, closed, wrt)
      | _ => none
    | _ => none
  | _ => none

/-! ## Replay and creation, as stated byte by byte -/

/-- Whether the range `[offset, offset + |redo|)` of the record contains the index. -/
def covers (r : Transaction) (i : Nat) : Bool :=
  decide (r.offset ≤ i ∧ i < r.offset + r.newData.length)

/-- The last record of the list whose range contains the index. -/
def lastCovering (rs : List Transaction) (i : Nat) : Option Transaction :=
  rs.reverse.find? (fun r => covers r i)

/-- The byte last-writer-wins puts at an index: the redo byte of the last record covering it,
else the byte of the segment, else zero. -/
def lastWriterByte (s : List Nat) (rs : List Transaction) (i : Nat) : Nat :=
  match lastCovering rs i with
  | some r => (r.newData[i - r.offset]?).getD 0
  | none => (s[i]?).getD 0

/-- The number of `create` calls in a sequence of calls. -/
def countCreates : List Op → Nat
  | [] => 0
  | Op.create _ _ _ :: ops => countCreates ops + 1
  | _ :: ops => countCreates ops

/-- The values the `create` calls of a sequence return, in order. -/
def createdIds (s : Dir × TransactionManager) : List Op → Option (List Int)
  | [] => some []
  | op :: ops =>
    match step s op with
    | none => none
    | some (s', r) =>
      match op with
      | Op.create _ _ _ => (createdIds s' ops).map (fun rs => r :: rs)
      | _ => createdIds s' ops

/-! ## Data of the tests on closed and removed files -/

/-- The handle of `test10.txt` once `gtfs_close_file` has closed it. -/
def closedTesting : file_t :=
  { filename := "test10.txt", fileLength := 0, fileDescriptor := -1, transactionManager := none }

/-- The handle of `test10.txt`, open on descriptor 3, after the write of the tests. -/
def openTesting : file_t :=
  { filename := "test10.txt", fileLength := 100, fileDescriptor := 3
    transactionManager := some testingManager }

/-- The write handle of the tests: 16 bytes at offset 0, transaction 0. -/
def testingWrite : write_t :=
  { filename := "test10.txt", offset := 0, length := 16, transactionId := 0 }

/-- The directory of the tests once `test10.txt` has been opened with length 100. -/
def testingFiles : Dir :=
  [("test10.txt", Node.regular (List.replicate 100 0))]

/-- The directory of the removal test before `gtfs_remove_file`: `test5.txt` and the log the
synced write left. -/
def syncedFiles : Dir :=
  [("test5.txt", Node.regular (List.replicate 100 0)),
   ("test5.txt.log", Node.regular ([48, 32, 48, 32, 49, 54, 32] ++ testingString))]

/-- The handle of `test5.txt` once `gtfs_close_file` has closed it. -/
def closedRemoved : file_t :=
  { filename := "test5.txt", fileLength := 0, fileDescriptor := -1, transactionManager := none }

/-! ## Scenarios around cleanup and around overlapping writes -/

/-- A scenario on one file: open, write, sync, close; open again with the same declared length,
read the written range, close; clean the directory; open once more with the same declared
length.  The result holds what the read before the clean returns, the return code of
`gtfs_clean`, the size of the data file after the clean and what the last `gtfs_open_file`
returns; `none` when a step has no defined result or one of the first two opens, or the write,
returns null. -/
def reopenAfterClean (w : World) (gtfs : Option gtfs_t) (filename : String)
    (fileLength offset : Int) (data : List Nat) (fd1 fd2 fd3 : Int) :
    Option (Option (List Nat) × Int × Nat × Option file_t) :=
  match gtfs_open_file w gtfs filename fileLength fd1 with
  | some (w1, some fl) =>
    match gtfs_write_file gtfs (some fl) offset data.length data with
    | some (some fl1, some wrt) =>
      match gtfs_sync_write_file w1.files (some wrt) (some fl1) with
      | (files2, fl2, _) =>
        match gtfs_close_file { w1 with files := files2 } gtfs fl2 with
        | (w3, _, _) =>
          match gtfs_open_file w3 gtfs filename fileLength fd2 with
          | some (w4, some fl4) =>
            match gtfs_read_file gtfs (some fl4) offset data.length,
                gtfs_close_file w4 gtfs (some fl4) with
            | some shown, (w5, _, _) =>
              match gtfs_clean w5.files gtfs with
              | some (files6, ret) =>
                (gtfs_open_file { w5 with files := files6 } gtfs filename fileLength fd3).map
                  (fun r => (shown, ret, (readFile files6 filename).length, r.2))
              | none => none
            | none, _ => none
          | _ => none
    | _ => none
  | _ => none

/-- A scenario on one file: open, write `data1` at `offset1`, write `data2` at `offset2`, abort
the first write, read a range, sync the second write, close, open again and read the same
range.  The result holds the return codes of the abort and of the sync, what the read on the
live segment returns and what the read after the second open returns; `none` when a step has no
defined result or an open or a write returns null. -/
def abortUnderNewerWrite (w : World) (gtfs : Option gtfs_t) (filename : String)
    (fileLength offset1 : Int) (data1 : List Nat) (offset2 : Int) (data2 : List Nat)
    (readOffset readLength fd1 fd2 : Int) :
    Option (Int × Int × Option (List Nat) × Option (List Nat)) :=
  match gtfs_open_file w gtfs filename fileLength fd1 with
  | some (w1, some fl) =>
    match gtfs_write_file gtfs (some fl) offset1 data1.length data1 with
    | some (some fl1, some wrt1) =>
      match gtfs_write_file gtfs (some fl1) offset2 data2.length data2 with
      | some (some fl2, some wrt2) =>
        match gtfs_abort_write_file (some wrt1) (some fl2) with
        | some (fl3, ret1) =>
          match gtfs_read_file gtfs fl3 readOffset readLength,
              gtfs_sync_write_file w1.files (some wrt2) fl3 with
          | some live, (files2, fl4, ret2) =>
            match gtfs_close_file { w1 with files := files2 } gtfs fl4 with
            | (w3, _, _) =>
              match gtfs_open_file w3 gtfs filename fileLength fd2 with
              | some (_, some fl5) =>
                (gtfs_read_file gtfs (some fl5) readOffset readLength).map
                  (fun rebuilt => (ret1, ret2, live, rebuilt))
              | _ => none
          | none, _ => none
        | none => none
      | _ => none
    | _ => none
  | _ => none

/-! ## Vectors -/

theorem length_resize (v : List Nat) (n : Nat) : (resize v n).length = n := by
  simp only [resize, List.length_append, List.length_take, List.length_replicate]
  omega

theorem resize_of_length {v : List Nat} {n : Nat} (h : v.length = n) : resize v n = v := by
  simp [resize, h]

theorem length_copyInto {dst : List Nat} {pos : Nat} {src : List Nat}
    (h : pos + src.length ≤ dst.length) : (copyInto dst pos src).length = dst.length := by
  simp only [copyInto, List.length_append, List.length_take, List.length_drop]
  omega

/-! ## The codec -/

theorem decimalAux_spec (fuel : Nat) : ∀ (n : Nat) (acc : List Nat), n < fuel →
    ∃ ds : List Nat, decimalAux fuel n acc = ds ++ acc ∧ ds ≠ [] ∧
      (∀ d ∈ ds, isDigit d = true) ∧ digitsValue ds = n := by
  induction fuel with
  | zero => intro n acc h; omega
  | succ fuel ih =>
    intro n acc h
    by_cases h10 : n < 10
    · refine ⟨[48 + n], ?_, by simp, ?_, ?_⟩
      · simp [decimalAux, h10]
      · intro d hd
        simp only [List.mem_singleton] at hd
        subst hd
        simp only [isDigit, Bool.and_eq_true, decide_eq_true_eq]
        omega
      · simp [digitsValue]
    · have hlt : n / 10 < fuel := by omega
      obtain ⟨ds, h1, h2, h3, h4⟩ := ih (n / 10) ((48 + n % 10) :: acc) hlt
      refine ⟨ds ++ [48 + n % 10], ?_, by simp, ?_, ?_⟩
      · simp [decimalAux, h10, h1]
      · intro d hd
        rcases List.mem_append.1 hd with hd | hd
        · exact h3 d hd
        · simp only [List.mem_singleton] at hd
          subst hd
          simp only [isDigit, Bool.and_eq_true, decide_eq_true_eq]
          omega
      · unfold digitsValue at h4 ⊢
        rw [List.foldl_append, h4]
        simp only [List.foldl_cons, List.foldl_nil]
        omega

theorem decimal_spec (n : Nat) :
    decimal n ≠ [] ∧ (∀ d ∈ decimal n, isDigit d = true) ∧ digitsValue (decimal n) = n := by
  obtain ⟨ds, h1, h2, h3, h4⟩ := decimalAux_spec (n + 1) n [] (Nat.lt_succ_self n)
  have : decimal n = ds := by simp [decimal, h1]
  rw [this]
  exact ⟨h2, h3, h4⟩

theorem takeWhile_digits (ds rest : List Nat) (h : ∀ d ∈ ds, isDigit d = true) :
    (ds ++ 32 :: rest).takeWhile isDigit = ds ∧ (ds ++ 32 :: rest).dropWhile isDigit = 32 :: rest := by
  induction ds with
  | nil => simp [List.takeWhile, List.dropWhile, isDigit]
  | cons d ds ih =>
    have hd : isDigit d = true := h d (List.mem_cons_self _ _)
    have ih' := ih (fun x hx => h x (List.mem_cons_of_mem _ hx))
    simp [List.takeWhile, List.dropWhile, hd, ih'.1, ih'.2]

theorem extractUnsigned_decimal (bits n : Nat) (rest : List Nat) (h : n < 2 ^ bits) :
    extractUnsigned bits { input := decimal n ++ 32 :: rest, eofbit := false, failbit := false }
      = ({ input := 32 :: rest, eofbit := false, failbit := false }, some n) := by
  obtain ⟨h1, h2, h3⟩ := decimal_spec n
  obtain ⟨t1, t2⟩ := takeWhile_digits (decimal n) rest h2
  simp only [extractUnsigned, IStream.good, t1, t2, h3]
  simp [h1, h]

theorem ignore1_space (rest : List Nat) :
    ignore1 { input := 32 :: rest, eofbit := false, failbit := false }
      = { input := rest, eofbit := false, failbit := false } := by
  simp [ignore1, IStream.good]

theorem extractChars_append (data rest : List Nat) :
    extractChars data.length { input := data ++ rest, eofbit := false, failbit := false }
      = ({ input := rest, eofbit := false, failbit := false }, data) := by
  induction data with
  | nil => simp [extractChars]
  | cons c data ih => simp [extractChars, IStream.good, ih]

theorem readTransaction_encode (t : Transaction) (rest : List Nat) (h : WellTyped t) :
    readTransaction { input := encode t ++ rest, eofbit := false, failbit := false }
      = some ({ input := rest, eofbit := false, failbit := false }, some (stripUndo t)) := by
  obtain ⟨h1, h2, h3⟩ := h
  have e : encode t ++ rest = decimal t.transactionId ++ 32 :: (decimal t.offset ++ 32 ::
      (decimal t.newData.length ++ 32 :: (t.newData ++ rest))) := by
    unfold encode
    simp only [List.append_assoc]
    rfl
  have h3' : t.newData.length < 2 ^ 64 := by
    have : (2 : Nat) ^ 63 < 2 ^ 64 := by norm_num
    omega
  have h3'' : ¬ (2 ^ 63 ≤ t.newData.length) := by
    omega
  rw [e]
  unfold readTransaction
  simp only [extractUnsigned_decimal 32 _ _ h1, ignore1_space,
    extractUnsigned_decimal 64 _ _ h2, extractUnsigned_decimal 64 _ _ h3', h3'',
    extractChars_append, if_false, Option.getD_some, stripUndo]
  rfl

theorem encode_ne_nil (t : Transaction) : encode t ≠ [] := by
  simp [encode]

theorem readLoop_succ (fuel : Nat) (s : IStream) :
    readLoop (fuel + 1) s =
      if s.good && !s.input.isEmpty then
        match readTransaction s with
        | none => none
        | some (_, none) => some []
        | some (s', some t) => (readLoop fuel s').map (fun ts => t :: ts)
      else some [] := rfl

theorem readLoop_encodeLog (ts : List Transaction) : ∀ (fuel : Nat), ts.length < fuel →
    (∀ t ∈ ts, WellTyped t) →
    readLoop fuel { input := encodeLog ts, eofbit := false, failbit := false }
      = some (ts.map stripUndo) := by
  induction ts with
  | nil =>
    intro fuel _ _
    cases fuel with
    | zero => rfl
    | succ fuel =>
      rw [readLoop_succ]
      simp only [IStream.good, encodeLog, List.map_nil, List.flatten_nil, List.isEmpty_nil,
        Bool.not_true, Bool.and_false, Bool.false_eq_true, if_false, List.map_nil]
  | cons t ts ih =>
    intro fuel hf hw
    cases fuel with
    | zero => simp at hf
    | succ fuel =>
      have e : encodeLog (t :: ts) = encode t ++ encodeLog ts := by
        simp only [encodeLog, List.map_cons, List.flatten_cons]
      have hne : (encode t ++ encodeLog ts).isEmpty = false := by
        cases h0 : encode t ++ encodeLog ts with
        | nil => exact absurd (List.append_eq_nil.1 h0).1 (encode_ne_nil t)
        | cons _ _ => rfl
      rw [e, readLoop_succ]
      simp only [IStream.good, hne, Bool.not_false, Bool.and_self, if_true,
        readTransaction_encode t _ (hw t (List.mem_cons_self _ _))]
      rw [ih fuel (Nat.lt_of_succ_lt_succ hf) (fun x hx => hw x (List.mem_cons_of_mem _ hx))]
      rfl

theorem length_encode_pos (t : Transaction) : 0 < (encode t).length := by
  have := encode_ne_nil t
  exact List.length_pos.2 this

theorem length_le_encodeLog (ts : List Transaction) : ts.length ≤ (encodeLog ts).length := by
  induction ts with
  | nil => simp
  | cons t ts ih =>
    have e : encodeLog (t :: ts) = encode t ++ encodeLog ts := by
      simp only [encodeLog, List.map_cons, List.flatten_cons]
    have := length_encode_pos t
    rw [e, List.length_append, List.length_cons]
    omega

theorem decodeLog_encodeLog (ts : List Transaction) (h : ∀ t ∈ ts, WellTyped t) :
    decodeLog (encodeLog ts) = some (ts.map stripUndo) := by
  unfold decodeLog
  exact readLoop_encodeLog ts _ (Nat.lt_succ_of_le (length_le_encodeLog ts)) h


/-! ## C3: the log codec round trip -/

/-- C3: for every list of records whose fields fit the types of the source (any ids, offsets
and redo payloads, empty ones and ones with spaces, digits, newlines or zero bytes included),
`LogManager::getTransactionsInLog` on a log file holding the concatenation of their encodings
returns as many records, in the same order, each with the id, offset and redo bytes of its
original and an empty undo buffer; in particular a single encoded record decodes to itself
without its undo buffer. -/
theorem log_codec_round_trip (fs : Dir) (logFilePath : String) (ts : List Transaction)
    (hfile : lookupNode fs logFilePath = some (Node.regular (encodeLog ts)))
    (htyped : ∀ t ∈ ts, WellTyped t) :
    LogManager.getTransactionsInLog fs logFilePath = some (ts.map stripUndo) ∧
      (ts.map stripUndo).length = ts.length ∧
      (∀ t ∈ ts, (stripUndo t).transactionId = t.transactionId ∧ (stripUndo t).offset = t.offset ∧
        (stripUndo t).newData = t.newData ∧ (stripUndo t).oldData = []) ∧
      (∀ t ∈ ts, decodeLog (encode t) = some [stripUndo t]) := by
  refine ⟨?_, List.length_map _ _, fun t _ => ⟨rfl, rfl, rfl, rfl⟩, ?_⟩
  · simp only [LogManager.getTransactionsInLog, hfile]
    exact decodeLog_encodeLog ts htyped
  · intro t ht
    have h1 := decodeLog_encodeLog [t] (fun x hx => by
      rw [List.mem_singleton] at hx; subst hx; exact htyped _ ht)
    have e : encodeLog [t] = encode t := by
      simp only [encodeLog, List.map_cons, List.map_nil, List.flatten_cons, List.flatten_nil,
        List.append_nil]
    rw [e] at h1
    exact h1

/-- Witness for C3: three records, the second with an empty payload, the third with a zero byte,
a newline and a digit in its payload and an undo buffer that is not stored. -/
theorem log_codec_round_trip_witness :
    LogManager.getTransactionsInLog
        [("f.log", Node.regular (encodeLog
          [⟨3, 10, [], [65, 32, 48]⟩, ⟨0, 0, [], []⟩, ⟨7, 5, [9], [0, 10, 49]⟩]))] "f.log"
      = some [⟨3, 10, [], [65, 32, 48]⟩, ⟨0, 0, [], []⟩, ⟨7, 5, [], [0, 10, 49]⟩] :=
  (log_codec_round_trip
    [("f.log", Node.regular (encodeLog
      [⟨3, 10, [], [65, 32, 48]⟩, ⟨0, 0, [], []⟩, ⟨7, 5, [9], [0, 10, 49]⟩]))] "f.log"
    [⟨3, 10, [], [65, 32, 48]⟩, ⟨0, 0, [], []⟩, ⟨7, 5, [9], [0, 10, 49]⟩] rfl (by decide)).1

/-! ## C7: what `gtfs_read_file` returns -/

theorem toSizeT_natCast {n : Nat} (h : n < 2 ^ 64) : toSizeT (n : Int) = n := by
  unfold toSizeT
  have h2 : ((n : Int) % 2 ^ 64) = (n : Int) := by
    apply Int.emod_eq_of_lt
    · exact Int.natCast_nonneg n
    · exact_mod_cast h
  rw [h2]
  exact Int.toNat_natCast n

theorem lt_two_pow_64_of_lt_31 {n : Nat} (h : n < 2 ^ 31) : n < 2 ^ 64 := by
  have : (2 : Nat) ^ 31 < 2 ^ 64 := by norm_num
  omega

theorem readData_natCast (segment : List Nat) {offset length : Nat} (ho : offset < 2 ^ 64) :
    readData segment (offset : Int) (length : Int) = (segment.drop offset).take length := by
  unfold readData
  rw [toSizeT_natCast ho]
  have hl : ¬ ((length : Int) < 0) := by omega
  simp only [hl, if_false, Int.toNat_natCast]
  split
  · rfl
  · rename_i h
    rw [List.drop_eq_nil_of_le (by omega), List.take_nil]

theorem gtfs_read_file_open (g : gtfs_t) (f : file_t) (m : TransactionManager)
    (offset length : Nat) (hopen : f.fileDescriptor ≠ -1) (hm : f.transactionManager = some m)
    (ho : offset < 2 ^ 64) :
    gtfs_read_file (some g) (some f) offset length
      = some (some (cString ((m.vmSegment.drop offset).take length))) := by
  simp only [gtfs_read_file, hopen, if_false, hm, readData_natCast _ ho]

/-- C7 as the code has it: on an open file with segment `s`, for every `offset` in the
non-negative range of `int` and every `length ≥ 0`, `gtfs_read_file` returns a non-null buffer holding the bytes of
`s[offset .. offset + min(length, |s| - offset))` that come before the first zero byte of that
slice, and a non-null empty buffer when `offset ≥ |s|`. -/
theorem read_returns_slice_up_to_first_zero (g : gtfs_t) (f : file_t) (m : TransactionManager)
    (offset length : Nat) (hopen : f.fileDescriptor ≠ -1) (hm : f.transactionManager = some m)
    (ho : offset < 2 ^ 31) :
    gtfs_read_file (some g) (some f) offset length
        = some (some (((m.vmSegment.drop offset).take
            (min length (m.vmSegment.length - offset))).takeWhile (fun c => decide (c ≠ 0)))) ∧
      (m.vmSegment.length ≤ offset →
        gtfs_read_file (some g) (some f) offset length = some (some [])) := by
  have hread := gtfs_read_file_open g f m offset length hopen hm
    (lt_two_pow_64_of_lt_31 ho)
  have hmin : (m.vmSegment.drop offset).take (min length (m.vmSegment.length - offset))
      = (m.vmSegment.drop offset).take length := by
    rw [← List.length_drop, ← List.take_take, List.take_length]
  refine ⟨?_, ?_⟩
  · rw [hread, hmin]; rfl
  · intro hle
    rw [hread, List.drop_eq_nil_of_le hle, List.take_nil]
    rfl

/-- Witness for C7: the read of the test, 10 bytes at offset 16 of a 100-byte segment whose first
16 bytes are written, returns the empty string. -/
theorem read_returns_slice_up_to_first_zero_witness :
    gtfs_read_file (some ⟨"d"⟩)
        (some ⟨"test7.txt", 100, 3,
          some (TransactionManager.new "test7.txt"
            (List.replicate 16 84 ++ List.replicate 84 0))⟩) (16 : Nat) (10 : Nat)
      = some (some []) := by
  have h := (read_returns_slice_up_to_first_zero ⟨"d"⟩
    ⟨"test7.txt", 100, 3,
      some (TransactionManager.new "test7.txt" (List.replicate 16 84 ++ List.replicate 84 0))⟩
    (TransactionManager.new "test7.txt" (List.replicate 16 84 ++ List.replicate 84 0))
    16 10 (by decide) rfl (by norm_num)).1
  rw [h]
  decide

/-- Counterexample to C7 as stated: on the segment `A \0 B` the read of 3 bytes at offset 0
returns the one-byte string `A`, not the slice `A \0 B`; and the read of the test returns an
empty buffer, not 10 zero bytes. -/
theorem read_stops_at_zero_byte :
    gtfs_read_file (some ⟨"d"⟩) (some ⟨"f", 3, 3, some (TransactionManager.new "f" [65, 0, 66])⟩)
        0 3 = some (some [65]) ∧
      ([65, 0, 66].drop 0).take (min 3 (3 - 0)) = [65, 0, 66] ∧
      gtfs_read_file (some ⟨"d"⟩) (some ⟨"f", 3, 3, some (TransactionManager.new "f" [65, 0, 66])⟩)
        0 3 ≠ some (some (([65, 0, 66].drop 0).take (min 3 (3 - 0)))) := by
  decide


/-! ## The transaction table -/

theorem findErase_eq_none {id : Nat} {ts : List Transaction} :
    findErase id ts = none ↔ ∀ t ∈ ts, t.transactionId ≠ id := by
  induction ts with
  | nil => simp [findErase]
  | cons t ts ih =>
    by_cases h : t.transactionId = id
    · simp [findErase, h]
    · simp [findErase, h, ih]

theorem findErase_some {id : Nat} {ts : List Transaction} {t : Transaction}
    {rest : List Transaction} (h : findErase id ts = some (t, rest)) :
    t ∈ ts ∧ t.transactionId = id ∧ rest.Sublist ts := by
  induction ts generalizing rest with
  | nil => simp [findErase] at h
  | cons x ts ih =>
    by_cases hx : x.transactionId = id
    · simp only [findErase, hx, if_true, Option.some.injEq, Prod.mk.injEq] at h
      obtain ⟨h1, h2⟩ := h
      subst h1 h2
      exact ⟨List.mem_cons_self _ _, hx, List.sublist_cons_self _ _⟩
    · simp only [findErase, hx, if_false, Option.map_eq_some'] at h
      obtain ⟨⟨t', rest'⟩, h1, h2⟩ := h
      simp only [Prod.mk.injEq] at h2
      obtain ⟨h3, h4⟩ := h2
      subst h3 h4
      obtain ⟨i1, i2, i3⟩ := ih h1
      exact ⟨List.mem_cons_of_mem _ i1, i2, i3.cons₂ _⟩

theorem findErase_of_mem {ts : List Transaction} {t : Transaction}
    (hp : ts.Pairwise (fun x y => x.transactionId < y.transactionId)) (ht : t ∈ ts) :
    findErase t.transactionId ts = some (t, withoutId ts t.transactionId) := by
  unfold withoutId
  induction ts with
  | nil => simp at ht
  | cons x ts ih =>
    rw [List.pairwise_cons] at hp
    obtain ⟨hx, hp'⟩ := hp
    rcases List.mem_cons.1 ht with h | h
    · subst h
      have hf : ts.filter (fun x => decide (x.transactionId ≠ t.transactionId)) = ts := by
        apply List.filter_eq_self.2
        intro y hy
        have := hx y hy
        simp only [ne_eq, decide_not, Bool.not_eq_eq_eq_not, Bool.not_true, decide_eq_false_iff_not]
        omega
      simp only [findErase, if_true, ne_eq, not_true_eq_false, decide_False, List.filter_cons_of_neg,
        Bool.false_eq_true, not_false_eq_true]
      simp only [ne_eq] at hf
      rw [hf]
    · have hne : x.transactionId ≠ t.transactionId := by
        have := hx t h
        omega
      have hd : decide (x.transactionId ≠ t.transactionId) = true := by simp [hne]
      simp only [findErase, hne, if_false, ih hp' h, Option.map_some', List.filter_cons, hd, if_true]

theorem mem_withoutId {ts : List Transaction} {id : Nat} {x : Transaction} :
    x ∈ withoutId ts id ↔ x ∈ ts ∧ x.transactionId ≠ id := by
  simp [withoutId, List.mem_filter]

theorem eq_of_transactionId_eq {ts : List Transaction}
    (hp : ts.Pairwise (fun x y => x.transactionId < y.transactionId)) {a b : Transaction}
    (ha : a ∈ ts) (hb : b ∈ ts) (hab : a.transactionId = b.transactionId) : a = b := by
  induction ts with
  | nil => simp at ha
  | cons x ts ih =>
    rw [List.pairwise_cons] at hp
    obtain ⟨hx, hp'⟩ := hp
    rcases List.mem_cons.1 ha with ha | ha <;> rcases List.mem_cons.1 hb with hb | hb
    · rw [ha, hb]
    · rw [ha] at hab
      have := hx b hb
      omega
    · rw [hb] at hab
      have := hx a ha
      omega
    · exact ih hp' ha hb

/-! ## Replay and the segment length -/

theorem le_foldl_max (ts : List Transaction) (a : Nat) :
    a ≤ ts.foldl (fun m t => max m (t.offset + t.newData.length)) a ∧
      ∀ t ∈ ts, t.offset + t.newData.length
        ≤ ts.foldl (fun m t => max m (t.offset + t.newData.length)) a := by
  induction ts generalizing a with
  | nil => simp
  | cons x ts ih =>
    simp only [List.foldl_cons]
    obtain ⟨h1, h2⟩ := ih (max a (x.offset + x.newData.length))
    refine ⟨le_trans (le_max_left _ _) h1, ?_⟩
    intro t ht
    rcases List.mem_cons.1 ht with h | h
    · subst h
      exact le_trans (le_max_right _ _) h1
    · exact h2 t h

theorem le_maxOffset {ts : List Transaction} {t : Transaction} (h : t ∈ ts) :
    t.offset + t.newData.length ≤ maxOffset ts :=
  (le_foldl_max ts 0).2 t h

theorem length_applyRedo (ts : List Transaction) (segment : List Nat)
    (h : ∀ t ∈ ts, t.offset + t.newData.length ≤ segment.length) :
    (applyRedo segment ts).length = segment.length := by
  induction ts generalizing segment with
  | nil => rfl
  | cons x ts ih =>
    have hx := h x (List.mem_cons_self _ _)
    have hl := length_copyInto hx
    simp only [applyRedo, List.foldl_cons]
    have := ih (copyInto segment x.offset x.newData) (fun t ht => by
      rw [hl]; exact h t (List.mem_cons_of_mem _ ht))
    simp only [applyRedo] at this
    rw [this, hl]

theorem length_replaySegment (segment : List Nat) (ts : List Transaction) :
    (replaySegment segment ts).length = max segment.length (maxOffset ts) := by
  cases ts with
  | nil => simp [replaySegment, maxOffset]
  | cons x ts =>
    simp only [replaySegment]
    split
    · rename_i hgt
      rw [length_applyRedo _ _ (fun t ht => by
        rw [length_resize]; exact le_maxOffset ht), length_resize]
      omega
    · rename_i hle
      rw [length_applyRedo _ _ (fun t ht => by
        have := le_maxOffset ht
        omega)]
      omega

theorem length_le_replaySegment (segment : List Nat) (ts : List Transaction) :
    segment.length ≤ (replaySegment segment ts).length := by
  rw [length_replaySegment]
  exact le_max_left _ _

/-! ## The table invariant -/

theorem copyInto_nil (dst : List Nat) (pos : Nat) : copyInto dst pos [] = dst := by
  simp [copyInto]

theorem length_copyInto_guard {dst : List Nat} {pos : Nat} {src : List Nat}
    (h : src.length = 0 ∨ pos + src.length ≤ dst.length) :
    (copyInto dst pos src).length = dst.length := by
  rcases h with h | h
  · rw [List.length_eq_zero.1 h, copyInto_nil]
  · exact length_copyInto h

theorem oldSize_le (segSize offset length : Nat) : oldSize segSize offset length ≤ length := by
  unfold oldSize
  simp only [Nat.max_zero] 
  exact min_le_left _ _

theorem createTransaction_some {b b' : BaseTransactionManager} {offset length id : Nat}
    {newData : List Nat} (h : createTransaction b offset length newData = some (b', id)) :
    id = b.totalTransactionCount ∧ b'.totalTransactionCount = b.totalTransactionCount + 1 ∧
      b'.uncommittedTransactions = b.uncommittedTransactions ++
        [{ transactionId := b.totalTransactionCount
           offset := offset
           oldData := (b.vmSegment.drop offset).take (oldSize b.vmSegment.length offset length)
           newData := newData.take length }] ∧
      b'.vmSegment.length = max b.vmSegment.length (offset + length) ∧
      length ≤ newData.length ∧
      (oldSize b.vmSegment.length offset length = 0 ∨
        offset + oldSize b.vmSegment.length offset length ≤ b.vmSegment.length) := by
  unfold createTransaction at h
  simp only at h
  split at h
  · rename_i hc
    simp only [Option.some.injEq, Prod.mk.injEq] at h
    obtain ⟨h1, h2⟩ := h
    subst h1
    refine ⟨h2.symm, rfl, rfl, ?_, hc.2, hc.1⟩
    have hlen : (newData.take length).length = length := by
      rw [List.length_take]; exact min_eq_left hc.2
    simp only [createSegment]
    split
    · rename_i hgt
      rw [length_copyInto (by rw [length_resize, hlen]), length_resize]
      omega
    · rename_i hle
      rw [length_copyInto (by rw [hlen]; omega)]
      omega
  · simp at h

theorem tableInvariant_create {b b' : BaseTransactionManager} {offset length id : Nat}
    {newData : List Nat} (hinv : TableInvariant b)
    (h : createTransaction b offset length newData = some (b', id)) : TableInvariant b' := by
  obtain ⟨h1, h2, h3, h4, _, _⟩ := createTransaction_some h
  obtain ⟨i1, i2, i3⟩ := hinv
  refine ⟨?_, ?_, ?_⟩
  · intro t ht
    rw [h3] at ht
    rw [h2]
    rcases List.mem_append.1 ht with ht | ht
    · exact Nat.lt_succ_of_lt (i1 t ht)
    · rw [List.mem_singleton] at ht
      subst ht
      exact Nat.lt_succ_self _
  · rw [h3, List.pairwise_append]
    refine ⟨i2, List.pairwise_singleton _ _, ?_⟩
    intro x hx y hy
    rw [List.mem_singleton] at hy
    subst hy
    exact i1 x hx
  · intro t ht
    rw [h3] at ht
    rw [h4]
    rcases List.mem_append.1 ht with ht | ht
    · exact le_trans (i3 t ht) (le_max_left _ _)
    · rw [List.mem_singleton] at ht
      subst ht
      simp only [List.length_take, List.length_drop]
      have := oldSize_le b.vmSegment.length offset length
      omega

theorem tableInvariant_sublist {b : BaseTransactionManager} {rest : List Transaction}
    {segment : List Nat} (hinv : TableInvariant b) (hs : rest.Sublist b.uncommittedTransactions)
    (hl : b.vmSegment.length ≤ segment.length) :
    TableInvariant { b with vmSegment := segment, uncommittedTransactions := rest } := by
  obtain ⟨i1, i2, i3⟩ := hinv
  exact ⟨fun t ht => i1 t (hs.subset ht), i2.sublist hs,
    fun t ht => le_trans (i3 t (hs.subset ht)) hl⟩

theorem abortTransaction_cases {b b' : BaseTransactionManager} {id : Nat} {ret : Int}
    (h : abortTransaction b id = some (b', ret)) :
    (findErase id b.uncommittedTransactions = none ∧ b' = b ∧ ret = -1) ∨
      ∃ t rest, findErase id b.uncommittedTransactions = some (t, rest) ∧ ret = 0 ∧
        (t.oldData.length = 0 ∨ t.offset + t.oldData.length ≤ b.vmSegment.length) ∧
        b' = { b with vmSegment := copyInto b.vmSegment t.offset t.oldData
                      uncommittedTransactions := rest } := by
  unfold abortTransaction at h
  split at h
  · rename_i hf
    simp only [Option.some.injEq, Prod.mk.injEq] at h
    exact Or.inl ⟨hf, h.1.symm, h.2.symm⟩
  · rename_i t rest hf
    split at h
    · rename_i hg
      simp only [Option.some.injEq, Prod.mk.injEq] at h
      exact Or.inr ⟨t, rest, hf, h.2.symm, hg, h.1.symm⟩
    · simp at h

theorem tableInvariant_abort {b b' : BaseTransactionManager} {id : Nat} {ret : Int}
    (hinv : TableInvariant b) (h : abortTransaction b id = some (b', ret)) : TableInvariant b' := by
  rcases abortTransaction_cases h with ⟨_, h2, _⟩ | ⟨t, rest, hf, _, hg, h4⟩
  · rw [h2]; exact hinv
  · rw [h4]
    exact tableInvariant_sublist hinv (findErase_some hf).2.2
      (le_of_eq (length_copyInto_guard hg).symm)

theorem commitTransaction_cases (fs : Dir) (m : TransactionManager) (id : Nat) (bytes : Int) :
    (commitTransaction fs m id bytes = (fs, m, -1)) ∨
      ∃ t rest, findErase id m.uncommittedTransactions = some (t, rest) ∧
        ¬ (bytes ≠ -1 ∧ toSizeT bytes > t.newData.length) ∧
        commitTransaction fs m id bytes =
          ((LogManager.writeTransaction fs m.logFilePath
              (if bytes ≠ -1 then { t with newData := resize t.newData (toSizeT bytes) } else t)).1,
            { m with uncommittedTransactions := rest }, 0) := by
  unfold commitTransaction
  split
  · exact Or.inl rfl
  · rename_i t rest hf
    split
    · exact Or.inl rfl
    · rename_i hb
      exact Or.inr ⟨t, rest, hf, hb, rfl⟩

theorem tableInvariant_commit (fs : Dir) (m : TransactionManager) (id : Nat) (bytes : Int)
    (hinv : TableInvariant m.toBaseTransactionManager) :
    TableInvariant (commitTransaction fs m id bytes).2.1.toBaseTransactionManager := by
  rcases commitTransaction_cases fs m id bytes with h | ⟨t, rest, hf, _, h⟩
  · rw [h]; exact hinv
  · rw [h]
    exact tableInvariant_sublist hinv (findErase_some hf).2.2 (le_refl _)

theorem tableInvariant_replay (b : BaseTransactionManager) (ts : List Transaction)
    (hinv : TableInvariant b) : TableInvariant (replayTransactions b ts).1 :=
  tableInvariant_sublist hinv (List.Sublist.refl _) (length_le_replaySegment _ _)

theorem tableInvariant_step {s s' : Dir × TransactionManager} {op : Op} {ret : Int}
    (hinv : TableInvariant s.2.toBaseTransactionManager) (h : step s op = some (s', ret)) :
    TableInvariant s'.2.toBaseTransactionManager := by
  cases op with
  | create offset length newData =>
    simp only [step, Option.map_eq_some'] at h
    obtain ⟨⟨b, id⟩, h1, h2⟩ := h
    simp only [Prod.mk.injEq] at h2
    rw [← h2.1]
    exact tableInvariant_create hinv h1
  | commit id bytes =>
    simp only [step, Option.some.injEq, Prod.mk.injEq] at h
    rw [← h.1]
    exact tableInvariant_commit s.1 s.2 id bytes hinv
  | abort id =>
    simp only [step, Option.map_eq_some'] at h
    obtain ⟨⟨b, r⟩, h1, h2⟩ := h
    simp only [Prod.mk.injEq] at h2
    rw [← h2.1]
    exact tableInvariant_abort hinv h1
  | replay ts =>
    simp only [step, Option.some.injEq, Prod.mk.injEq] at h
    rw [← h.1]
    exact tableInvariant_replay _ ts hinv

theorem run_cons_some {s s' : Dir × TransactionManager} {op : Op} {ops : List Op}
    (h : run s (op :: ops) = some s') :
    ∃ s1 ret, step s op = some (s1, ret) ∧ run s1 ops = some s' := by
  simp only [run] at h
  split at h
  · simp at h
  · rename_i s1 ret hs
    exact ⟨s1, ret, hs, h⟩

theorem tableInvariant_run {ops : List Op} : ∀ {s s' : Dir × TransactionManager},
    TableInvariant s.2.toBaseTransactionManager → run s ops = some s' →
    TableInvariant s'.2.toBaseTransactionManager := by
  induction ops with
  | nil =>
    intro s s' hinv h
    simp only [run, Option.some.injEq] at h
    rw [← h]; exact hinv
  | cons op ops ih =>
    intro s s' hinv h
    obtain ⟨s1, ret, h1, h2⟩ := run_cons_some h
    exact ih (tableInvariant_step hinv h1) h2

theorem tableInvariant_new (path : String) (segment : List Nat) :
    TableInvariant (TransactionManager.new path segment).toBaseTransactionManager := by
  refine ⟨?_, ?_, ?_⟩ <;>
    simp [TransactionManager.new, BaseTransactionManager.new]

theorem tableInvariant_of_reachable {m : TransactionManager} (h : Reachable m) :
    TableInvariant m.toBaseTransactionManager := by
  obtain ⟨fs, path, segment, ops, fs', hrun⟩ := h
  exact tableInvariant_run (tableInvariant_new path segment) hrun


/-! ## The directory -/

theorem lookupNode_storeNode (d : Dir) (n : String) (x : Node) (m : String) :
    lookupNode (storeNode d n x) m = if m = n then some x else lookupNode d m := by
  induction d with
  | nil =>
    by_cases h : m = n
    · simp [storeNode, lookupNode, h]
    · have h' : ¬ n = m := fun e => h e.symm
      simp [storeNode, lookupNode, h, h']
  | cons e d ih =>
    obtain ⟨n', y⟩ := e
    by_cases hn : n' = n
    · subst hn
      by_cases h : m = n'
      · subst h
        simp [storeNode, lookupNode]
      · have h' : ¬ n' = m := fun e => h e.symm
        simp [storeNode, lookupNode, h, h']
    · by_cases h : m = n
      · subst h
        simp [storeNode, lookupNode, hn, ih]
      · simp [storeNode, lookupNode, hn, ih, h]

theorem lookupNode_removeNode (d : Dir) (n m : String) :
    lookupNode (removeNode d n) m = if m = n then none else lookupNode d m := by
  induction d with
  | nil => simp [removeNode, lookupNode]
  | cons e d ih =>
    obtain ⟨n', y⟩ := e
    by_cases hn : n' = n
    · subst hn
      by_cases h : m = n'
      · subst h
        simp [removeNode, lookupNode, ih]
      · have h' : ¬ n' = m := fun e => h e.symm
        simp [removeNode, lookupNode, ih, h, h']
    · by_cases h : m = n
      · subst h
        simp [removeNode, lookupNode, hn, ih]
      · simp [removeNode, lookupNode, hn, ih, h]

theorem readFile_storeNode (d : Dir) (n : String) (c : List Nat) (m : String) :
    readFile (storeNode d n (Node.regular c)) m = if m = n then c else readFile d m := by
  unfold readFile
  rw [lookupNode_storeNode]
  by_cases h : m = n <;> simp [h]

theorem readFile_of_lookup {fs : Dir} {path : String} {c : List Nat}
    (h : lookupNode fs path = some (Node.regular c)) : readFile fs path = c := by
  unfold readFile
  rw [h]

theorem writeTransaction_eq {fs : Dir} {path : String} (t : Transaction)
    (h : lookupNode fs path ≠ some Node.directory) :
    LogManager.writeTransaction fs path t
      = (storeNode fs path (Node.regular (readFile fs path ++ encode t)), 0) := by
  unfold LogManager.writeTransaction readFile
  cases hl : lookupNode fs path with
  | none => simp
  | some x =>
    cases x with
    | regular c => simp
    | directory => exact absurd hl h

/-! ## C5: partial commit -/

theorem ne_neg_one_natCast (n : Nat) : (n : Int) ≠ -1 := by omega

theorem resize_eq_take {v : List Nat} {n : Nat} (h : n ≤ v.length) : resize v n = v.take n := by
  simp [resize, Nat.sub_eq_zero_of_le h]

theorem commitTransaction_budget {fs : Dir} {m : TransactionManager} {t : Transaction} {n : Nat}
    (hinv : TableInvariant m.toBaseTransactionManager) (ht : t ∈ m.uncommittedTransactions)
    (hn : n ≤ t.newData.length) (hint : n < 2 ^ 31)
    (hlog : lookupNode fs m.logFilePath ≠ some Node.directory) :
    commitTransaction fs m t.transactionId n =
      (storeNode fs m.logFilePath (Node.regular (readFile fs m.logFilePath ++
          encode ⟨t.transactionId, t.offset, t.oldData, t.newData.take n⟩)),
        { m with uncommittedTransactions := withoutId m.uncommittedTransactions t.transactionId },
        0) := by
  unfold commitTransaction
  rw [findErase_of_mem hinv.2.1 ht]
  have hs : toSizeT (n : Int) = n := toSizeT_natCast (lt_two_pow_64_of_lt_31 hint)
  have hgt : ¬ (n > t.newData.length) := by omega
  simp only [ne_neg_one_natCast n, ne_eq, not_false_eq_true, if_true, hs, true_and, hgt, if_false,
    resize_eq_take hn, writeTransaction_eq _ hlog]

theorem commitTransaction_whole {fs : Dir} {m : TransactionManager} {t : Transaction}
    (hinv : TableInvariant m.toBaseTransactionManager) (ht : t ∈ m.uncommittedTransactions)
    (hlog : lookupNode fs m.logFilePath ≠ some Node.directory) :
    commitTransaction fs m t.transactionId (-1) =
      (storeNode fs m.logFilePath (Node.regular (readFile fs m.logFilePath ++ encode t)),
        { m with uncommittedTransactions := withoutId m.uncommittedTransactions t.transactionId },
        0) := by
  unfold commitTransaction
  rw [findErase_of_mem hinv.2.1 ht]
  simp only [ne_eq, not_true_eq_false, false_and, if_false, writeTransaction_eq _ hlog]

/-- A budgeted commit on a log that can be opened: for every reachable manager, every
transaction `t` of its table and every `n` with `0 ≤ n ≤ |t.redo|` (an `int`), when the log path
can be opened for appending,
`commitTransaction(t.id, n)` returns 0, appends to the log file exactly the encoding of one record
with `t`'s id, `t`'s offset and the first `n` redo bytes and touches no other file, removes `t`
(and nothing else) from the table and leaves the segment and the counter as they are; with
`n = |t.redo|` everything is as after `commitTransaction(t.id)`, and the same holds through
`gtfs_sync_write_file_n_bytes` and `gtfs_sync_write_file` on an open handle. -/
theorem partial_commit (fs : Dir) (m : TransactionManager) (t : Transaction) (n : Nat)
    (hreach : Reachable m) (ht : t ∈ m.uncommittedTransactions) (hn : n ≤ t.newData.length)
    (hint : n < 2 ^ 31) (hlog : lookupNode fs m.logFilePath ≠ some Node.directory) :
    ∃ (fs' : Dir) (m' : TransactionManager),
      commitTransaction fs m t.transactionId n = (fs', m', 0) ∧
      readFile fs' m.logFilePath = readFile fs m.logFilePath ++
        encode ⟨t.transactionId, t.offset, [], t.newData.take n⟩ ∧
      (∀ name, name ≠ m.logFilePath → lookupNode fs' name = lookupNode fs name) ∧
      t ∉ m'.uncommittedTransactions ∧
      (∀ x, x ∈ m'.uncommittedTransactions ↔ x ∈ m.uncommittedTransactions ∧ x ≠ t) ∧
      m'.vmSegment = m.vmSegment ∧ m'.totalTransactionCount = m.totalTransactionCount ∧
      m'.logFilePath = m.logFilePath ∧
      (n = t.newData.length →
        commitTransaction fs m t.transactionId n = commitTransaction fs m t.transactionId (-1)) ∧
      (∀ (f : file_t) (wr : write_t), f.transactionManager = some m →
        wr.transactionId = t.transactionId →
        gtfs_sync_write_file_n_bytes fs (some wr) (some f) n
            = some (fs', some { f with transactionManager := some m' }, 0) ∧
          (n = t.newData.length →
            gtfs_sync_write_file_n_bytes fs (some wr) (some f) n
              = some (gtfs_sync_write_file fs (some wr) (some f)))) := by
  have hinv := tableInvariant_of_reachable hreach
  have hc := commitTransaction_budget hinv ht hn hint hlog
  have hw := commitTransaction_whole hinv ht hlog
  have hmem : ∀ x, x ∈ withoutId m.uncommittedTransactions t.transactionId ↔
      x ∈ m.uncommittedTransactions ∧ x ≠ t := by
    intro x
    rw [mem_withoutId]
    constructor
    · rintro ⟨h1, h2⟩
      exact ⟨h1, fun e => h2 (by rw [e])⟩
    · rintro ⟨h1, h2⟩
      exact ⟨h1, fun e => h2 (eq_of_transactionId_eq hinv.2.1 h1 ht e)⟩
  have heq : n = t.newData.length →
      commitTransaction fs m t.transactionId n = commitTransaction fs m t.transactionId (-1) := by
    intro hlen
    rw [hc, hw, hlen, List.take_length]
  refine ⟨_, _, hc, ?_, ?_, ?_, hmem, rfl, rfl, rfl, heq, ?_⟩
  · rw [readFile_storeNode]
    simp [encode]
  · intro name hname
    rw [lookupNode_storeNode]
    simp [hname]
  · intro hmem'
    exact ((hmem t).1 hmem').2 rfl
  · intro f wr hf hwr
    constructor
    · simp only [gtfs_sync_write_file_n_bytes, hf, hwr, hc]
    · intro hlen
      simp only [gtfs_sync_write_file_n_bytes, gtfs_sync_write_file, hf, hwr, heq hlen]


/-! ## C8, C9, C10: commits and aborts that fail -/

theorem findErase_rest {ts : List Transaction} {id : Nat} {t : Transaction}
    {rest : List Transaction}
    (hp : ts.Pairwise (fun x y => x.transactionId < y.transactionId))
    (h : findErase id ts = some (t, rest)) : rest = withoutId ts id := by
  obtain ⟨h1, h2, _⟩ := findErase_some h
  have h3 := findErase_of_mem hp h1
  rw [h2, h] at h3
  simp only [Option.some.injEq, Prod.mk.injEq, true_and] at h3
  exact h3

theorem commitTransaction_unknown (fs : Dir) (m : TransactionManager) (id : Nat) (bytes : Int)
    (h : ∀ t ∈ m.uncommittedTransactions, t.transactionId ≠ id) :
    commitTransaction fs m id bytes = (fs, m, -1) := by
  unfold commitTransaction
  rw [findErase_eq_none.2 h]

theorem abortTransaction_unknown (b : BaseTransactionManager) (id : Nat)
    (h : ∀ t ∈ b.uncommittedTransactions, t.transactionId ≠ id) :
    abortTransaction b id = some (b, -1) := by
  unfold abortTransaction
  rw [findErase_eq_none.2 h]

theorem abortTransaction_known {b : BaseTransactionManager} {t : Transaction}
    (hinv : TableInvariant b) (ht : t ∈ b.uncommittedTransactions) :
    abortTransaction b t.transactionId =
      some ({ b with vmSegment := copyInto b.vmSegment t.offset t.oldData
                     uncommittedTransactions :=
                       withoutId b.uncommittedTransactions t.transactionId }, 0) := by
  unfold abortTransaction
  rw [findErase_of_mem hinv.2.1 ht]
  simp only [hinv.2.2 t ht, or_true, if_true]

/-- C8: for every reachable manager, every transaction `t` of its table and every `int`
`n > |t.redo|`, `commitTransaction(t.id, n)` returns -1 and leaves the directory (the log file
included) and the manager (segment, counter and table, with `t` and its full redo and undo) as
they are, and so does `gtfs_sync_write_file_n_bytes` on an open handle; a following
`commitTransaction(t.id)` returns 0 and a following `abortTransaction(t.id)` returns 0. -/
theorem over_budget_commit_rejected (fs : Dir) (m : TransactionManager) (t : Transaction)
    (n : Nat) (hreach : Reachable m) (ht : t ∈ m.uncommittedTransactions)
    (hn : t.newData.length < n) (hint : n < 2 ^ 31) :
    commitTransaction fs m t.transactionId n = (fs, m, -1) ∧
      (∀ (f : file_t) (wr : write_t), f.transactionManager = some m →
        wr.transactionId = t.transactionId →
        gtfs_sync_write_file_n_bytes fs (some wr) (some f) n = some (fs, some f, -1)) ∧
      (commitTransaction fs m t.transactionId (-1)).2.2 = 0 ∧
      (∃ b, abortTransaction m.toBaseTransactionManager t.transactionId = some (b, 0)) := by
  have hinv := tableInvariant_of_reachable hreach
  have hc : commitTransaction fs m t.transactionId n = (fs, m, -1) := by
    unfold commitTransaction
    rw [findErase_of_mem hinv.2.1 ht]
    have hs : toSizeT (n : Int) = n := toSizeT_natCast (lt_two_pow_64_of_lt_31 hint)
    simp only [ne_neg_one_natCast n, ne_eq, not_false_eq_true, hs, true_and, gt_iff_lt, hn,
      if_true]
  refine ⟨hc, ?_, ?_, ?_⟩
  · intro f wr hf hwr
    simp only [gtfs_sync_write_file_n_bytes, hf, hwr, hc]
    cases f
    simp only at hf
    subst hf
    rfl
  · unfold commitTransaction
    rw [findErase_of_mem hinv.2.1 ht]
    simp
  · exact ⟨_, abortTransaction_known hinv ht⟩

/-- The id is below the counter and no transaction of the table carries it. -/
theorem gone_step {id : Nat} {s s' : Dir × TransactionManager} {op : Op} {ret : Int}
    (hg : id < s.2.totalTransactionCount ∧ ∀ t ∈ s.2.uncommittedTransactions, t.transactionId ≠ id)
    (h : step s op = some (s', ret)) :
    id < s'.2.totalTransactionCount ∧
      ∀ t ∈ s'.2.uncommittedTransactions, t.transactionId ≠ id := by
  obtain ⟨g1, g2⟩ := hg
  cases op with
  | create offset length newData =>
    simp only [step, Option.map_eq_some'] at h
    obtain ⟨⟨b, i⟩, h1, h2⟩ := h
    simp only [Prod.mk.injEq] at h2
    rw [← h2.1]
    obtain ⟨_, c2, c3, _⟩ := createTransaction_some h1
    refine ⟨by simp only [c2]; omega, ?_⟩
    intro t ht
    simp only [c3] at ht
    rcases List.mem_append.1 ht with ht | ht
    · exact g2 t ht
    · rw [List.mem_singleton] at ht
      subst ht
      simp only
      omega
  | commit i bytes =>
    simp only [step, Option.some.injEq, Prod.mk.injEq] at h
    rw [← h.1]
    rcases commitTransaction_cases s.1 s.2 i bytes with hc | ⟨t, rest, hf, _, hc⟩
    · rw [hc]; exact ⟨g1, g2⟩
    · rw [hc]
      exact ⟨g1, fun x hx => g2 x ((findErase_some hf).2.2.subset hx)⟩
  | abort i =>
    simp only [step, Option.map_eq_some'] at h
    obtain ⟨⟨b, r⟩, h1, h2⟩ := h
    simp only [Prod.mk.injEq] at h2
    rw [← h2.1]
    rcases abortTransaction_cases h1 with ⟨_, hb, _⟩ | ⟨t, rest, hf, _, _, hb⟩
    · rw [hb]; exact ⟨g1, g2⟩
    · rw [hb]
      exact ⟨g1, fun x hx => g2 x ((findErase_some hf).2.2.subset hx)⟩
  | replay ts =>
    simp only [step, Option.some.injEq, Prod.mk.injEq] at h
    rw [← h.1]
    exact ⟨g1, g2⟩

theorem gone_run {id : Nat} {ops : List Op} : ∀ {s s' : Dir × TransactionManager},
    (id < s.2.totalTransactionCount ∧ ∀ t ∈ s.2.uncommittedTransactions, t.transactionId ≠ id) →
    run s ops = some s' →
    id < s'.2.totalTransactionCount ∧
      ∀ t ∈ s'.2.uncommittedTransactions, t.transactionId ≠ id := by
  induction ops with
  | nil =>
    intro s s' hg h
    simp only [run, Option.some.injEq] at h
    rw [← h]; exact hg
  | cons op ops ih =>
    intro s s' hg h
    obtain ⟨s1, ret, h1, h2⟩ := run_cons_some h
    exact ih (gone_step hg h1) h2

theorem gone_of_left {id : Nat} {s1 s2 : Dir × TransactionManager}
    (hinv : TableInvariant s1.2.toBaseTransactionManager)
    (h : (∃ bytes, step s1 (Op.commit id bytes) = some (s2, 0)) ∨
      step s1 (Op.abort id) = some (s2, 0)) :
    id < s2.2.totalTransactionCount ∧
      ∀ t ∈ s2.2.uncommittedTransactions, t.transactionId ≠ id := by
  rcases h with ⟨bytes, h⟩ | h
  · simp only [step, Option.some.injEq, Prod.mk.injEq] at h
    obtain ⟨he, hr⟩ := h
    rw [← he]
    rcases commitTransaction_cases s1.1 s1.2 id bytes with hc | ⟨t, rest, hf, _, hc⟩
    · rw [hc] at hr
      simp at hr
    · rw [hc]
      obtain ⟨f1, f2, _⟩ := findErase_some hf
      refine ⟨by rw [← f2]; exact hinv.1 t f1, ?_⟩
      intro x hx
      simp only at hx
      rw [findErase_rest hinv.2.1 hf] at hx
      exact (mem_withoutId.1 hx).2
  · simp only [step, Option.map_eq_some'] at h
    obtain ⟨⟨b, r⟩, h1, h2⟩ := h
    simp only [Prod.mk.injEq] at h2
    rw [← h2.1]
    rcases abortTransaction_cases h1 with ⟨_, _, hr⟩ | ⟨t, rest, hf, _, _, hb⟩
    · rw [hr] at h2
      simp at h2
    · rw [hb]
      obtain ⟨f1, f2, _⟩ := findErase_some hf
      refine ⟨by rw [← f2]; exact hinv.1 t f1, ?_⟩
      intro x hx
      simp only at hx
      rw [findErase_rest hinv.2.1 hf] at hx
      exact (mem_withoutId.1 hx).2

/-- C9: take any sequence of create, commit, abort and replay calls on a freshly constructed
manager, after which `commitTransaction(id, ..)` or `abortTransaction(id)` returns 0, and any
further sequence of such calls.  Then `commitTransaction(id, ..)` with any budget and
`abortTransaction(id)` both return -1 and change nothing, and a transaction created now gets an
id different from `id`. -/
theorem transaction_leaves_table_once (fs : Dir) (originalFilePath : String)
    (vmSegment : List Nat) (ops1 ops2 : List Op) (id : Nat) (s1 s2 s3 : Dir × TransactionManager)
    (h1 : run (fs, TransactionManager.new originalFilePath vmSegment) ops1 = some s1)
    (h2 : (∃ bytes, step s1 (Op.commit id bytes) = some (s2, 0)) ∨
      step s1 (Op.abort id) = some (s2, 0))
    (h3 : run s2 ops2 = some s3) :
    (∀ bytes, commitTransaction s3.1 s3.2 id bytes = (s3.1, s3.2, -1)) ∧
      (∀ bytes, step s3 (Op.commit id bytes) = some (s3, -1)) ∧
      abortTransaction s3.2.toBaseTransactionManager id
        = some (s3.2.toBaseTransactionManager, -1) ∧
      step s3 (Op.abort id) = some (s3, -1) ∧
      (∀ offset length newData r, step s3 (Op.create offset length newData) = some r →
        r.2 ≠ (id : Int)) := by
  have hinv1 := tableInvariant_run (tableInvariant_new originalFilePath vmSegment) h1
  have hg := gone_run (gone_of_left hinv1 h2) h3
  have hc := fun bytes => commitTransaction_unknown s3.1 s3.2 id bytes hg.2
  have ha := abortTransaction_unknown s3.2.toBaseTransactionManager id hg.2
  refine ⟨hc, ?_, ha, ?_, ?_⟩
  · intro bytes
    simp only [step, hc bytes]
  · simp only [step, ha, Option.map_some']
  · intro offset length newData r hr
    simp only [step, Option.map_eq_some'] at hr
    obtain ⟨⟨b, i⟩, hr1, hr2⟩ := hr
    obtain ⟨c1, _⟩ := createTransaction_some hr1
    rw [← hr2]
    simp only [c1]
    have := hg.1
    omega

/-- C10: for every manager and every id that no transaction of the table carries,
`commitTransaction(id, ..)` with any budget returns -1 and `abortTransaction(id)` returns -1,
and both leave the directory (the log included), the segment, the counter and the table as they
are; conversely, when a transaction of the table carries the id, `commitTransaction(id)` without
a budget returns 0 and, in a reachable manager, `abortTransaction(id)` returns 0. -/
theorem unknown_transaction_fails (fs : Dir) (m : TransactionManager) (id : Nat) :
    ((∀ t ∈ m.uncommittedTransactions, t.transactionId ≠ id) →
      (∀ bytes, commitTransaction fs m id bytes = (fs, m, -1)) ∧
        abortTransaction m.toBaseTransactionManager id
          = some (m.toBaseTransactionManager, -1)) ∧
    ((∃ t ∈ m.uncommittedTransactions, t.transactionId = id) →
      (commitTransaction fs m id (-1)).2.2 = 0 ∧
        (Reachable m →
          ∃ b, abortTransaction m.toBaseTransactionManager id = some (b, 0))) := by
  refine ⟨fun h => ⟨fun bytes => commitTransaction_unknown fs m id bytes h,
    abortTransaction_unknown _ id h⟩, ?_⟩
  rintro ⟨t, ht, hid⟩
  constructor
  · unfold commitTransaction
    cases hf : findErase id m.uncommittedTransactions with
    | none => exact absurd hid (findErase_eq_none.1 hf t ht)
    | some r => simp
  · intro hreach
    rw [← hid]
    exact ⟨_, abortTransaction_known (tableInvariant_of_reachable hreach) ht⟩


/-! ## Witnesses from the tests -/

theorem writerManager_reachable : Reachable writerManager :=
  ⟨[], "test1.txt", List.replicate 100 0, [Op.create 10 20 writerString], [], by decide⟩

theorem testingManager_reachable : Reachable testingManager :=
  ⟨[], "test10.txt", List.replicate 100 0, [Op.create 0 16 testingString], [], by decide⟩

/-- The budgeted commit of `test_write_partial_sync_read`: the 20-byte write of `writer`, synced
with `n = 10`, puts a record with its first 10 bytes into a new log. -/
theorem partial_commit_witness :
    Reachable writerManager ∧ writerTransaction ∈ writerManager.uncommittedTransactions ∧
      ∃ (fs' : Dir) (m' : TransactionManager),
        commitTransaction [("test1.txt", Node.regular (List.replicate 100 0))] writerManager
          0 ((10 : Nat) : Int) = (fs', m', 0) ∧
        readFile fs' "test1.txt.log"
          = [48, 32, 49, 48, 32, 49, 48, 32, 72, 105, 44, 32, 73, 39, 109, 32, 116, 104] ∧
        m'.uncommittedTransactions = [] ∧ m'.vmSegment = writerManager.vmSegment := by
  refine ⟨writerManager_reachable, by decide, ?_⟩
  obtain ⟨fs', m', h1, h2, _, h4, h5, h6, _⟩ :=
    partial_commit [("test1.txt", Node.regular (List.replicate 100 0))] writerManager
      writerTransaction 10 writerManager_reachable (by decide) (by decide) (by norm_num)
      (by decide)
  refine ⟨fs', m', h1, ?_, ?_, h6⟩
  · exact h2.trans (by decide)
  · apply List.eq_nil_iff_forall_not_mem.2
    intro x hx
    have hx' := (h5 x).1 hx
    have : x = writerTransaction := by
      have := hx'.1
      simpa [writerManager] using this
    exact hx'.2 this

theorem writeTransaction_directory {fs : Dir} {path : String} (t : Transaction)
    (h : lookupNode fs path = some Node.directory) :
    LogManager.writeTransaction fs path t = (fs, -1) := by
  unfold LogManager.writeTransaction
  rw [h]

/-- C5, where the log cannot be opened: the directory holds `test1.txt` and a directory named
`test1.txt.log`; the manager has the 20-byte write of `writer` in its table.
`LogManager::writeTransaction` fails to open the log and returns -1, `commitTransaction(0, 10)`
drops that return code, returns 0 and removes the transaction from the table, and nothing has
been appended anywhere; the same through `gtfs_sync_write_file_n_bytes` on the open handle.  It
is so for every reachable manager, transaction of the table and budget within the redo length
whenever the log path is a directory. -/
theorem partial_commit_reports_success_without_log :
    LogManager.writeTransaction
        [("test1.txt", Node.regular (List.replicate 100 0)), ("test1.txt.log", Node.directory)]
        "test1.txt.log" ⟨0, 10, List.replicate 20 0, writerString.take 10⟩
      = ([("test1.txt", Node.regular (List.replicate 100 0)),
          ("test1.txt.log", Node.directory)], -1) ∧
    commitTransaction
        [("test1.txt", Node.regular (List.replicate 100 0)), ("test1.txt.log", Node.directory)]
        writerManager 0 10
      = ([("test1.txt", Node.regular (List.replicate 100 0)),
          ("test1.txt.log", Node.directory)],
         { writerManager with uncommittedTransactions := [] }, 0) ∧
    gtfs_sync_write_file_n_bytes
        [("test1.txt", Node.regular (List.replicate 100 0)), ("test1.txt.log", Node.directory)]
        (some ⟨"test1.txt", 10, 20, 0⟩) (some ⟨"test1.txt", 100, 3, some writerManager⟩) 10
      = some ([("test1.txt", Node.regular (List.replicate 100 0)),
          ("test1.txt.log", Node.directory)],
         some ⟨"test1.txt", 100, 3,
           some { writerManager with uncommittedTransactions := [] }⟩, 0) ∧
    ∀ (fs : Dir) (m : TransactionManager) (t : Transaction) (n : Nat),
      Reachable m → t ∈ m.uncommittedTransactions → n ≤ t.newData.length → n < 2 ^ 31 →
      lookupNode fs m.logFilePath = some Node.directory →
      commitTransaction fs m t.transactionId n
        = (fs, { m with uncommittedTransactions :=
                   withoutId m.uncommittedTransactions t.transactionId }, 0) := by
  refine ⟨by decide, by decide, by decide, ?_⟩
  intro fs m t n hreach ht hn hint hdir
  have hinv := tableInvariant_of_reachable hreach
  unfold commitTransaction
  rw [findErase_of_mem hinv.2.1 ht]
  have hs : toSizeT (n : Int) = n := toSizeT_natCast (lt_two_pow_64_of_lt_31 hint)
  have hgt : ¬ (n > t.newData.length) := by omega
  simp only [ne_neg_one_natCast n, ne_eq, not_false_eq_true, if_true, hs, true_and, hgt,
    if_false, writeTransaction_directory _ hdir]

/-- Witness for C8, from `test_sync_write_more_bytes_than_written`: a 16-byte write synced with
`n = 17`. -/
theorem over_budget_commit_rejected_witness :
    Reachable testingManager ∧ testingTransaction ∈ testingManager.uncommittedTransactions ∧
      testingTransaction.newData.length < 17 ∧
      commitTransaction [("test10.txt", Node.regular (List.replicate 100 0))] testingManager
          0 ((17 : Nat) : Int)
        = ([("test10.txt", Node.regular (List.replicate 100 0))], testingManager, -1) :=
  ⟨testingManager_reachable, by decide, by decide,
    (over_budget_commit_rejected [("test10.txt", Node.regular (List.replicate 100 0))]
      testingManager testingTransaction 17 testingManager_reachable (by decide) (by decide)
      (by norm_num)).1⟩

/-- Witness for C9, from `test_sync_aborted_write` and `test_abort_aborted_write`: a write is
aborted, another write is made, and then both the sync and the abort of the first fail. -/
theorem transaction_leaves_table_once_witness :
    run ([], TransactionManager.new "test10.txt" (List.replicate 100 0))
        [Op.create 0 16 testingString] = some ([], testingManager) ∧
      step ([], testingManager) (Op.abort 0) = some (([], settledManager (List.replicate 100 0)), 0) ∧
      (commitTransaction [] (settledManager (List.replicate 100 0)) 0 (-1)).2.2 = -1 ∧
      (abortTransaction (settledManager (List.replicate 100 0)).toBaseTransactionManager 0).map
        Prod.snd = some (-1) := by
  have h := transaction_leaves_table_once [] "test10.txt" (List.replicate 100 0)
    [Op.create 0 16 testingString] [] 0 ([], testingManager)
    ([], settledManager (List.replicate 100 0)) ([], settledManager (List.replicate 100 0))
    (by decide) (Or.inr (by decide)) (by decide)
  refine ⟨by decide, by decide, ?_, ?_⟩
  · rw [h.1 (-1)]
  · rw [h.2.2.1]; rfl

/-- Witness for C10, from `test_sync_invalid_write` and `test_abort_invalid_write`: id 0 on a
freshly opened file is unknown; after the write of the tests it is known. -/
theorem unknown_transaction_fails_witness :
    (commitTransaction [] (TransactionManager.new "test10.txt" (List.replicate 100 0)) 0 (-1)
        = ([], TransactionManager.new "test10.txt" (List.replicate 100 0), -1) ∧
      abortTransaction
          (TransactionManager.new "test10.txt" (List.replicate 100 0)).toBaseTransactionManager 0
        = some ((TransactionManager.new "test10.txt"
            (List.replicate 100 0)).toBaseTransactionManager, -1)) ∧
      (commitTransaction [] testingManager 0 (-1)).2.2 = 0 ∧
      ∃ b, abortTransaction testingManager.toBaseTransactionManager 0 = some (b, 0) := by
  have h1 := (unknown_transaction_fails []
    (TransactionManager.new "test10.txt" (List.replicate 100 0)) 0).1 (by decide)
  have h2 := (unknown_transaction_fails [] testingManager 0).2
    ⟨testingTransaction, by decide, rfl⟩
  exact ⟨⟨h1.1 (-1), h1.2⟩, h2.1, h2.2 testingManager_reachable⟩


/-! ## C6: the records a budgeted cleanup keeps -/

theorem retainBudget_prefix (L : List Transaction) : ∀ b, retainBudget L b <+: L := by
  induction L with
  | nil => intro b; exact List.prefix_refl _
  | cons t ts ih =>
    intro b
    unfold retainBudget
    split
    · exact List.nil_prefix
    · split
      · exact (List.prefix_cons_inj t).2 List.nil_prefix
      · exact (List.prefix_cons_inj t).2 (ih _)

theorem cumulativeRedo_cons (t : Transaction) (ts : List Transaction) :
    cumulativeRedo (t :: ts) = t.newData.length + cumulativeRedo ts := by
  simp [cumulativeRedo]

theorem cumulativeRedo_retainBudget (L : List Transaction) :
    ∀ b, cumulativeRedo (retainBudget L b) ≤ b := by
  induction L with
  | nil => intro b; simp [retainBudget, cumulativeRedo]
  | cons t ts ih =>
    intro b
    unfold retainBudget
    split
    · simp [cumulativeRedo]
    · split
      · rw [cumulativeRedo_cons]
        simp only [cumulativeRedo, List.map_nil, List.sum_nil]
        omega
      · rw [cumulativeRedo_cons]
        have := ih (b - t.newData.length)
        omega

theorem retainBudget_proper_prefix (L : List Transaction) :
    ∀ b Q, Q <+: retainBudget L b → Q ≠ [] → Q ≠ retainBudget L b → cumulativeRedo Q < b := by
  induction L with
  | nil =>
    intro b Q hQ hne _
    simp only [retainBudget, List.prefix_nil] at hQ
    exact absurd hQ hne
  | cons t ts ih =>
    intro b Q hQ hne hne'
    unfold retainBudget at hQ hne'
    split at hQ
    · rw [List.prefix_nil] at hQ
      exact absurd hQ hne
    · rename_i h1
      split at hQ
      · rename_i h2
        rw [if_neg h1, if_pos h2] at hne'
        cases Q with
        | nil => exact absurd rfl hne
        | cons q Q' =>
          rw [List.cons_prefix_cons] at hQ
          obtain ⟨hq, hQ'⟩ := hQ
          rw [List.prefix_nil] at hQ'
          subst hq hQ'
          exact absurd rfl hne'
      · rename_i h2
        rw [if_neg h1, if_neg h2] at hne'
        cases Q with
        | nil => exact absurd rfl hne
        | cons q Q' =>
          rw [List.cons_prefix_cons] at hQ
          obtain ⟨hq, hQ'⟩ := hQ
          subst hq
          rw [cumulativeRedo_cons]
          by_cases hnil : Q' = []
          · subst hnil
            simp only [cumulativeRedo, List.map_nil, List.sum_nil]
            omega
          · have := ih (b - q.newData.length) Q' hQ' hnil (fun e => hne' (by rw [e]))
            omega

theorem retainBudget_longest (L : List Transaction) :
    ∀ b P, P <+: L → cumulativeRedo P ≤ b →
      (∀ Q, Q <+: P → Q ≠ [] → Q ≠ P → cumulativeRedo Q < b) →
      P.length ≤ (retainBudget L b).length := by
  induction L with
  | nil =>
    intro b P hP _ _
    rw [List.prefix_nil] at hP
    subst hP
    exact Nat.zero_le _
  | cons t ts ih =>
    intro b P hP hc hQ
    cases P with
    | nil => exact Nat.zero_le _
    | cons p P' =>
      rw [List.cons_prefix_cons] at hP
      obtain ⟨hp, hP'⟩ := hP
      subst hp
      rw [cumulativeRedo_cons] at hc
      unfold retainBudget
      have h1 : ¬ p.newData.length > b := by omega
      rw [if_neg h1]
      split
      · rename_i h2
        by_cases hnil : P' = []
        · subst hnil; simp
        · have := hQ [p] ((List.prefix_cons_inj p).2 List.nil_prefix) (by simp)
            (fun e => hnil (by
              have := (List.cons.inj e).2
              exact this.symm))
          simp only [cumulativeRedo, List.map_cons, List.map_nil, List.sum_cons, List.sum_nil]
            at this
          omega
      · rename_i h2
        have := ih (b - p.newData.length) P' hP' (by omega) (fun Q hQP hQne hQne' => by
          have := hQ (p :: Q) ((List.prefix_cons_inj p).2 hQP) (by simp)
            (fun e => hQne' (List.cons.inj e).2)
          rw [cumulativeRedo_cons] at this
          omega)
        simp only [List.length_cons]
        omega

theorem length_originalPath_lt {p : String} (h : hasLogExtension p = true) :
    (originalPath p).data.length < p.data.length := by
  simp only [hasLogExtension, Bool.and_eq_true, decide_eq_true_eq] at h
  simp only [originalPath, List.length_take]
  omega

theorem originalPath_ne {p : String} (h : hasLogExtension p = true) : originalPath p ≠ p := by
  intro e
  have := length_originalPath_lt h
  rw [e] at this
  exact Nat.lt_irrefl _ this

theorem clean_n_bytes_eq {fs : Dir} {logFilePath : String} {content : List Nat}
    {L : List Transaction} (bytes : Int)
    (hext : hasLogExtension logFilePath = true)
    (hlog : lookupNode fs logFilePath = some (Node.regular content))
    (hdec : decodeLog content = some L)
    (horig : lookupNode fs (originalPath logFilePath) ≠ some Node.directory) :
    clean_n_bytes fs logFilePath bytes =
      some (removeNode (storeNode fs (originalPath logFilePath)
        (Node.regular (replaySegment (readFile fs (originalPath logFilePath))
          (if bytes ≥ 0 then retainBudget L bytes.toNat else L)))) logFilePath, 0) := by
  have hne : logFilePath ≠ originalPath logFilePath := fun e => originalPath_ne hext e.symm
  unfold clean_n_bytes
  simp only [LogManager.getTransactionsInLog, hlog, hdec]
  cases hl : lookupNode fs (originalPath logFilePath) with
  | none =>
    simp only [lookupNode_storeNode, if_neg hne, hlog]
    rfl
  | some x =>
    cases x with
    | regular c =>
      simp only [lookupNode_storeNode, if_neg hne, hlog]
      rfl
    | directory => exact absurd hl horig

/-- C6 as the code has it: single-log cleanup with a budget `b ≥ 0` on a log that decodes to `L`
deletes the log and writes back the file with exactly the records `retainBudget L b` replayed,
where that list is the longest prefix of `L` whose cumulative redo length is at most `b` and none
of whose non-empty proper prefixes already reaches `b`: no record is split, and the walk stops
right after the first record at which the cumulative redo length equals `b`, so zero-length
records behind that point are discarded with the rest. -/
theorem budgeted_cleanup_retention (fs : Dir) (logFilePath : String) (content : List Nat)
    (L : List Transaction) (b : Nat)
    (hext : hasLogExtension logFilePath = true)
    (hlog : lookupNode fs logFilePath = some (Node.regular content))
    (hdec : decodeLog content = some L)
    (horig : lookupNode fs (originalPath logFilePath) ≠ some Node.directory) :
    ∃ fs', clean_n_bytes fs logFilePath (b : Int) = some (fs', 0) ∧
      lookupNode fs' logFilePath = none ∧
      lookupNode fs' (originalPath logFilePath) = some (Node.regular
        (replaySegment (readFile fs (originalPath logFilePath)) (retainBudget L b))) ∧
      retainBudget L b <+: L ∧
      cumulativeRedo (retainBudget L b) ≤ b ∧
      (∀ Q, Q <+: retainBudget L b → Q ≠ [] → Q ≠ retainBudget L b → cumulativeRedo Q < b) ∧
      (∀ P, P <+: L → cumulativeRedo P ≤ b →
        (∀ Q, Q <+: P → Q ≠ [] → Q ≠ P → cumulativeRedo Q < b) →
        P.length ≤ (retainBudget L b).length) := by
  have hne : originalPath logFilePath ≠ logFilePath := originalPath_ne hext
  have hb : ((b : Int) ≥ 0) := Int.natCast_nonneg b
  refine ⟨_, clean_n_bytes_eq (b : Int) hext hlog hdec horig, ?_, ?_, retainBudget_prefix L b,
    cumulativeRedo_retainBudget L b, retainBudget_proper_prefix L b, retainBudget_longest L b⟩
  · rw [lookupNode_removeNode, if_pos rfl]
  · rw [lookupNode_removeNode, if_neg hne, lookupNode_storeNode, if_pos rfl]
    simp only [hb, if_true, Int.toNat_natCast]

/-- Witness for C6, from `test_truncate_log_partial`: two 16-byte records at offsets 0 and 20
with the budget 24; only the first is replayed onto the 100-byte file. -/
theorem budgeted_cleanup_retention_witness :
    ∃ fs', clean_n_bytes
        [("test4.txt", Node.regular (List.replicate 100 0)),
         ("test4.txt.log", Node.regular
            (encodeLog [⟨0, 0, [], testingString⟩, ⟨1, 20, [], testingString⟩]))]
        "test4.txt.log" ((24 : Nat) : Int) = some (fs', 0) ∧
      lookupNode fs' "test4.txt.log" = none ∧
      lookupNode fs' "test4.txt" = some (Node.regular (testingString ++ List.replicate 84 0)) := by
  obtain ⟨fs', h1, h2, h3, _⟩ := budgeted_cleanup_retention
    [("test4.txt", Node.regular (List.replicate 100 0)),
     ("test4.txt.log", Node.regular
        (encodeLog [⟨0, 0, [], testingString⟩, ⟨1, 20, [], testingString⟩]))]
    "test4.txt.log" (encodeLog [⟨0, 0, [], testingString⟩, ⟨1, 20, [], testingString⟩])
    [⟨0, 0, [], testingString⟩, ⟨1, 20, [], testingString⟩] 24
    (by decide) (by decide) (by decide) (by decide)
  exact ⟨fs', h1, h2, h3.trans (by decide)⟩

/-- Counterexample to C6 as stated: the log holds a 2-byte record and then an empty record at
offset 5, and the budget is 2.  Both records together have cumulative redo length 2, so the
longest prefix within the budget is the whole log, whose replay gives a 5-byte file; the cleanup
replays the first record only and writes a 2-byte file. -/
theorem budgeted_cleanup_drops_trailing_empty_record :
    decodeLog (encodeLog [⟨0, 0, [], [7, 7]⟩, ⟨1, 5, [], []⟩])
        = some [⟨0, 0, [], [7, 7]⟩, ⟨1, 5, [], []⟩] ∧
      cumulativeRedo [⟨0, 0, [], [7, 7]⟩, ⟨1, 5, [], []⟩] ≤ 2 ∧
      replaySegment [] [⟨0, 0, [], [7, 7]⟩, ⟨1, 5, [], []⟩] = [7, 7, 0, 0, 0] ∧
      retainBudget [⟨0, 0, [], [7, 7]⟩, ⟨1, 5, [], []⟩] 2 = [⟨0, 0, [], [7, 7]⟩] ∧
      clean_n_bytes
          [("f", Node.regular []),
           ("f.log", Node.regular (encodeLog [⟨0, 0, [], [7, 7]⟩, ⟨1, 5, [], []⟩]))]
          "f.log" 2
        = some ([("f", Node.regular [7, 7])], 0) := by
  decide


/-! ## C2: abort restores the prior bytes -/

theorem slice_copyInto {dst : List Nat} {pos : Nat} {src : List Nat}
    (h : pos + src.length ≤ dst.length) :
    ((copyInto dst pos src).drop pos).take src.length = src := by
  unfold copyInto
  have h1 : (dst.take pos).length = pos := by
    rw [List.length_take]; omega
  rw [List.append_assoc, List.drop_append_of_le_length (by omega),
    List.drop_of_length_le (by omega), List.nil_append, List.take_left']
  rfl

theorem oldSize_within {size offset length : Nat} (hs : size < 2 ^ 64)
    (h : offset + length ≤ size) : oldSize size offset length = length := by
  unfold oldSize
  have e : ((size : Int) - (offset : Int)) = ((size - offset : Nat) : Int) := by omega
  rw [e, toSizeT_natCast (by omega)]
  simp only [Nat.max_zero]
  exact min_eq_left (by omega)

theorem length_step_segment {s s' : Dir × TransactionManager} {op : Op} {ret : Int}
    (h : step s op = some (s', ret)) : s.2.vmSegment.length ≤ s'.2.vmSegment.length := by
  cases op with
  | create offset length newData =>
    simp only [step, Option.map_eq_some'] at h
    obtain ⟨⟨b, i⟩, h1, h2⟩ := h
    simp only [Prod.mk.injEq] at h2
    rw [← h2.1]
    obtain ⟨_, _, _, c4, _⟩ := createTransaction_some h1
    simp only [c4]
    exact le_max_left _ _
  | commit i bytes =>
    simp only [step, Option.some.injEq, Prod.mk.injEq] at h
    rw [← h.1]
    rcases commitTransaction_cases s.1 s.2 i bytes with hc | ⟨t, rest, _, _, hc⟩
    · rw [hc]
    · rw [hc]
  | abort i =>
    simp only [step, Option.map_eq_some'] at h
    obtain ⟨⟨b, r⟩, h1, h2⟩ := h
    simp only [Prod.mk.injEq] at h2
    rw [← h2.1]
    rcases abortTransaction_cases h1 with ⟨_, hb, _⟩ | ⟨t, rest, _, _, hg, hb⟩
    · rw [hb]
    · rw [hb]
      exact le_of_eq (length_copyInto_guard hg).symm
  | replay ts =>
    simp only [step, Option.some.injEq, Prod.mk.injEq] at h
    rw [← h.1]
    exact length_le_replaySegment _ _

/-- The transaction `t0` created with id `id0` is the only one that can carry that id. -/
theorem pending_step {id0 : Nat} {t0 : Transaction} {s s' : Dir × TransactionManager} {op : Op}
    {ret : Int}
    (hp : id0 < s.2.totalTransactionCount ∧
      ∀ x ∈ s.2.uncommittedTransactions, x.transactionId = id0 → x = t0)
    (h : step s op = some (s', ret)) :
    id0 < s'.2.totalTransactionCount ∧
      ∀ x ∈ s'.2.uncommittedTransactions, x.transactionId = id0 → x = t0 := by
  obtain ⟨g1, g2⟩ := hp
  cases op with
  | create offset length newData =>
    simp only [step, Option.map_eq_some'] at h
    obtain ⟨⟨b, i⟩, h1, h2⟩ := h
    simp only [Prod.mk.injEq] at h2
    rw [← h2.1]
    obtain ⟨_, c2, c3, _⟩ := createTransaction_some h1
    refine ⟨by simp only [c2]; omega, ?_⟩
    intro x hx hid
    simp only [c3] at hx
    rcases List.mem_append.1 hx with hx | hx
    · exact g2 x hx hid
    · rw [List.mem_singleton] at hx
      subst hx
      simp only at hid
      omega
  | commit i bytes =>
    simp only [step, Option.some.injEq, Prod.mk.injEq] at h
    rw [← h.1]
    rcases commitTransaction_cases s.1 s.2 i bytes with hc | ⟨t, rest, hf, _, hc⟩
    · rw [hc]; exact ⟨g1, g2⟩
    · rw [hc]
      exact ⟨g1, fun x hx => g2 x ((findErase_some hf).2.2.subset hx)⟩
  | abort i =>
    simp only [step, Option.map_eq_some'] at h
    obtain ⟨⟨b, r⟩, h1, h2⟩ := h
    simp only [Prod.mk.injEq] at h2
    rw [← h2.1]
    rcases abortTransaction_cases h1 with ⟨_, hb, _⟩ | ⟨t, rest, hf, _, _, hb⟩
    · rw [hb]; exact ⟨g1, g2⟩
    · rw [hb]
      exact ⟨g1, fun x hx => g2 x ((findErase_some hf).2.2.subset hx)⟩
  | replay ts =>
    simp only [step, Option.some.injEq, Prod.mk.injEq] at h
    rw [← h.1]
    exact ⟨g1, g2⟩

theorem pending_run (id0 : Nat) (t0 : Transaction) {ops : List Op} :
    ∀ {s s' : Dir × TransactionManager},
    (id0 < s.2.totalTransactionCount ∧
      ∀ x ∈ s.2.uncommittedTransactions, x.transactionId = id0 → x = t0) →
    run s ops = some s' →
    (id0 < s'.2.totalTransactionCount ∧
      ∀ x ∈ s'.2.uncommittedTransactions, x.transactionId = id0 → x = t0) ∧
      s.2.vmSegment.length ≤ s'.2.vmSegment.length := by
  induction ops with
  | nil =>
    intro s s' hp h
    simp only [run, Option.some.injEq] at h
    rw [← h]; exact ⟨hp, le_refl _⟩
  | cons op ops ih =>
    intro s s' hp h
    obtain ⟨s1, ret, h1, h2⟩ := run_cons_some h
    obtain ⟨i1, i2⟩ := ih (pending_step hp h1) h2
    exact ⟨i1, le_trans (length_step_segment h1) i2⟩

/-- C2 as the code has it: on an open file with a reachable manager (its segment shorter than
`2 ^ 64` bytes), for a write whose range `[offset, offset + length)` lies within the current
segment, and for any sequence of further creates, commits, aborts and replays on the manager,
whenever `gtfs_abort_write_file` of that write then returns 0, a `gtfs_read_file(offset, length)`
returns what it returned immediately before the write. -/
theorem abort_restores_prior_bytes (g : gtfs_t) (fs : Dir) (f : file_t) (m : TransactionManager)
    (offset length : Nat) (data : List Nat) (ops : List Op)
    (hopen : f.fileDescriptor ≠ -1) (hm : f.transactionManager = some m) (hreach : Reachable m)
    (hsize : m.vmSegment.length < 2 ^ 64)
    (hin : offset + length ≤ m.vmSegment.length) (hdata : length ≤ data.length) :
    ∃ (f1 : file_t) (m1 : TransactionManager) (wr : write_t),
      gtfs_write_file (some g) (some f) offset length data = some (some f1, some wr) ∧
      f1.transactionManager = some m1 ∧
      ∀ (fs' : Dir) (m2 : TransactionManager) (f3 : file_t),
        run (fs, m1) ops = some (fs', m2) →
        gtfs_abort_write_file (some wr) (some { f1 with transactionManager := some m2 })
          = some (some f3, 0) →
        gtfs_read_file (some g) (some f3) offset length
          = gtfs_read_file (some g) (some f) offset length := by
  have ho : offset < 2 ^ 64 := by omega
  have hl : length < 2 ^ 64 := by omega
  have hold := oldSize_within hsize hin
  have hcreate : createTransaction m.toBaseTransactionManager offset length data
      = some ({ totalTransactionCount := m.totalTransactionCount + 1
                vmSegment := copyInto m.vmSegment offset (data.take length)
                uncommittedTransactions := m.uncommittedTransactions ++
                  [⟨m.totalTransactionCount, offset, (m.vmSegment.drop offset).take length,
                    data.take length⟩] }, m.totalTransactionCount) := by
    unfold createTransaction createSegment
    have hc : (length = 0 ∨ offset + length ≤ m.vmSegment.length) ∧ length ≤ data.length :=
      ⟨Or.inr hin, hdata⟩
    have hgt : ¬ (offset + length > m.vmSegment.length) := by omega
    simp only [hold, hc, and_self, if_true, hgt, if_false]
  have hwrite : gtfs_write_file (some g) (some f) offset length data
      = some (some { f with transactionManager := some { m with toBaseTransactionManager :=
          { totalTransactionCount := m.totalTransactionCount + 1
            vmSegment := copyInto m.vmSegment offset (data.take length)
            uncommittedTransactions := m.uncommittedTransactions ++
              [⟨m.totalTransactionCount, offset, (m.vmSegment.drop offset).take length,
                data.take length⟩] } } },
        some ⟨f.filename, offset, length, m.totalTransactionCount⟩) := by
    simp only [gtfs_write_file, hopen, if_false, hm, toSizeT_natCast ho, toSizeT_natCast hl,
      hcreate]
  refine ⟨_, _, _, hwrite, rfl, ?_⟩
  intro fs' m2 f3 hrun habort
  have hinv := tableInvariant_of_reachable hreach
  have hp := pending_run m.totalTransactionCount
    ⟨m.totalTransactionCount, offset, (m.vmSegment.drop offset).take length, data.take length⟩
    (s := (fs, _)) ⟨Nat.lt_succ_self _, fun x hx hid => by
      rcases List.mem_append.1 hx with hx | hx
      · have := hinv.1 x hx
        omega
      · rw [List.mem_singleton] at hx
        exact hx⟩ hrun
  obtain ⟨⟨_, p2⟩, p3⟩ := hp
  simp only [gtfs_abort_write_file] at habort
  cases hab : abortTransaction m2.toBaseTransactionManager m.totalTransactionCount with
  | none => rw [hab] at habort; simp at habort
  | some r =>
    obtain ⟨b, ret⟩ := r
    rw [hab] at habort
    simp only [Option.some.injEq, Prod.mk.injEq] at habort
    obtain ⟨hf3, hret⟩ := habort
    rcases abortTransaction_cases hab with ⟨_, _, hr⟩ | ⟨t, rest, hfe, _, _, hb⟩
    · rw [hr] at hret; simp at hret
    · obtain ⟨e1, e2, _⟩ := findErase_some hfe
      have ht := p2 t e1 e2
      have hlen2 : offset + length ≤ m2.vmSegment.length := by
        have hl1 : (copyInto m.vmSegment offset (data.take length)).length
            = m.vmSegment.length :=
          length_copyInto (by rw [List.length_take, min_eq_left hdata]; exact hin)
        simp only at p3
        rw [hl1] at p3
        omega
      have holdlen : ((m.vmSegment.drop offset).take length).length = length := by
        rw [List.length_take, List.length_drop]; omega
      have hseg : ((copyInto m2.vmSegment offset ((m.vmSegment.drop offset).take length)).drop
          offset).take length = (m.vmSegment.drop offset).take length := by
        have := @slice_copyInto m2.vmSegment offset ((m.vmSegment.drop offset).take length)
          (by rw [holdlen]; exact hlen2)
        rw [holdlen] at this
        exact this
      have hopen3 : f3.fileDescriptor ≠ -1 := by rw [← hf3]; exact hopen
      have hm3 : f3.transactionManager = some { m2 with toBaseTransactionManager := b } := by
        rw [← hf3]
      rw [(gtfs_read_file_open g f3 _ offset length hopen3 hm3 ho),
        (gtfs_read_file_open g f m offset length hopen hm ho)]
      simp only [hb, ht, hseg]

/-- Witness for C2, from `test_abort_write`: a 16-byte write at offset 20 of a 100-byte zero
segment; once it is aborted the range reads back as the empty string. -/
theorem abort_restores_prior_bytes_witness :
    Reachable (TransactionManager.new "test2.txt" (List.replicate 100 0)) ∧
      ∃ (f1 : file_t) (wr : write_t),
        gtfs_write_file (some ⟨"d"⟩)
          (some ⟨"test2.txt", 100, 3,
            some (TransactionManager.new "test2.txt" (List.replicate 100 0))⟩)
          ((20 : Nat) : Int) ((16 : Nat) : Int) testingString = some (some f1, some wr) ∧
        ∀ f3, gtfs_abort_write_file (some wr) (some f1) = some (some f3, 0) →
          gtfs_read_file (some ⟨"d"⟩) (some f3) ((20 : Nat) : Int) ((16 : Nat) : Int)
            = some (some []) := by
  have hr : Reachable (TransactionManager.new "test2.txt" (List.replicate 100 0)) :=
    ⟨[], "test2.txt", List.replicate 100 0, [], [], rfl⟩
  obtain ⟨f1, m1, wr, h1, h2, h3⟩ := abort_restores_prior_bytes ⟨"d"⟩ []
    ⟨"test2.txt", 100, 3, some (TransactionManager.new "test2.txt" (List.replicate 100 0))⟩
    (TransactionManager.new "test2.txt" (List.replicate 100 0)) 20 16 testingString []
    (by decide) rfl hr (by
      simp only [TransactionManager.new, BaseTransactionManager.new, List.length_replicate]
      norm_num) (by decide) (by decide)
  refine ⟨hr, f1, wr, h1, fun f3 hab => ?_⟩
  have e : ({ f1 with transactionManager := some m1 } : file_t) = f1 := by
    cases f1
    simp only at h2
    subst h2
    rfl
  rw [h3 [] m1 f3 rfl (by rw [e]; exact hab)]
  decide

/-- Counterexample to C2 as stated: on the 2-byte segment `aa` a 2-byte write `bb` at offset 1
reaches one byte past the end.  Before the write the read of 2 bytes at offset 1 returns `a`;
after the write is aborted (with return code 0) it returns `ab`, the second byte being the
second byte of the aborted write. -/
theorem abort_keeps_bytes_written_past_the_end :
    readWriteAbortRead (some ⟨"d"⟩)
        ⟨"f", 2, 3, some (TransactionManager.new "f" [97, 97])⟩ 1 2 [98, 98]
      = some (some [97], some [97, 98]) := by
  decide


/-! ## C1: the durability round trip -/

theorem logPath_ne (filename : String) : filename ++ ".log" ≠ filename := by
  intro e
  have h := congrArg String.length e
  rw [String.length_append] at h
  have : (".log" : String).length = 4 := by decide
  omega

theorem getTransactionsInLog_eq (fs : Dir) (path : String) :
    LogManager.getTransactionsInLog fs path = decodeLog (readFile fs path) := by
  unfold LogManager.getTransactionsInLog readFile
  cases lookupNode fs path with
  | none => rfl
  | some x =>
    cases x with
    | regular c => rfl
    | directory => rfl

theorem resize_resize (v : List Nat) (n : Nat) : resize (resize v n) n = resize v n :=
  resize_of_length (length_resize v n)

theorem filter_descriptor_cons (n : String) (fd : Int) (l : List (String × Int)) :
    ((n, fd) :: l).filter (fun e => decide (e.2 ≠ fd))
      = l.filter (fun e => decide (e.2 ≠ fd)) := by
  simp [List.filter_cons]

theorem not_mem_filter_names {n : String} {l : List (String × Int)}
    (p : String × Int → Bool) (h : n ∉ l.map Prod.fst) : n ∉ (l.filter p).map Prod.fst := by
  intro hm
  obtain ⟨e, he, rfl⟩ := List.mem_map.1 hm
  exact h (List.mem_map.2 ⟨e, (List.mem_filter.1 he).1, rfl⟩)

theorem gtfs_open_file_ok (w : World) (g : gtfs_t) (filename : String) (d : Nat) (fd : Int)
    (T : List Transaction)
    (hname : filename.length ≠ 0)
    (hfile : lookupNode w.files filename ≠ some Node.directory)
    (hsize : (readFile w.files filename).length ≤ d) (hd : d < 2 ^ 64)
    (hfd : fd ≠ -1) (hlock : filename ∉ w.locked.map Prod.fst)
    (hlog : decodeLog (readFile w.files (filename ++ ".log")) = some T) :
    ∃ files2 : Dir,
      gtfs_open_file w (some g) filename d fd =
        some ({ files := files2, locked := (filename, fd) :: w.locked },
          some { filename := filename
                 fileLength := d
                 fileDescriptor := fd
                 transactionManager := some
                   { totalTransactionCount := 0
                     vmSegment := replaySegment (resize (readFile w.files filename) d) T
                     uncommittedTransactions := []
                     logFilePath := filename ++ ".log" } }) ∧
      lookupNode files2 filename = some (Node.regular (resize (readFile w.files filename) d)) ∧
      ∀ name, name ≠ filename → lookupNode files2 name = lookupNode w.files name := by
  have hs := toSizeT_natCast hd
  have hlp := logPath_ne filename
  have hneg : ¬ ((d : Int) < 0) := by omega
  unfold gtfs_open_file
  simp only [hname, if_false, hs, hneg, and_false]
  cases hl : lookupNode w.files filename with
  | none =>
    have hr : readFile w.files filename = [] := by simp [readFile, hl]
    have hr1 : readFile (storeNode w.files filename (Node.regular [])) filename = [] := by
      rw [readFile_storeNode, if_pos rfl]
    simp only [if_true, hr1, List.length_nil, Nat.not_lt_zero, if_false, hfd, hlock, hr]
    by_cases hpos : 0 < d
    · simp only [hpos, if_true, gt_iff_lt]
      have hr2 : readFile (storeNode (storeNode w.files filename (Node.regular [])) filename
          (Node.regular (resize [] d))) filename = resize [] d := by
        rw [readFile_storeNode, if_pos rfl]
      have hlog2 : LogManager.getTransactionsInLog
          (storeNode (storeNode w.files filename (Node.regular [])) filename
            (Node.regular (resize [] d))) (TransactionManager.new filename
              (resize (resize [] d) d)).logFilePath = some T := by
        rw [getTransactionsInLog_eq]
        simp only [TransactionManager.new, readFile_storeNode, if_neg hlp]
        exact hlog
      rw [hr2, hlog2]
      refine ⟨storeNode (storeNode w.files filename (Node.regular [])) filename
        (Node.regular (resize [] d)), ?_, ?_, ?_⟩
      · simp only [TransactionManager.new, BaseTransactionManager.new, replayTransactions,
          resize_resize]
      · rw [lookupNode_storeNode, if_pos rfl]
      · intro name hne
        rw [lookupNode_storeNode, if_neg hne, lookupNode_storeNode, if_neg hne]
    · have hd0 : d = 0 := by omega
      subst hd0
      simp only [Nat.lt_irrefl, if_false, gt_iff_lt, hr1]
      have hlog2 : LogManager.getTransactionsInLog
          (storeNode w.files filename (Node.regular [])) (TransactionManager.new filename
              (resize [] 0)).logFilePath = some T := by
        rw [getTransactionsInLog_eq]
        simp only [TransactionManager.new, readFile_storeNode, if_neg hlp]
        exact hlog
      rw [hlog2]
      refine ⟨storeNode w.files filename (Node.regular []), ?_, ?_, ?_⟩
      · simp only [TransactionManager.new, BaseTransactionManager.new, replayTransactions]
      · rw [lookupNode_storeNode, if_pos rfl]
        rfl
      · intro name hne
        rw [lookupNode_storeNode, if_neg hne]
  | some x =>
    cases x with
    | directory => exact absurd hl hfile
    | regular c =>
      have hr : readFile w.files filename = c := by simp [readFile, hl]
      rw [hr] at hsize
      have hnl : ¬ (d < c.length) := by omega
      simp only [reduceCtorEq, if_false, hr, hnl, hfd, hlock]
      by_cases hgt : d > c.length
      · simp only [hgt, if_true]
        have hr2 : readFile (storeNode w.files filename (Node.regular (resize c d))) filename
            = resize c d := by
          rw [readFile_storeNode, if_pos rfl]
        have hlog2 : LogManager.getTransactionsInLog
            (storeNode w.files filename (Node.regular (resize c d)))
            (TransactionManager.new filename (resize (resize c d) d)).logFilePath = some T := by
          rw [getTransactionsInLog_eq]
          simp only [TransactionManager.new, readFile_storeNode, if_neg hlp]
          exact hlog
        rw [hr2, hlog2]
        refine ⟨storeNode w.files filename (Node.regular (resize c d)), ?_, ?_, ?_⟩
        · simp only [TransactionManager.new, BaseTransactionManager.new, replayTransactions,
            resize_resize]
        · rw [lookupNode_storeNode, if_pos rfl]
        · intro name hne
          rw [lookupNode_storeNode, if_neg hne]
      · have hcd : c.length = d := by omega
        simp only [hgt, if_false, hr]
        have hlog2 : LogManager.getTransactionsInLog w.files
            (TransactionManager.new filename (resize c d)).logFilePath = some T := by
          rw [getTransactionsInLog_eq]
          exact hlog
        rw [hlog2]
        refine ⟨w.files, ?_, ?_, ?_⟩
        · simp only [TransactionManager.new, BaseTransactionManager.new, replayTransactions]
        · rw [hl, resize_of_length hcd]
        · intro name _
          rfl


theorem toSizeT_le_of_natCast (k : Nat) : toSizeT (k : Int) ≤ k := by
  unfold toSizeT
  have h : ((k : Int) % 2 ^ 64) = ((k % 2 ^ 64 : Nat) : Int) := by
    simp [Int.natCast_mod]
  rw [h, Int.toNat_natCast]
  exact Nat.mod_le _ _

theorem createTransaction_defined (b : BaseTransactionManager) (offset : Nat) (data : List Nat)
    (h : data = [] ∨ offset ≤ b.vmSegment.length) :
    createTransaction b offset data.length data =
      some ({ totalTransactionCount := b.totalTransactionCount + 1
              vmSegment := copyInto
                (if offset + data.length > b.vmSegment.length then
                  resize b.vmSegment (offset + data.length) else b.vmSegment) offset data
              uncommittedTransactions := b.uncommittedTransactions ++
                [⟨b.totalTransactionCount, offset,
                  (b.vmSegment.drop offset).take (oldSize b.vmSegment.length offset data.length),
                  data⟩] }, b.totalTransactionCount) := by
  have hle := oldSize_le b.vmSegment.length offset data.length
  have hc : (oldSize b.vmSegment.length offset data.length = 0 ∨
      offset + oldSize b.vmSegment.length offset data.length ≤ b.vmSegment.length) ∧
      data.length ≤ data.length := by
    refine ⟨?_, le_refl _⟩
    rcases h with h | h
    · left
      subst h
      simpa using hle
    · right
      have h1 : oldSize b.vmSegment.length offset data.length
          ≤ toSizeT ((b.vmSegment.length : Int) - (offset : Int)) := by
        unfold oldSize
        simp only [Nat.max_zero]
        exact min_le_right _ _
      have e : ((b.vmSegment.length : Int) - (offset : Int))
          = ((b.vmSegment.length - offset : Nat) : Int) := by omega
      rw [e] at h1
      have := toSizeT_le_of_natCast (b.vmSegment.length - offset)
      omega
  unfold createTransaction createSegment
  simp only [hc, and_self, if_true, List.take_length]

theorem replaySegment_of_ne_nil {l : List Transaction} (base : List Nat) (h : l ≠ []) :
    replaySegment base l =
      applyRedo (if maxOffset l > base.length then resize base (maxOffset l) else base) l := by
  cases l with
  | nil => exact absurd rfl h
  | cons x xs => rfl

theorem replaySegment_last (base : List Nat) (ts : List Transaction) (t : Transaction) :
    ((replaySegment base (ts ++ [t])).drop t.offset).take t.newData.length = t.newData := by
  rw [replaySegment_of_ne_nil base (by simp)]
  generalize hseg : (if maxOffset (ts ++ [t]) > base.length then
    resize base (maxOffset (ts ++ [t])) else base) = seg
  have hlen : maxOffset (ts ++ [t]) ≤ seg.length := by
    rw [← hseg]
    split
    · rw [length_resize]
    · omega
  have hall : ∀ x ∈ ts ++ [t], x.offset + x.newData.length ≤ seg.length :=
    fun x hx => le_trans (le_maxOffset hx) hlen
  have e : applyRedo seg (ts ++ [t]) = copyInto (applyRedo seg ts) t.offset t.newData := by
    simp only [applyRedo, List.foldl_append, List.foldl_cons, List.foldl_nil]
  rw [e]
  apply slice_copyInto
  rw [length_applyRedo ts seg (fun x hx => hall x (List.mem_append_left _ hx))]
  exact hall t (List.mem_append_right _ (List.mem_singleton_self t))

theorem maxOffset_map_stripUndo (L : List Transaction) :
    maxOffset (L.map stripUndo) = maxOffset L := by
  unfold maxOffset
  rw [List.foldl_map]
  rfl

theorem cString_of_no_zero {data : List Nat} (h : ∀ c ∈ data, c ≠ 0) : cString data = data := by
  unfold cString
  apply List.takeWhile_eq_self_iff.2
  intro c hc
  simpa using h c hc

theorem encodeLog_append (L : List Transaction) (t : Transaction) :
    encodeLog (L ++ [t]) = encodeLog L ++ encode t := by
  simp only [encodeLog, List.map_append, List.map_cons, List.map_nil, List.flatten_append,
    List.flatten_cons, List.flatten_nil, List.append_nil]

/-- C1 as the code has it: let the data file be absent or a regular file of size at most `d`,
let its log be absent or hold the concatenated encodings of a list `L` of well-typed records, let
nobody hold the lock, and let `offset` be at most the length of the segment the first open builds
(or `data` be empty), `data` having no zero byte.  Then open, write `data` at `offset`, sync
(returning 0), close, open and read `|data|` bytes at `offset` returns exactly `data`. -/
theorem durability_round_trip (w : World) (g : gtfs_t) (filename : String) (d offset : Nat)
    (data : List Nat) (L : List Transaction) (fd1 fd2 : Int)
    (hname : filename.length ≠ 0)
    (hfile : lookupNode w.files filename ≠ some Node.directory)
    (hsize : (readFile w.files filename).length ≤ d)
    (hlogdir : lookupNode w.files (filename ++ ".log") ≠ some Node.directory)
    (hlog : readFile w.files (filename ++ ".log") = encodeLog L)
    (htyped : ∀ t ∈ L, WellTyped t)
    (hlock : filename ∉ w.locked.map Prod.fst) (hfd1 : fd1 ≠ -1) (hfd2 : fd2 ≠ -1)
    (hd : d < 2 ^ 31) (ho : offset < 2 ^ 31) (hl : data.length < 2 ^ 31)
    (hzero : ∀ c ∈ data, c ≠ 0)
    (hin : data = [] ∨ offset ≤ max d (maxOffset L)) :
    writeSyncReopenRead w (some g) filename d offset data fd1 fd2 = some (some data) := by
  have hd64 := lt_two_pow_64_of_lt_31 hd
  have ho64 := lt_two_pow_64_of_lt_31 ho
  have hl64 := lt_two_pow_64_of_lt_31 hl
  have hlp := logPath_ne filename
  -- the first open
  obtain ⟨files2, hopen1, hf2, hother2⟩ := gtfs_open_file_ok w g filename d fd1
    (L.map stripUndo) hname hfile hsize hd64 hfd1 hlock
    (by rw [hlog]; exact decodeLog_encodeLog L htyped)
  -- the write
  have hseg0 : offset ≤ (replaySegment (resize (readFile w.files filename) d)
      (L.map stripUndo)).length ∨ data = [] := by
    rcases hin with h | h
    · exact Or.inr h
    · left
      rw [length_replaySegment, length_resize, maxOffset_map_stripUndo]
      exact h
  have hcreate := createTransaction_defined
    { totalTransactionCount := 0
      vmSegment := replaySegment (resize (readFile w.files filename) d) (L.map stripUndo)
      uncommittedTransactions := [] } offset data hseg0.symm
  generalize hold : (List.drop offset (replaySegment (resize (readFile w.files filename) d)
      (L.map stripUndo))).take (oldSize (replaySegment (resize (readFile w.files filename) d)
      (L.map stripUndo)).length offset data.length) = old at hcreate
  -- the record that is logged
  have hlogdir2 : lookupNode files2 (filename ++ ".log") ≠ some Node.directory := by
    rw [hother2 _ hlp]; exact hlogdir
  have hlog2 : readFile files2 (filename ++ ".log") = encodeLog L := by
    rw [← hlog]
    unfold readFile
    rw [hother2 _ hlp]
  unfold writeSyncReopenRead
  rw [hopen1]
  simp only [gtfs_write_file, hfd1, if_false, toSizeT_natCast ho64, toSizeT_natCast hl64, hcreate,
    gtfs_sync_write_file, commitTransaction, findErase, if_true, ne_eq, not_true_eq_false,
    false_and, writeTransaction_eq _ hlogdir2, gtfs_close_file, filter_descriptor_cons,
    List.nil_append, hlog2]
  -- the second open
  have hfile3 : lookupNode (storeNode files2 (filename ++ ".log")
      (Node.regular (encodeLog L ++ encode ⟨0, offset, old, data⟩))) filename
      = some (Node.regular (resize (readFile w.files filename) d)) := by
    rw [lookupNode_storeNode, if_neg (fun e => hlp e.symm), hf2]
  have hread3 : readFile (storeNode files2 (filename ++ ".log")
      (Node.regular (encodeLog L ++ encode ⟨0, offset, old, data⟩))) filename
      = resize (readFile w.files filename) d := readFile_of_lookup hfile3
  obtain ⟨files4, hopen2, _, _⟩ := gtfs_open_file_ok
    (World.mk (storeNode files2 (filename ++ ".log")
      (Node.regular (encodeLog L ++ encode ⟨0, offset, old, data⟩)))
      (w.locked.filter (fun e => decide (e.2 ≠ fd1))))
    g filename d fd2 ((L ++ [(⟨0, offset, old, data⟩ : Transaction)]).map stripUndo)
    hname (by rw [hfile3]; simp)
    (by rw [hread3, length_resize]) hd64 hfd2 (not_mem_filter_names _ hlock)
    (by
      rw [readFile_storeNode, if_pos rfl, ← encodeLog_append]
      apply decodeLog_encodeLog
      intro t ht
      rcases List.mem_append.1 ht with ht | ht
      · exact htyped t ht
      · rw [List.mem_singleton] at ht
        subst ht
        refine ⟨by norm_num, ho64, ?_⟩
        have : (2 : Nat) ^ 31 < 2 ^ 63 := by norm_num
        simp only
        omega)
  rw [hopen2]
  simp only
  rw [gtfs_read_file_open g _ _ offset data.length hfd2 rfl ho64]
  simp only [List.map_append, List.map_cons, List.map_nil, hread3, stripUndo]
  have hlast := replaySegment_last (resize (resize (readFile w.files filename) d) d)
    (L.map stripUndo) ⟨0, offset, [], data⟩
  simp only [stripUndo] at hlast
  rw [hlast, cString_of_no_zero hzero]


/-! ## C1: witness and counterexample -/

/-- Witness for C1, from `test_write_read`: the 20 bytes of `writer` at offset 10 of a new
100-byte file are read back by `reader`. -/
theorem durability_round_trip_witness :
    writeSyncReopenRead ⟨[], []⟩ (some ⟨"d"⟩) "test1.txt" ((100 : Nat) : Int) ((10 : Nat) : Int)
      writerString 3 3 = some (some writerString) :=
  durability_round_trip ⟨[], []⟩ ⟨"d"⟩ "test1.txt" 100 10 writerString [] 3 3
    (by decide) (by decide) (by decide) (by decide) (by decide) (by decide) (by decide)
    (by decide) (by decide) (by norm_num) (by norm_num) (by decide) (by decide)
    (Or.inr (by decide))

/-- Counterexample to C1 as stated.  First, a prior log that ends in a torn record
(`0 0 9 ab`, nine bytes announced, two present): the new record is appended right behind it,
the next open decodes one 9-byte record that swallows it, and the read of the written byte `z`
at offset 0 returns `a`.  Second, an offset beyond the segment (5 on a 4-byte file): the undo
copy of `createTransaction` reads outside the segment and the sequence has no defined result. -/
theorem durability_fails_on_torn_log_and_far_offset :
    (∀ c ∈ [122], c ≠ 0) ∧
      writeSyncReopenRead ⟨[("f.log", Node.regular [48, 32, 48, 32, 57, 32, 97, 98])], []⟩
        (some ⟨"d"⟩) "f" 4 0 [122] 3 3 = some (some [97]) ∧
      writeSyncReopenRead ⟨[], []⟩ (some ⟨"d"⟩) "f" 4 5 [122] 3 3 = none := by
  decide

/-! ## C4: cleaning the directory -/

theorem originalPath_append_log (f : String) : originalPath (f ++ ".log") = f := by
  apply String.ext
  have h4 : (".log" : String).data.length = 4 := by decide
  simp only [originalPath, String.data_append, List.length_append, h4, Nat.add_sub_cancel,
    List.take_left']

theorem hasLogExtension_append_log {f : String} (h : f.length ≠ 0) :
    hasLogExtension (f ++ ".log") = true := by
  have h4 : (".log" : String).data.length = 4 := by decide
  have hf : 0 < f.data.length := Nat.pos_of_ne_zero h
  simp only [hasLogExtension, Bool.and_eq_true, decide_eq_true_eq, List.isSuffixOf_iff_suffix,
    String.data_append, List.length_append, h4]
  exact ⟨by omega, List.suffix_append _ _⟩

theorem reachable_replay (originalFilePath : String) (vmSegment : List Nat)
    (transactions : List Transaction) :
    Reachable
      { TransactionManager.new originalFilePath vmSegment with
        toBaseTransactionManager :=
          (replayTransactions
            (TransactionManager.new originalFilePath vmSegment).toBaseTransactionManager
            transactions).1 } :=
  ⟨[], originalFilePath, vmSegment, [Op.replay transactions], [], rfl⟩

/-- A handle that `gtfs_open_file` returns is open and owns a reachable manager. -/
theorem gtfs_open_file_reachable {w w' : World} {gtfs : Option gtfs_t} {filename : String}
    {fileLength fd : Int} {fl : file_t}
    (h : gtfs_open_file w gtfs filename fileLength fd = some (w', some fl)) :
    fl.fileDescriptor ≠ -1 ∧ ∃ m, fl.transactionManager = some m ∧ Reachable m := by
  unfold gtfs_open_file at h
  simp only at h
  repeat' split at h
  all_goals first
    | (simp at h; done)
    | (simp only [Option.some.injEq, Prod.mk.injEq] at h
       obtain ⟨_, hfl⟩ := h
       rw [← hfl]
       exact ⟨by assumption, _, rfl, reachable_replay _ _ _⟩)

theorem run_append (ops ops' : List Op) : ∀ (s : Dir × TransactionManager),
    run s (ops ++ ops') = (run s ops).bind (fun s1 => run s1 ops') := by
  induction ops with
  | nil => intro s; rfl
  | cons op ops ih =>
    intro s
    simp only [List.cons_append, run]
    cases step s op with
    | none => rfl
    | some r => exact ih r.1

theorem step_other_directory (fs1 fs2 : Dir) (m : TransactionManager) (op : Op) :
    (step (fs1, m) op).map (fun r => (r.1.2, r.2))
      = (step (fs2, m) op).map (fun r => (r.1.2, r.2)) := by
  cases op with
  | create offset length newData =>
    simp only [step, Option.map_map]
    rfl
  | commit id bytes =>
    simp only [step, Option.map_some', Option.some.injEq, Prod.mk.injEq]
    unfold commitTransaction
    cases findErase id m.uncommittedTransactions with
    | none => exact ⟨rfl, rfl⟩
    | some r =>
      simp only
      split
      · exact ⟨rfl, rfl⟩
      · exact ⟨rfl, rfl⟩
  | abort id =>
    simp only [step, Option.map_map]
    rfl
  | replay ts => rfl

/-- A call on a reachable manager, in whatever directory, leaves a reachable manager. -/
theorem reachable_step {fs fs' : Dir} {m m' : TransactionManager} {op : Op} {ret : Int}
    (hm : Reachable m) (h : step (fs, m) op = some ((fs', m'), ret)) : Reachable m' := by
  obtain ⟨fs0, path, segment, ops, fs1, hrun⟩ := hm
  have hs := step_other_directory fs1 fs m op
  rw [h] at hs
  cases h1 : step (fs1, m) op with
  | none => rw [h1] at hs; simp at hs
  | some r =>
    rw [h1] at hs
    simp only [Option.map_some', Option.some.injEq, Prod.mk.injEq] at hs
    refine ⟨fs0, path, segment, ops ++ [op], r.1.1, ?_⟩
    rw [run_append, hrun]
    simp only [Option.some_bind, run, h1]
    rw [← hs.1]


/-! ## C11, C12: calls on a closed file -/

theorem gtfs_close_file_eq_zero {w w' : World} {gtfs : Option gtfs_t} {fl fl' : Option file_t}
    (h : gtfs_close_file w gtfs fl = (w', fl', 0)) :
    ∃ f : file_t, fl = some f ∧ f.fileDescriptor ≠ -1 ∧
      w' = { w with locked := w.locked.filter (fun e => decide (e.2 ≠ f.fileDescriptor)) } ∧
      fl' = some { f with fileDescriptor := -1, fileLength := 0, transactionManager := none } := by
  unfold gtfs_close_file at h
  cases gtfs with
  | none => simp at h
  | some g =>
    cases fl with
    | none => simp at h
    | some f =>
      by_cases hfd : f.fileDescriptor = -1
      · simp [hfd] at h
      · simp only [hfd, if_false, Prod.mk.injEq, and_true] at h
        exact ⟨f, rfl, hfd, h.1.symm, h.2.symm⟩

/-- C11: for every file handle that `gtfs_close_file` has closed (the call returned 0), the
handle has the descriptor -1 and no transaction manager; `gtfs_write_file` and `gtfs_read_file`
on it return null, whatever the offset, length and data, and `gtfs_sync_write_file` and
`gtfs_abort_write_file` return -1 for every write handle pointing to it; the directory (data
file and log) and the handle are the same after each of these calls. -/
theorem closed_file_operations_fail (w w' : World) (gtfs : Option gtfs_t)
    (fl fl' : Option file_t) (h : gtfs_close_file w gtfs fl = (w', fl', 0)) :
    ∃ closed : file_t, fl' = some closed ∧
      closed.fileDescriptor = -1 ∧ closed.transactionManager = none ∧
      (∀ g offset length data,
        gtfs_write_file g (some closed) offset length data = some (some closed, none)) ∧
      (∀ g offset length, gtfs_read_file g (some closed) offset length = some none) ∧
      (∀ fs wrt, gtfs_sync_write_file fs (some wrt) (some closed) = (fs, some closed, -1)) ∧
      (∀ wrt, gtfs_abort_write_file (some wrt) (some closed) = some (some closed, -1)) := by
  obtain ⟨f, _, _, _, hfl⟩ := gtfs_close_file_eq_zero h
  refine ⟨_, hfl, rfl, rfl, ?_, ?_, ?_, ?_⟩
  · intro g offset length data
    cases g <;> simp [gtfs_write_file]
  · intro g offset length
    cases g <;> simp [gtfs_read_file]
  · intro fs wrt
    simp [gtfs_sync_write_file]
  · intro wrt
    simp [gtfs_abort_write_file]

/-- Witness for C11, from `test_read_write_closed_file`, `test_sync_closed_write` and
`test_abort_closed_write`: `test10.txt` is closed after a write of 16 bytes; the write, the read,
the sync and the abort that follow fail. -/
theorem closed_file_operations_fail_witness :
    gtfs_close_file ⟨testingFiles, [("test10.txt", 3)]⟩ (some ⟨"."⟩) (some openTesting)
        = (⟨testingFiles, []⟩, some closedTesting, 0) ∧
      gtfs_write_file (some ⟨"."⟩) (some closedTesting) 0 16 testingString
        = some (some closedTesting, none) ∧
      gtfs_read_file (some ⟨"."⟩) (some closedTesting) 0 16 = some none ∧
      gtfs_sync_write_file testingFiles (some testingWrite) (some closedTesting)
        = (testingFiles, some closedTesting, -1) ∧
      gtfs_abort_write_file (some testingWrite) (some closedTesting)
        = some (some closedTesting, -1) := by
  have hc : gtfs_close_file ⟨testingFiles, [("test10.txt", 3)]⟩ (some ⟨"."⟩) (some openTesting)
      = (⟨testingFiles, []⟩, some closedTesting, 0) := rfl
  obtain ⟨closed, h1, _, _, hw, hr, hs, ha⟩ :=
    closed_file_operations_fail _ _ _ _ _ hc
  cases h1
  exact ⟨hc, hw _ _ _ _, hr _ _ _, hs _ _, ha _⟩

/-- C12, at the input of `test_sync_closed_write` with the budgeted call: `test10.txt` is opened
with length 100, 16 bytes are written at offset 0 and the file is closed.  With the write handle
of that write, `gtfs_sync_write_file` returns -1 and changes nothing, whereas
`gtfs_sync_write_file_n_bytes`, for the budget 16 as for any other, calls `commitTransaction`
through the null manager of the closed file and has no defined result. -/
theorem budgeted_sync_on_closed_file_dereferences_null :
    writeThenClose ⟨[], []⟩ (some ⟨"."⟩) "test10.txt" 100 3 0 testingString
        = some (⟨testingFiles, []⟩, closedTesting, testingWrite) ∧
      gtfs_sync_write_file testingFiles (some testingWrite) (some closedTesting)
        = (testingFiles, some closedTesting, -1) ∧
      gtfs_sync_write_file_n_bytes testingFiles (some testingWrite) (some closedTesting) 16
        = none ∧
      ∀ (fs : Dir) (wrt : write_t) (bytes : Int),
        gtfs_sync_write_file_n_bytes fs (some wrt) (some closedTesting) bytes = none := by
  refine ⟨by set_option maxRecDepth 20000 in rfl, by rfl, by rfl, ?_⟩
  intro fs wrt bytes
  rfl

/-! ## C13, C14: removal -/

theorem gtfs_remove_file_closed (w : World) (g : gtfs_t) (f : file_t)
    (hfd : f.fileDescriptor = -1) :
    (gtfs_remove_file w (some g) (some f)).2
        = (if lookupNode w.files f.filename = none then 0 else 1) ∧
      lookupNode (gtfs_remove_file w (some g) (some f)).1.files f.filename = none ∧
      lookupNode (gtfs_remove_file w (some g) (some f)).1.files (f.filename ++ ".log") = none ∧
      ∀ name, name ≠ f.filename → name ≠ f.filename ++ ".log" →
        lookupNode (gtfs_remove_file w (some g) (some f)).1.files name
          = lookupNode w.files name := by
  simp only [gtfs_remove_file, hfd, ne_eq, not_true_eq_false, if_false]
  refine ⟨trivial, ?_, ?_, ?_⟩
  · rw [lookupNode_removeNode, if_neg (logPath_ne f.filename).symm, lookupNode_removeNode,
      if_pos rfl]
  · rw [lookupNode_removeNode, if_pos rfl]
  · intro name h1 h2
    rw [lookupNode_removeNode, if_neg h2, lookupNode_removeNode, if_neg h1]

/-- C13, at the input of `test_remove_synced_file`: `test5.txt` is opened with length 100, 16
bytes are written at offset 0 and synced, and the file is closed, which leaves the data file and
its log in the directory.  `gtfs_remove_file` on the closed handle then deletes both, and
returns 1, the `bool` of `fs::remove` converted to `int`, not 0. -/
theorem remove_closed_file_returns_one :
    writeSyncCloseRemove ⟨[], []⟩ (some ⟨"."⟩) "test5.txt" 100 3 0 testingString
        = some (⟨syncedFiles, []⟩, ⟨[], []⟩, 1) ∧
      gtfs_remove_file ⟨syncedFiles, []⟩ (some ⟨"."⟩) (some closedRemoved) = (⟨[], []⟩, 1) ∧
      ∀ (w : World) (g : gtfs_t) (f : file_t), f.fileDescriptor = -1 →
        lookupNode w.files f.filename ≠ none →
        (gtfs_remove_file w (some g) (some f)).2 = 1 := by
  refine ⟨by set_option maxRecDepth 20000 in rfl, by rfl, ?_⟩
  intro w g f hfd hex
  rw [(gtfs_remove_file_closed w g f hfd).1, if_neg hex]

/-- C14: for every file handle that is open (its descriptor is not -1), `gtfs_remove_file`
returns -1 and leaves the directory (the data file and its log) and the locks as they are; the
call never writes to the handle. -/
theorem remove_open_file_refused (w : World) (gtfs : Option gtfs_t) (f : file_t)
    (hopen : f.fileDescriptor ≠ -1) :
    gtfs_remove_file w gtfs (some f) = (w, -1) := by
  cases gtfs with
  | none => rfl
  | some g => simp [gtfs_remove_file, hopen]

/-- Witness for C14, from `test_remove_open_file`: `test5.txt`, just opened with length 100 on
descriptor 3, is not removed. -/
theorem remove_open_file_refused_witness :
    gtfs_open_file ⟨[], []⟩ (some ⟨"."⟩) "test5.txt" 100 3
        = some (⟨[("test5.txt", Node.regular (List.replicate 100 0))], [("test5.txt", 3)]⟩,
            some ⟨"test5.txt", 100, 3,
              some (TransactionManager.new "test5.txt" (List.replicate 100 0))⟩) ∧
      gtfs_remove_file ⟨[("test5.txt", Node.regular (List.replicate 100 0))], [("test5.txt", 3)]⟩
          (some ⟨"."⟩)
          (some ⟨"test5.txt", 100, 3,
            some (TransactionManager.new "test5.txt" (List.replicate 100 0))⟩)
        = (⟨[("test5.txt", Node.regular (List.replicate 100 0))], [("test5.txt", 3)]⟩, -1) :=
  ⟨by set_option maxRecDepth 20000 in rfl, remove_open_file_refused _ _ _ (by decide)⟩

/-! ## C15, C16: what `gtfs_open_file` does to the directory and the locks -/

theorem storeNode_storeNode (d : Dir) (n : String) (x y : Node) :
    storeNode (storeNode d n x) n y = storeNode d n y := by
  induction d with
  | nil => simp [storeNode]
  | cons e d ih =>
    obtain ⟨n', z⟩ := e
    by_cases h : n' = n
    · simp [storeNode, h]
    · simp [storeNode, h, ih]

theorem storeNode_of_lookup {d : Dir} {n : String} {x : Node} (h : lookupNode d n = some x) :
    storeNode d n x = d := by
  induction d with
  | nil => simp [lookupNode] at h
  | cons e d ih =>
    obtain ⟨n', z⟩ := e
    by_cases hn : n' = n
    · simp only [lookupNode, hn, if_true, Option.some.injEq] at h
      simp [storeNode, hn, h]
    · simp only [lookupNode, hn, if_false] at h
      simp [storeNode, hn, ih h]

theorem readFile_congr {fs fs' : Dir} {path : String}
    (h : lookupNode fs' path = lookupNode fs path) : readFile fs' path = readFile fs path := by
  unfold readFile
  rw [h]

/-- The directory `gtfs_open_file` leaves once the size check has passed: the data file
holds its old content resized to the declared length; the call does not return for a negative
declared length once the file is to be resized or the buffer to be built. -/
theorem gtfs_open_file_cases (w : World) (g : gtfs_t) (filename : String) (d fd : Int)
    (hname : filename.length ≠ 0) (hfile : lookupNode w.files filename ≠ some Node.directory) :
    (toSizeT d < (readFile w.files filename).length ∧
        gtfs_open_file w (some g) filename d fd = some (w, none)) ∨
    (¬ toSizeT d < (readFile w.files filename).length ∧
      ∃ files2 : Dir,
        lookupNode files2 filename
          = some (Node.regular (resize (readFile w.files filename) (toSizeT d))) ∧
        (∀ name, name ≠ filename → lookupNode files2 name = lookupNode w.files name) ∧
        (lookupNode w.files filename ≠ none →
          toSizeT d = (readFile w.files filename).length → files2 = w.files) ∧
        gtfs_open_file w (some g) filename d fd =
          if toSizeT d > (readFile w.files filename).length ∧ d < 0 then none
          else if fd = -1 ∨ filename ∈ w.locked.map Prod.fst then
            some (World.mk files2 w.locked, none)
          else if d < 0 then none
          else
            (decodeLog (readFile w.files (filename ++ ".log"))).map
              (fun ts => (World.mk files2 ((filename, fd) :: w.locked),
                some (file_t.mk filename d fd (some (TransactionManager.mk
                  (BaseTransactionManager.mk 0
                    (replaySegment (resize (readFile w.files filename) (toSizeT d)) ts) [])
                  (filename ++ ".log"))))))) := by
  have hlp := logPath_ne filename
  have tail : ∀ (files2 : Dir) (buffer : List Nat),
      (∀ name, name ≠ filename → lookupNode files2 name = lookupNode w.files name) →
      (if fd = -1 then some ({ w with files := files2 }, none)
        else if filename ∈ w.locked.map Prod.fst then some ({ w with files := files2 }, none)
        else if d < 0 then none
        else
          match LogManager.getTransactionsInLog files2
              (TransactionManager.new filename buffer).logFilePath with
          | none => none
          | some transactions =>
            some (World.mk files2 ((filename, fd) :: w.locked),
              some (file_t.mk filename d fd (some
                (TransactionManager.mk (replayTransactions
                  (TransactionManager.new filename buffer).toBaseTransactionManager
                    transactions).1 (TransactionManager.new filename buffer).logFilePath)))))
      = if fd = -1 ∨ filename ∈ w.locked.map Prod.fst then some (World.mk files2 w.locked, none)
        else if d < 0 then none
        else
          (decodeLog (readFile w.files (filename ++ ".log"))).map
            (fun ts => (World.mk files2 ((filename, fd) :: w.locked),
              some (file_t.mk filename d fd (some (TransactionManager.mk
                (BaseTransactionManager.mk 0 (replaySegment buffer ts) [])
                (filename ++ ".log")))))) := by
    intro files2 buffer hother
    by_cases hfd : fd = -1
    · simp [hfd]
    · by_cases hlock : filename ∈ w.locked.map Prod.fst
      · simp only [hfd, hlock, if_false, if_true, or_true]
      · simp only [hfd, hlock, if_false, or_self]
        by_cases hneg : d < 0
        · simp only [hneg, if_true]
        · simp only [hneg, if_false]
          rw [getTransactionsInLog_eq]
          have e : readFile files2 (TransactionManager.new filename buffer).logFilePath
              = readFile w.files (filename ++ ".log") := readFile_congr (hother _ hlp)
          rw [e]
          cases decodeLog (readFile w.files (filename ++ ".log")) with
          | none => rfl
          | some ts => rfl
  have tailNeg : ∀ (L R : Option (World × Option file_t)),
      L = R → (if d < 0 then none else L) = (if d < 0 then none else R) := by
    intro L R e
    rw [e]
  unfold gtfs_open_file
  simp only [hname, if_false]
  cases hl : lookupNode w.files filename with
  | none =>
    right
    have hr : readFile w.files filename = [] := by simp [readFile, hl]
    have hr1 : readFile (storeNode w.files filename (Node.regular [])) filename = [] := by
      rw [readFile_storeNode, if_pos rfl]
    simp only [if_true, hr1, List.length_nil, Nat.not_lt_zero, if_false, hr, not_false_eq_true,
      true_and]
    by_cases hpos : 0 < toSizeT d
    · simp only [hpos, if_true, gt_iff_lt, true_and]
      have hr2 : readFile (storeNode (storeNode w.files filename (Node.regular [])) filename
          (Node.regular (resize [] (toSizeT d)))) filename = resize [] (toSizeT d) := by
        rw [readFile_storeNode, if_pos rfl]
      rw [hr2, resize_resize]
      refine ⟨_, ?_, ?_, ?_, tailNeg _ _ (tail _ _ ?_)⟩
      · rw [lookupNode_storeNode, if_pos rfl]
      · intro name hne
        rw [lookupNode_storeNode, if_neg hne, lookupNode_storeNode, if_neg hne]
      · intro h; exact absurd rfl h
      · intro name hne
        rw [lookupNode_storeNode, if_neg hne, lookupNode_storeNode, if_neg hne]
    · have hd0 : toSizeT d = 0 := by omega
      simp only [hd0, Nat.lt_irrefl, if_false, gt_iff_lt, hr1, false_and]
      refine ⟨_, ?_, ?_, ?_, tail _ _ ?_⟩
      · rw [lookupNode_storeNode, if_pos rfl]
        rfl
      · intro name hne
        rw [lookupNode_storeNode, if_neg hne]
      · intro h; exact absurd rfl h
      · intro name hne
        rw [lookupNode_storeNode, if_neg hne]
  | some x =>
    cases x with
    | directory => exact absurd hl hfile
    | regular c =>
      have hr : readFile w.files filename = c := by simp [readFile, hl]
      simp only [reduceCtorEq, if_false, hr]
      by_cases hlt : toSizeT d < c.length
      · left
        simp only [hlt, if_true, true_and]
      · right
        simp only [hlt, if_false, not_false_eq_true, true_and]
        by_cases hgt : toSizeT d > c.length
        · simp only [hgt, if_true, true_and]
          have hr2 : readFile (storeNode w.files filename
              (Node.regular (resize c (toSizeT d)))) filename = resize c (toSizeT d) := by
            rw [readFile_storeNode, if_pos rfl]
          rw [hr2, resize_resize]
          refine ⟨_, ?_, ?_, ?_, tailNeg _ _ (tail _ _ ?_)⟩
          · rw [lookupNode_storeNode, if_pos rfl]
          · intro name hne
            rw [lookupNode_storeNode, if_neg hne]
          · intro _ h; omega
          · intro name hne
            rw [lookupNode_storeNode, if_neg hne]
        · have hcd : c.length = toSizeT d := by omega
          simp only [hgt, if_false, hr, false_and]
          refine ⟨_, ?_, ?_, ?_, tail _ _ ?_⟩
          · rw [hl, resize_of_length hcd]
          · intro name _; rfl
          · intro _ _; rfl
          · intro name _; rfl

theorem resize_of_le {v : List Nat} {n : Nat} (h : v.length ≤ n) :
    resize v n = v ++ List.replicate (n - v.length) 0 := by
  unfold resize
  rw [List.take_of_length_le h]

/-- C15 as the code has it: whenever `gtfs_open_file` returns null, the locks and every file and log other
than the data file are as before; the whole state is as before when the call fails on a null
directory handle, an empty filename, a path that is not a regular file or a declared length
below the size on disk, and more generally whenever `open` succeeded and the lock was free.
Otherwise the call failed at `open` or at `flock`, the declared length is at least the old size,
and the data file now exists with its old content followed by zeros up to the declared length
(created when absent, extended when shorter). -/
theorem failed_open_effect (w w' : World) (gtfs : Option gtfs_t) (filename : String)
    (d fd : Int) (h : gtfs_open_file w gtfs filename d fd = some (w', none)) :
    w'.locked = w.locked ∧
    (∀ name, name ≠ filename → lookupNode w'.files name = lookupNode w.files name) ∧
    (gtfs = none ∨ filename.length = 0 ∨ lookupNode w.files filename = some Node.directory ∨
      toSizeT d < (readFile w.files filename).length → w' = w) ∧
    (fd ≠ -1 → filename ∉ w.locked.map Prod.fst → w' = w) ∧
    (w' = w ∨
      ((fd = -1 ∨ filename ∈ w.locked.map Prod.fst) ∧
        (readFile w.files filename).length ≤ toSizeT d ∧
        lookupNode w'.files filename = some (Node.regular (readFile w.files filename ++
          List.replicate (toSizeT d - (readFile w.files filename).length) 0)))) := by
  cases gtfs with
  | none =>
    simp only [gtfs_open_file, Option.some.injEq, Prod.mk.injEq, and_true] at h
    subst h; exact ⟨rfl, fun _ _ => rfl, fun _ => rfl, fun _ _ => rfl, Or.inl rfl⟩
  | some g =>
    by_cases hname : filename.length = 0
    · simp only [gtfs_open_file, hname, if_true, Option.some.injEq, Prod.mk.injEq,
        and_true] at h
      subst h; exact ⟨rfl, fun _ _ => rfl, fun _ => rfl, fun _ _ => rfl, Or.inl rfl⟩
    · by_cases hfile : lookupNode w.files filename = some Node.directory
      · unfold gtfs_open_file at h
        simp only [hname, if_false, hfile, Option.some.injEq, Prod.mk.injEq, and_true] at h
        subst h; exact ⟨rfl, fun _ _ => rfl, fun _ => rfl, fun _ _ => rfl, Or.inl rfl⟩
      · rcases gtfs_open_file_cases w g filename d fd hname hfile with
          ⟨_, e⟩ | ⟨hnl, files2, hl2, hother, _, e⟩
        · rw [e] at h
          simp only [Option.some.injEq, Prod.mk.injEq, and_true] at h
          subst h; exact ⟨rfl, fun _ _ => rfl, fun _ => rfl, fun _ _ => rfl, Or.inl rfl⟩
        · rw [e] at h
          by_cases hthrow : toSizeT d > (readFile w.files filename).length ∧ d < 0
          · rw [if_pos hthrow] at h
            cases h
          · rw [if_neg hthrow] at h
            by_cases hc : fd = -1 ∨ filename ∈ w.locked.map Prod.fst
            · rw [if_pos hc] at h
              simp only [Option.some.injEq, Prod.mk.injEq, and_true] at h
              subst h
              refine ⟨rfl, hother, ?_, ?_, Or.inr ⟨hc, by omega, ?_⟩⟩
              · rintro (h1 | h1 | h1 | h1)
                · cases h1
                · exact absurd h1 hname
                · exact absurd h1 hfile
                · exact absurd h1 hnl
              · intro h1 h2
                rcases hc with hc | hc
                · exact absurd hc h1
                · exact absurd hc h2
              · show lookupNode files2 filename = _
                rw [hl2, resize_of_le (by omega)]
            · rw [if_neg hc] at h
              by_cases hneg : d < 0
              · rw [if_pos hneg] at h
                cases h
              · rw [if_neg hneg] at h
                cases hdec : decodeLog (readFile w.files (filename ++ ".log")) with
                | none => simp [hdec] at h
                | some ts => simp [hdec] at h

/-- Witness for C15, from the locking test: the second open of `test8.txt` with the declared
length 100 of the first returns null and leaves the directory and the locks as they were. -/
theorem failed_open_effect_witness :
    gtfs_open_file ⟨[("test8.txt", Node.regular (List.replicate 100 0))], [("test8.txt", 3)]⟩
        (some ⟨"."⟩) "test8.txt" 100 4
      = some (⟨[("test8.txt", Node.regular (List.replicate 100 0))], [("test8.txt", 3)]⟩, none) ∧
    ∀ name, name ≠ "test8.txt" →
      lookupNode [("test8.txt", Node.regular (List.replicate 100 0))] name
        = lookupNode [("test8.txt", Node.regular (List.replicate 100 0))] name := by
  have h : gtfs_open_file
      ⟨[("test8.txt", Node.regular (List.replicate 100 0))], [("test8.txt", 3)]⟩
        (some ⟨"."⟩) "test8.txt" 100 4
      = some (⟨[("test8.txt", Node.regular (List.replicate 100 0))], [("test8.txt", 3)]⟩, none) := by
    rfl
  exact ⟨h, (failed_open_effect _ _ _ _ _ _ h).2.1⟩

/-- Counterexample to C15 as stated: `test8.txt` is 2 bytes long and locked by the handle that
opened it with length 2; a further open with the declared length 4 returns null and leaves the
file 4 bytes long; and when `open` fails (descriptor -1) on a name that does not exist, the call
returns null and leaves a new empty file. -/
theorem failed_open_extends_locked_file :
    gtfs_open_file ⟨[], []⟩ (some ⟨"."⟩) "test8.txt" 2 3
      = some (⟨[("test8.txt", Node.regular [0, 0])], [("test8.txt", 3)]⟩,
          some ⟨"test8.txt", 2, 3, some (TransactionManager.new "test8.txt" [0, 0])⟩) ∧
    gtfs_open_file ⟨[("test8.txt", Node.regular [0, 0])], [("test8.txt", 3)]⟩
        (some ⟨"."⟩) "test8.txt" 4 4
      = some (⟨[("test8.txt", Node.regular [0, 0, 0, 0])], [("test8.txt", 3)]⟩, none) ∧
    gtfs_open_file ⟨[], []⟩ (some ⟨"."⟩) "new.txt" 0 (-1)
      = some (⟨[("new.txt", Node.regular [])], []⟩, none) := by
  decide

/-! ## C16: the lock -/

theorem gtfs_open_file_locked {w w' : World} {gtfs : Option gtfs_t} {filename : String}
    {d fd : Int} {r : Option file_t} (h : gtfs_open_file w gtfs filename d fd = some (w', r)) :
    ∀ x ∈ w.locked, x ∈ w'.locked := by
  cases gtfs with
  | none =>
    simp only [gtfs_open_file, Option.some.injEq, Prod.mk.injEq] at h
    rw [← h.1]; exact fun _ hx => hx
  | some g =>
    by_cases hname : filename.length = 0
    · simp only [gtfs_open_file, hname, if_true, Option.some.injEq, Prod.mk.injEq] at h
      rw [← h.1]; exact fun _ hx => hx
    · by_cases hfile : lookupNode w.files filename = some Node.directory
      · unfold gtfs_open_file at h
        simp only [hname, if_false, hfile, Option.some.injEq, Prod.mk.injEq] at h
        rw [← h.1]; exact fun _ hx => hx
      · rcases gtfs_open_file_cases w g filename d fd hname hfile with
          ⟨_, e⟩ | ⟨_, files2, _, _, _, e⟩
        · rw [e] at h
          simp only [Option.some.injEq, Prod.mk.injEq] at h
          rw [← h.1]; exact fun _ hx => hx
        · rw [e] at h
          by_cases hthrow : toSizeT d > (readFile w.files filename).length ∧ d < 0
          · rw [if_pos hthrow] at h
            cases h
          · rw [if_neg hthrow] at h
            by_cases hc : fd = -1 ∨ filename ∈ w.locked.map Prod.fst
            · rw [if_pos hc] at h
              simp only [Option.some.injEq, Prod.mk.injEq] at h
              rw [← h.1]; exact fun _ hx => hx
            · rw [if_neg hc] at h
              by_cases hneg : d < 0
              · rw [if_pos hneg] at h
                cases h
              · rw [if_neg hneg] at h
                cases hdec : decodeLog (readFile w.files (filename ++ ".log")) with
                | none => simp [hdec] at h
                | some ts =>
                  simp only [hdec, Option.map_some', Option.some.injEq, Prod.mk.injEq] at h
                  rw [← h.1]
                  exact fun _ hx => List.mem_cons_of_mem _ hx

/-- While a name is locked, `gtfs_open_file` for it hands out no handle: whenever the call
returns it returns null, and it returns whenever the declared length is not negative. -/
theorem gtfs_open_file_of_locked (w : World) (gtfs : Option gtfs_t) (filename : String)
    (d fd : Int) (hlock : filename ∈ w.locked.map Prod.fst) :
    (∀ w' r, gtfs_open_file w gtfs filename d fd = some (w', r) → r = none) ∧
    (0 ≤ d → ∃ w', gtfs_open_file w gtfs filename d fd = some (w', none)) := by
  cases gtfs with
  | none =>
    refine ⟨fun w' r h => ?_, fun _ => ⟨w, rfl⟩⟩
    simp only [gtfs_open_file, Option.some.injEq, Prod.mk.injEq] at h
    exact h.2.symm
  | some g =>
    by_cases hname : filename.length = 0
    · refine ⟨fun w' r h => ?_, fun _ => ⟨w, by simp only [gtfs_open_file, hname, if_true]⟩⟩
      simp only [gtfs_open_file, hname, if_true, Option.some.injEq, Prod.mk.injEq] at h
      exact h.2.symm
    · by_cases hfile : lookupNode w.files filename = some Node.directory
      · have e : gtfs_open_file w (some g) filename d fd = some (w, none) := by
          unfold gtfs_open_file
          simp only [hname, if_false, hfile]
        refine ⟨fun w' r h => ?_, fun _ => ⟨w, e⟩⟩
        rw [e] at h
        simp only [Option.some.injEq, Prod.mk.injEq] at h
        exact h.2.symm
      · rcases gtfs_open_file_cases w g filename d fd hname hfile with
          ⟨_, e⟩ | ⟨_, files2, _, _, _, e⟩
        · refine ⟨fun w' r h => ?_, fun _ => ⟨w, e⟩⟩
          rw [e] at h
          simp only [Option.some.injEq, Prod.mk.injEq] at h
          exact h.2.symm
        · refine ⟨fun w' r h => ?_, fun hd => ⟨World.mk files2 w.locked, ?_⟩⟩
          · rw [e] at h
            by_cases hthrow : toSizeT d > (readFile w.files filename).length ∧ d < 0
            · rw [if_pos hthrow] at h
              cases h
            · rw [if_neg hthrow, if_pos (Or.inr hlock)] at h
              simp only [Option.some.injEq, Prod.mk.injEq] at h
              exact h.2.symm
          · have hthrow : ¬ (toSizeT d > (readFile w.files filename).length ∧ d < 0) := by
              omega
            rw [e, if_neg hthrow, if_pos (Or.inr hlock)]

theorem locked_call {gtfs : Option gtfs_t} {w w' : World} {c : Call} {filename : String}
    {fd : Int} (h : call gtfs w c = some w') (hk : keepsLock filename fd c = true)
    (hlock : (filename, fd) ∈ w.locked) : (filename, fd) ∈ w'.locked := by
  cases c with
  | openFile n d fd1 =>
    simp only [call, Option.map_eq_some'] at h
    obtain ⟨⟨w1, r⟩, h1, h2⟩ := h
    simp only at h2
    subst h2
    exact gtfs_open_file_locked h1 _ hlock
  | closeFile fl =>
    simp only [call, Option.some.injEq] at h
    subst h
    simp only [keepsLock, decide_eq_true_eq] at hk
    unfold gtfs_close_file
    cases gtfs with
    | none => exact hlock
    | some g =>
      by_cases hfd : fl.fileDescriptor = -1
      · simp only [hfd, if_true]; exact hlock
      · simp only [hfd, if_false, List.mem_filter, decide_eq_true_eq]
        exact ⟨hlock, fun e => hk e.symm⟩
  | removeFile fl =>
    simp only [call, Option.some.injEq] at h
    subst h
    simp only [keepsLock, decide_eq_true_eq] at hk
    unfold gtfs_remove_file
    cases gtfs with
    | none => exact hlock
    | some g =>
      by_cases hfd : fl.fileDescriptor = -1
      · rcases hk with hk | hk
        · exact absurd hfd hk
        · simp only [hfd, ne_eq, not_true_eq_false, if_false, List.mem_filter,
            decide_eq_true_eq]
          exact ⟨hlock, fun e => hk.1 e.symm, fun e => hk.2 e.symm⟩
      · simp only [ne_eq, hfd, not_false_eq_true, if_true]; exact hlock
  | syncWrite wrt file =>
    simp only [call, Option.some.injEq] at h
    subst h
    exact hlock
  | syncWriteN wrt file bytes =>
    simp only [call, Option.map_eq_some'] at h
    obtain ⟨r, _, h2⟩ := h
    subst h2
    exact hlock
  | clean =>
    simp only [call, Option.map_eq_some'] at h
    obtain ⟨r, _, h2⟩ := h
    subst h2
    simp only [keepsLock, Bool.not_eq_true'] at hk
    show (filename, fd) ∈ locksAfterClean w gtfs
    unfold locksAfterClean
    cases gtfs with
    | none => exact hlock
    | some g =>
      simp only [List.mem_filter]
      exact ⟨hlock, by simp [hk]⟩
  | cleanN bytes =>
    simp only [call, Option.map_eq_some'] at h
    obtain ⟨r, _, h2⟩ := h
    subst h2
    simp only [keepsLock, Bool.not_eq_true'] at hk
    show (filename, fd) ∈ locksAfterClean w gtfs
    unfold locksAfterClean
    cases gtfs with
    | none => exact hlock
    | some g =>
      simp only [List.mem_filter]
      exact ⟨hlock, by simp [hk]⟩

theorem locked_runCalls {gtfs : Option gtfs_t} {filename : String} {fd : Int} :
    ∀ (calls : List Call) {w w' : World}, runCalls gtfs w calls = some w' →
      calls.all (keepsLock filename fd) = true → (filename, fd) ∈ w.locked →
      (filename, fd) ∈ w'.locked := by
  intro calls
  induction calls with
  | nil =>
    intro w w' h _ hlock
    simp only [runCalls, Option.some.injEq] at h
    subst h
    exact hlock
  | cons c cs ih =>
    intro w w' h hk hlock
    simp only [List.all_cons, Bool.and_eq_true] at hk
    unfold runCalls at h
    cases hc : call gtfs w c with
    | none => simp [hc] at h
    | some w1 =>
      simp only [hc] at h
      exact ih h hk.2 (locked_call hc hk.1 hlock)

theorem gtfs_open_file_success {w w1 : World} {gtfs : Option gtfs_t} {filename : String}
    {d fd : Int} {fl : file_t} (h : gtfs_open_file w gtfs filename d fd = some (w1, some fl)) :
    fd ≠ -1 ∧ filename ∉ w.locked.map Prod.fst ∧ w1.locked = (filename, fd) :: w.locked ∧
      fl.filename = filename ∧ fl.fileDescriptor = fd ∧ 0 ≤ d ∧
      ∀ locked : List (String × Int), filename ∉ locked.map Prod.fst →
        gtfs_open_file (World.mk w1.files locked) gtfs filename d fd
          = some (World.mk w1.files ((filename, fd) :: locked), some fl) := by
  cases gtfs with
  | none => simp [gtfs_open_file] at h
  | some g =>
    by_cases hname : filename.length = 0
    · simp [gtfs_open_file, hname] at h
    · by_cases hfile : lookupNode w.files filename = some Node.directory
      · unfold gtfs_open_file at h
        simp [hname, hfile] at h
      · rcases gtfs_open_file_cases w g filename d fd hname hfile with
          ⟨_, e⟩ | ⟨hnl, files2, hl2, hother, _, e⟩
        · rw [e] at h
          simp at h
        · rw [e] at h
          by_cases hthrow : toSizeT d > (readFile w.files filename).length ∧ d < 0
          · rw [if_pos hthrow] at h
            cases h
          · rw [if_neg hthrow] at h
            by_cases hc : fd = -1 ∨ filename ∈ w.locked.map Prod.fst
            · rw [if_pos hc] at h
              simp only [Option.some.injEq, Prod.mk.injEq, reduceCtorEq, and_false] at h
            · rw [if_neg hc] at h
              by_cases hneg : d < 0
              · rw [if_pos hneg] at h
                cases h
              · rw [if_neg hneg] at h
                cases hdec : decodeLog (readFile w.files (filename ++ ".log")) with
                | none => simp [hdec] at h
                | some ts =>
                  simp only [hdec, Option.map_some', Option.some.injEq, Prod.mk.injEq] at h
                  obtain ⟨h1, h2⟩ := h
                  subst h1 h2
                  have hfd : fd ≠ -1 := fun e1 => hc (Or.inl e1)
                  have hlock : filename ∉ w.locked.map Prod.fst := fun e1 => hc (Or.inr e1)
                  refine ⟨hfd, hlock, rfl, rfl, rfl, by omega, ?_⟩
                  intro locked hlocked
                  have hc2 : ¬ (fd = -1 ∨ filename ∈ locked.map Prod.fst) := by
                    rintro (e1 | e1)
                    · exact hfd e1
                    · exact hlocked e1
                  have hfile2 : lookupNode files2 filename ≠ some Node.directory := by
                    rw [hl2]; simp
                  have hread : readFile files2 filename
                      = resize (readFile w.files filename) (toSizeT d) := readFile_of_lookup hl2
                  rcases gtfs_open_file_cases (World.mk files2 locked) g filename d fd hname
                    hfile2 with ⟨hlt, _⟩ | ⟨_, files3, _, _, hsame, e3⟩
                  · simp only [hread, length_resize, Nat.lt_irrefl] at hlt
                  · have h3 : files3 = files2 := by
                      apply hsame
                      · rw [hl2]; simp
                      · show toSizeT d = (readFile files2 filename).length
                        rw [hread, length_resize]
                    subst h3
                    rw [e3]
                    have hthrow3 : ¬ (toSizeT d > (readFile files3 filename).length ∧ d < 0) :=
                      fun x => hneg x.2
                    rw [if_neg hthrow3, if_neg hc2, if_neg hneg]
                    have hlog : readFile files3 (filename ++ ".log")
                        = readFile w.files (filename ++ ".log") :=
                      readFile_congr (hother _ (logPath_ne filename))
                    simp only [hlog, hdec, hread, resize_resize, Option.map_some']

/-- C16 as the code has it: once `gtfs_open_file` has returned a handle for a name, the handle is open
and, after any sequence of opens, closes, removals, syncs and cleanups (by any process on the
directory) in which no call closes the descriptor of that handle, no call unlinks the name
through a closed handle and, when the name has the extension `.log`, no call cleans the
directory, no further `gtfs_open_file` for the name hands out a handle, whatever its arguments:
when the call returns it returns null, and with a declared length that is not negative it does
return; and `gtfs_close_file` on the handle returns 0 and releases the lock of its descriptor,
after which the same `gtfs_open_file` succeeds again, with the same handle and the same
directory as before. -/
theorem single_writer_locking (w w1 : World) (gtfs : Option gtfs_t) (filename : String)
    (d fd : Int) (fl : file_t)
    (h : gtfs_open_file w gtfs filename d fd = some (w1, some fl)) :
    fl.fileDescriptor ≠ -1 ∧
    (∀ (g : Option gtfs_t) (calls : List Call) (w2 : World),
      calls.all (keepsLock filename fl.fileDescriptor) = true →
      runCalls g w1 calls = some w2 →
      ∀ (g' : Option gtfs_t) (d' fd' : Int),
        (∀ w3 r, gtfs_open_file w2 g' filename d' fd' = some (w3, r) → r = none) ∧
        (0 ≤ d' → ∃ w3, gtfs_open_file w2 g' filename d' fd' = some (w3, none))) ∧
    gtfs_close_file w1 gtfs (some fl)
      = (World.mk w1.files (w.locked.filter (fun e => decide (e.2 ≠ fd))),
          some (file_t.mk filename 0 (-1) none), 0) ∧
    gtfs_open_file (World.mk w1.files (w.locked.filter (fun e => decide (e.2 ≠ fd)))) gtfs
        filename d fd
      = some (World.mk w1.files ((filename, fd) :: w.locked.filter (fun e => decide (e.2 ≠ fd))),
          some fl) := by
  obtain ⟨hfd, hlock, hl1, hn, hf, _, hre⟩ := gtfs_open_file_success h
  refine ⟨by rw [hf]; exact hfd, ?_, ?_, hre _ (not_mem_filter_names _ hlock)⟩
  · intro g calls w2 hk hrun g' d' fd'
    apply gtfs_open_file_of_locked
    rw [hf] at hk
    have hmem : (filename, fd) ∈ w2.locked := by
      apply locked_runCalls calls hrun hk
      rw [hl1]
      exact List.mem_cons_self _ _
    exact List.mem_map.2 ⟨(filename, fd), hmem, rfl⟩
  · cases gtfs with
    | none => simp [gtfs_open_file] at h
    | some g =>
      unfold gtfs_close_file
      have hfd' : fl.fileDescriptor ≠ -1 := by rw [hf]; exact hfd
      simp only [hfd', if_false, hl1, hn]
      rw [hf, filter_descriptor_cons]

/-- Witness for C16, from the locking test: the parent opens `test8.txt` with length 100; after
the close of a stale handle of the same name on another descriptor and a cleanup of the
directory, the open of the child returns null; once the parent has closed its handle the open
succeeds again. -/
theorem single_writer_locking_witness :
    gtfs_open_file ⟨[], []⟩ (some ⟨"."⟩) "test8.txt" 100 3
        = some (⟨[("test8.txt", Node.regular (List.replicate 100 0))], [("test8.txt", 3)]⟩,
            some ⟨"test8.txt", 100, 3,
              some (TransactionManager.new "test8.txt" (List.replicate 100 0))⟩) ∧
      runCalls (some ⟨"."⟩)
          ⟨[("test8.txt", Node.regular (List.replicate 100 0))], [("test8.txt", 3)]⟩
          [Call.closeFile ⟨"test8.txt", 100, 4, none⟩, Call.clean]
        = some ⟨[("test8.txt", Node.regular (List.replicate 100 0))], [("test8.txt", 3)]⟩ ∧
      (∃ w3, gtfs_open_file
          ⟨[("test8.txt", Node.regular (List.replicate 100 0))], [("test8.txt", 3)]⟩
          (some ⟨"."⟩) "test8.txt" 100 4 = some (w3, none)) ∧
      gtfs_close_file ⟨[("test8.txt", Node.regular (List.replicate 100 0))], [("test8.txt", 3)]⟩
          (some ⟨"."⟩)
          (some ⟨"test8.txt", 100, 3,
            some (TransactionManager.new "test8.txt" (List.replicate 100 0))⟩)
        = (⟨[("test8.txt", Node.regular (List.replicate 100 0))], []⟩,
            some ⟨"test8.txt", 0, -1, none⟩, 0) ∧
      gtfs_open_file ⟨[("test8.txt", Node.regular (List.replicate 100 0))], []⟩
          (some ⟨"."⟩) "test8.txt" 100 3
        = some (⟨[("test8.txt", Node.regular (List.replicate 100 0))], [("test8.txt", 3)]⟩,
            some ⟨"test8.txt", 100, 3,
              some (TransactionManager.new "test8.txt" (List.replicate 100 0))⟩) := by
  have h : gtfs_open_file ⟨[], []⟩ (some ⟨"."⟩) "test8.txt" 100 3
      = some (⟨[("test8.txt", Node.regular (List.replicate 100 0))], [("test8.txt", 3)]⟩,
          some ⟨"test8.txt", 100, 3,
            some (TransactionManager.new "test8.txt" (List.replicate 100 0))⟩) := by
    set_option maxRecDepth 20000 in rfl
  have hrun : runCalls (some ⟨"."⟩)
      ⟨[("test8.txt", Node.regular (List.replicate 100 0))], [("test8.txt", 3)]⟩
      [Call.closeFile ⟨"test8.txt", 100, 4, none⟩, Call.clean]
      = some ⟨[("test8.txt", Node.regular (List.replicate 100 0))], [("test8.txt", 3)]⟩ := by
    set_option maxRecDepth 20000 in rfl
  have T := single_writer_locking _ _ _ _ _ _ _ h
  exact ⟨h, hrun,
    (T.2.1 (some ⟨"."⟩) [Call.closeFile ⟨"test8.txt", 100, 4, none⟩, Call.clean] _
      (by decide) hrun (some ⟨"."⟩) 100 4).2 (by decide), T.2.2.1, T.2.2.2⟩

/-- Counterexample to C16 as stated: `test8.txt` is opened and closed through a first handle and
opened again through a second one, which stays open; `gtfs_remove_file` on the first, closed
handle unlinks the file (and returns 1); the open that follows creates the file anew, takes the
lock on the new file and returns a handle while the second handle is still open.  In the same
way, a file named `a.log` is opened with length 0 and stays open; `gtfs_clean` takes it for a
log, unlinks it and returns 0, and the open that follows returns a handle.  And while
`test8.txt` is locked, an open with the declared length -1 does not return null: it does not
return at all. -/
theorem open_succeeds_after_remove_through_closed_handle :
    openAfterRemove ⟨[], []⟩ (some ⟨"."⟩) "test8.txt" 100 3 4 5
      = some (⟨"test8.txt", 100, 4,
            some (TransactionManager.new "test8.txt" (List.replicate 100 0))⟩, 1,
          some ⟨"test8.txt", 100, 5,
            some (TransactionManager.new "test8.txt" (List.replicate 100 0))⟩) ∧
    openAfterClean ⟨[], []⟩ (some ⟨"."⟩) "a.log" 0 3 4
      = some (⟨"a.log", 0, 3, some (TransactionManager.new "a.log" [])⟩, 0,
          some ⟨"a.log", 0, 4, some (TransactionManager.new "a.log" [])⟩) ∧
    gtfs_open_file ⟨[("test8.txt", Node.regular (List.replicate 100 0))], [("test8.txt", 3)]⟩
        (some ⟨"."⟩) "test8.txt" (-1) 4 = none := by
  refine ⟨?_, ?_, ?_⟩
  · set_option maxRecDepth 20000 in rfl
  · set_option maxRecDepth 20000 in rfl
  · set_option maxRecDepth 20000 in rfl

/-! ## C17: replay, byte by byte -/

theorem getElem?_copyInto {dst : List Nat} {pos : Nat} {src : List Nat}
    (h : pos + src.length ≤ dst.length) (i : Nat) :
    (copyInto dst pos src)[i]? =
      if pos ≤ i ∧ i < pos + src.length then src[i - pos]? else dst[i]? := by
  unfold copyInto
  have h1 : (dst.take pos).length = pos := by rw [List.length_take]; omega
  by_cases hi : i < pos
  · rw [if_neg (by omega), List.append_assoc, List.getElem?_append_left (by omega),
      List.getElem?_take_of_lt hi]
  · by_cases hi2 : i < pos + src.length
    · rw [if_pos ⟨by omega, hi2⟩, List.append_assoc, List.getElem?_append_right (by omega), h1,
        List.getElem?_append_left (by omega)]
    · rw [if_neg (by omega), List.getElem?_append_right (by rw [List.length_append]; omega),
        List.getElem?_drop]
      congr 1
      rw [List.length_append]
      omega

theorem getElem?_resize {v : List Nat} {n : Nat} (h : v.length ≤ n) (i : Nat) :
    (resize v n)[i]? = if i < n then some ((v[i]?).getD 0) else none := by
  rw [resize_of_le h]
  by_cases hi : i < v.length
  · rw [List.getElem?_append_left hi, if_pos (by omega), List.getElem?_eq_getElem hi]
    rfl
  · rw [List.getElem?_append_right (by omega), List.getElem?_replicate,
      List.getElem?_eq_none (by omega)]
    by_cases hn : i < n
    · rw [if_pos (by omega), if_pos hn]; rfl
    · rw [if_neg (by omega), if_neg hn]

theorem lastCovering_append (rs : List Transaction) (r : Transaction) (i : Nat) :
    lastCovering (rs ++ [r]) i = if covers r i = true then some r else lastCovering rs i := by
  unfold lastCovering
  rw [List.reverse_append, List.reverse_singleton, List.singleton_append, List.find?_cons]
  cases covers r i <;> rfl

theorem applyRedo_append (seg : List Nat) (rs : List Transaction) (r : Transaction) :
    applyRedo seg (rs ++ [r]) = copyInto (applyRedo seg rs) r.offset r.newData := by
  simp only [applyRedo, List.foldl_append, List.foldl_cons, List.foldl_nil]

theorem getElem?_applyRedo (seg : List Nat) (i : Nat) : ∀ (rs : List Transaction),
    (∀ r ∈ rs, r.offset + r.newData.length ≤ seg.length) →
    (applyRedo seg rs)[i]? =
      match lastCovering rs i with
      | some r => r.newData[i - r.offset]?
      | none => seg[i]? := by
  intro rs
  induction rs using List.reverseRecOn with
  | nil => intro _; rfl
  | append_singleton rs r ih =>
    intro h
    have hrs : ∀ x ∈ rs, x.offset + x.newData.length ≤ seg.length :=
      fun x hx => h x (List.mem_append_left _ hx)
    have hr : r.offset + r.newData.length ≤ (applyRedo seg rs).length := by
      rw [length_applyRedo rs seg hrs]
      exact h r (List.mem_append_right _ (List.mem_singleton_self r))
    rw [applyRedo_append, getElem?_copyInto hr, lastCovering_append]
    by_cases hc : covers r i = true
    · rw [if_pos hc]
      simp only [covers, decide_eq_true_eq] at hc
      rw [if_pos hc]
    · rw [if_neg hc]
      simp only [covers, decide_eq_true_eq] at hc
      rw [if_neg hc]
      exact ih hrs

theorem lastCovering_some {rs : List Transaction} {i : Nat} {r : Transaction}
    (h : lastCovering rs i = some r) :
    r ∈ rs ∧ r.offset ≤ i ∧ i < r.offset + r.newData.length := by
  unfold lastCovering at h
  have h1 := List.find?_some h
  have h2 := List.mem_of_find?_eq_some h
  simp only [covers, decide_eq_true_eq] at h1
  exact ⟨List.mem_reverse.1 h2, h1⟩

theorem maxOffset_attained : ∀ (rs : List Transaction) (a : Nat),
    rs.foldl (fun m t => max m (t.offset + t.newData.length)) a = a ∨
      ∃ r ∈ rs, rs.foldl (fun m t => max m (t.offset + t.newData.length)) a
        = r.offset + r.newData.length := by
  intro rs
  induction rs with
  | nil => intro a; exact Or.inl rfl
  | cons x rs ih =>
    intro a
    simp only [List.foldl_cons]
    rcases ih (max a (x.offset + x.newData.length)) with h | ⟨r, hr, h⟩
    · rw [h]
      rcases le_total a (x.offset + x.newData.length) with hle | hle
      · right
        exact ⟨x, List.mem_cons_self _ _, max_eq_right hle⟩
      · left
        exact max_eq_left hle
    · right
      exact ⟨r, List.mem_cons_of_mem _ hr, h⟩

/-- C17: for every manager with segment `s` and every record list `rs`, `replayTransactions(rs)`
returns 0 and leaves the table and the counter as they are; the segment afterwards has length
`max(|s|, m)`, where `m` is the greatest `r.offset + |r.redo|` over the records of `rs` (0 for
an empty list), and at every index `i` below that length it holds the redo byte of the last
record of `rs` whose range `[offset, offset + |redo|)` contains `i`, or `s[i]` when no record
covers `i` and `i < |s|`, or zero when no record covers `i` and `i >= |s|`. -/
theorem replay_last_writer_wins (b : BaseTransactionManager) (rs : List Transaction) :
    (replayTransactions b rs).2 = 0 ∧
    (replayTransactions b rs).1.uncommittedTransactions = b.uncommittedTransactions ∧
    (replayTransactions b rs).1.totalTransactionCount = b.totalTransactionCount ∧
    (replayTransactions b rs).1.vmSegment.length = max b.vmSegment.length (maxOffset rs) ∧
    (∀ r ∈ rs, r.offset + r.newData.length ≤ maxOffset rs) ∧
    (rs ≠ [] → ∃ r ∈ rs, maxOffset rs = r.offset + r.newData.length) ∧
    (∀ i, i < max b.vmSegment.length (maxOffset rs) →
      (replayTransactions b rs).1.vmSegment[i]? = some (lastWriterByte b.vmSegment rs i)) ∧
    ∀ i, lastWriterByte b.vmSegment rs i =
      match lastCovering rs i with
      | some r => (r.newData[i - r.offset]?).getD 0
      | none => if i < b.vmSegment.length then (b.vmSegment[i]?).getD 0 else 0 := by
  refine ⟨rfl, rfl, rfl, length_replaySegment _ _, fun r hr => le_maxOffset hr, ?_, ?_, ?_⟩
  · intro hne
    rcases maxOffset_attained rs 0 with h | h
    · cases rs with
      | nil => exact absurd rfl hne
      | cons x xs =>
        refine ⟨x, List.mem_cons_self _ _, ?_⟩
        have hx := le_maxOffset (List.mem_cons_self x xs)
        unfold maxOffset at hx ⊢
        omega
    · exact h
  · intro i hi
    show (replaySegment b.vmSegment rs)[i]? = _
    unfold lastWriterByte
    cases rs with
    | nil =>
      have hi' : i < b.vmSegment.length := by
        simpa [maxOffset] using hi
      simp only [replaySegment, lastCovering, List.reverse_nil, List.find?_nil]
      rw [List.getElem?_eq_getElem hi']
      rfl
    | cons x xs =>
      rw [replaySegment_of_ne_nil _ (List.cons_ne_nil x xs)]
      generalize hseg : (if maxOffset (x :: xs) > b.vmSegment.length then
        resize b.vmSegment (maxOffset (x :: xs)) else b.vmSegment) = seg
      have hlen : seg.length = max b.vmSegment.length (maxOffset (x :: xs)) := by
        rw [← hseg]
        split
        · rw [length_resize]; omega
        · omega
      have hget : seg[i]? = some ((b.vmSegment[i]?).getD 0) := by
        rw [← hseg]
        split
        · rename_i hgt
          rw [getElem?_resize (by omega), if_pos (by omega)]
        · rename_i hle
          have hi' : i < b.vmSegment.length := by omega
          rw [List.getElem?_eq_getElem hi']
          rfl
      rw [getElem?_applyRedo seg i (x :: xs) (fun r hr => by
        have := le_maxOffset hr
        omega)]
      cases hc : lastCovering (x :: xs) i with
      | none => exact hget
      | some r =>
        obtain ⟨_, h1, h2⟩ := lastCovering_some hc
        simp only
        rw [List.getElem?_eq_getElem (by omega)]
        rfl
  · intro i
    unfold lastWriterByte
    cases lastCovering rs i with
    | some r => rfl
    | none =>
      simp only
      split
      · rfl
      · rw [List.getElem?_eq_none (by omega)]
        rfl

/-! ## C18, C19: what `createTransaction` does to the segment and what it saves -/

theorem oldSize_of_le {size offset length : Nat} (hs : size < 2 ^ 64) (h : offset ≤ size) :
    oldSize size offset length = min length (size - offset) := by
  unfold oldSize
  have e : ((size : Int) - (offset : Int)) = ((size - offset : Nat) : Int) := by omega
  rw [e, toSizeT_natCast (by omega)]
  simp only [Nat.max_zero]

theorem oldSize_of_gt {size offset length : Nat} (h : size < offset) (ho : offset < 2 ^ 63)
    (hl : length < 2 ^ 63) : oldSize size offset length = length := by
  unfold oldSize toSizeT
  have e : ((size : Int) - (offset : Int)) % 2 ^ 64
      = ((2 ^ 64 - (offset - size) : Nat) : Int) := by
    omega
  rw [e, Int.toNat_natCast]
  simp only [Nat.max_zero]
  exact min_eq_left (by omega)

/-- Within the segment, and for an empty write anywhere, `createTransaction` is defined and does
what is expected of it: the segment grows to `max(|s|, offset + n)`, holds the data in
`[offset, offset + n)` and its old bytes (zero past the old end) elsewhere, and the undo buffer
holds the `min(n, |s| - offset)` bytes that were at `offset`. -/
theorem createTransaction_within (b : BaseTransactionManager) (offset n : Nat) (data : List Nat)
    (hs : b.vmSegment.length < 2 ^ 64) (hn : n ≤ data.length)
    (h : offset ≤ b.vmSegment.length ∨ n = 0) :
    ∃ b' : BaseTransactionManager,
      createTransaction b offset n data = some (b', b.totalTransactionCount) ∧
      b'.vmSegment.length = max b.vmSegment.length (offset + n) ∧
      (∀ i, i < max b.vmSegment.length (offset + n) →
        b'.vmSegment[i]? = some (if offset ≤ i ∧ i < offset + n then (data[i - offset]?).getD 0
          else (b.vmSegment[i]?).getD 0)) ∧
      b'.uncommittedTransactions = b.uncommittedTransactions ++
        [⟨b.totalTransactionCount, offset,
          (b.vmSegment.drop offset).take (min n (b.vmSegment.length - offset)),
          data.take n⟩] := by
  have hold : oldSize b.vmSegment.length offset n = min n (b.vmSegment.length - offset) := by
    rcases h with h | h
    · exact oldSize_of_le hs h
    · have := oldSize_le b.vmSegment.length offset n
      omega
  have hguard : (oldSize b.vmSegment.length offset n = 0 ∨
      offset + oldSize b.vmSegment.length offset n ≤ b.vmSegment.length) ∧
      n ≤ data.length := by
    refine ⟨?_, hn⟩
    rw [hold]
    omega
  have htake : (data.take n).length = n := by
    rw [List.length_take]; omega
  generalize hseg : (if offset + n > b.vmSegment.length then
    resize b.vmSegment (offset + n) else b.vmSegment) = seg
  have hlen : seg.length = max b.vmSegment.length (offset + n) := by
    rw [← hseg]
    split
    · rw [length_resize]; omega
    · omega
  have hget : ∀ i, i < seg.length → seg[i]? = some ((b.vmSegment[i]?).getD 0) := by
    intro i hi
    rw [← hseg]
    split
    · rw [getElem?_resize (by omega), if_pos (by omega)]
    · have hi' : i < b.vmSegment.length := by omega
      rw [List.getElem?_eq_getElem hi']
      rfl
  refine ⟨⟨b.totalTransactionCount + 1, copyInto seg offset (data.take n),
    b.uncommittedTransactions ++ [⟨b.totalTransactionCount, offset,
      (b.vmSegment.drop offset).take (min n (b.vmSegment.length - offset)), data.take n⟩]⟩,
    ?_, ?_, ?_, rfl⟩
  · unfold createTransaction createSegment
    rw [if_pos hguard]
    simp only [hold, hseg]
  · show (copyInto seg offset (data.take n)).length = _
    rw [length_copyInto (by rw [htake]; omega), hlen]
  · intro i hi
    show (copyInto seg offset (data.take n))[i]? = _
    rw [getElem?_copyInto (by rw [htake]; omega), htake]
    by_cases hc : offset ≤ i ∧ i < offset + n
    · rw [if_pos hc, if_pos hc, List.getElem?_take_of_lt (by omega),
        List.getElem?_eq_getElem (by omega)]
      rfl
    · rw [if_neg hc, if_neg hc]
      exact hget i (by omega)

theorem createTransaction_segment {b b' : BaseTransactionManager} {offset length id : Nat}
    {newData : List Nat} (h : createTransaction b offset length newData = some (b', id)) :
    b'.vmSegment = createSegment b.vmSegment offset length newData := by
  unfold createTransaction at h
  simp only at h
  split at h
  · simp only [Option.some.injEq, Prod.mk.injEq] at h
    rw [← h.1]
  · simp at h

/-- C18: for every segment `s`, every offset and every data of length `n`, the segment that
`createTransaction(offset, n, data)` leaves (lines 399-404) has length `max(|s|, offset + n)`,
holds the data in `[offset, offset + n)`, keeps the old byte at every index below `|s|` outside
that range, holds zero at every index of `[|s|, offset)` and is never shorter than `s`; this is
the segment of the manager the call returns, whenever the call returns, which it does for every
offset within the segment and for an empty write anywhere.  For a write of `n > 0` bytes that
starts past the end the segment is the same, `aa` becoming `aa`, zero, `b` for
`createTransaction(3, 1, "b")`; there only the undo copy of line 395 goes wrong, reading outside
the segment into the undo buffer, which is why the embedding gives the call as a whole no
result. -/
theorem create_segment_effect (b : BaseTransactionManager) (offset : Nat) (data : List Nat) :
    (createSegment b.vmSegment offset data.length data).length
      = max b.vmSegment.length (offset + data.length) ∧
    (∀ i, offset ≤ i → i < offset + data.length →
      (createSegment b.vmSegment offset data.length data)[i]? = data[i - offset]?) ∧
    (∀ i, i < b.vmSegment.length → ¬ (offset ≤ i ∧ i < offset + data.length) →
      (createSegment b.vmSegment offset data.length data)[i]? = b.vmSegment[i]?) ∧
    (∀ i, b.vmSegment.length ≤ i → i < offset →
      (createSegment b.vmSegment offset data.length data)[i]? = some 0) ∧
    b.vmSegment.length ≤ (createSegment b.vmSegment offset data.length data).length ∧
    (∀ b' id, createTransaction b offset data.length data = some (b', id) →
      b'.vmSegment = createSegment b.vmSegment offset data.length data) ∧
    (b.vmSegment.length < 2 ^ 64 → offset ≤ b.vmSegment.length ∨ data = [] →
      ∃ b', createTransaction b offset data.length data
        = some (b', b.totalTransactionCount)) ∧
    createSegment [97, 97] 3 1 [98] = [97, 97, 0, 98] := by
  generalize hseg : (if offset + data.length > b.vmSegment.length then
    resize b.vmSegment (offset + data.length) else b.vmSegment) = seg
  have hcs : createSegment b.vmSegment offset data.length data = copyInto seg offset data := by
    unfold createSegment
    rw [hseg, List.take_length]
  have hlen : seg.length = max b.vmSegment.length (offset + data.length) := by
    rw [← hseg]
    split
    · rw [length_resize]; omega
    · omega
  have hfit : offset + data.length ≤ seg.length := by omega
  have hget : ∀ i, i < seg.length → seg[i]? = some ((b.vmSegment[i]?).getD 0) := by
    intro i hi
    rw [← hseg]
    split
    · rw [getElem?_resize (by omega), if_pos (by omega)]
    · have hi' : i < b.vmSegment.length := by omega
      rw [List.getElem?_eq_getElem hi']
      rfl
  rw [hcs]
  refine ⟨?_, ?_, ?_, ?_, ?_, ?_, ?_, by decide⟩
  · rw [length_copyInto hfit, hlen]
  · intro i h1 h2
    rw [getElem?_copyInto hfit, if_pos ⟨h1, h2⟩]
  · intro i h1 h2
    rw [getElem?_copyInto hfit, if_neg h2, hget i (by omega), List.getElem?_eq_getElem h1]
    rfl
  · intro i h1 h2
    rw [getElem?_copyInto hfit, if_neg (by omega), hget i (by omega),
      List.getElem?_eq_none h1]
    rfl
  · rw [length_copyInto hfit, hlen]
    exact le_max_left _ _
  · intro b' id h
    rw [createTransaction_segment h, hcs]
  · intro hs h
    obtain ⟨b', h1, _⟩ := createTransaction_within b offset data.length data hs (le_refl _)
      (h.imp id (fun e => by rw [e]; rfl))
    exact ⟨b', h1⟩

/-- In the embedding, a write of at least one byte that starts past the end of the segment has no
result: the undo copy of line 395 reads outside the segment. -/
theorem createTransaction_past_end (b : BaseTransactionManager) (offset n : Nat)
    (data : List Nat) (h : b.vmSegment.length < offset) (ho : offset < 2 ^ 63) (hpos : 0 < n)
    (hn : n < 2 ^ 63) : createTransaction b offset n data = none := by
  unfold createTransaction
  simp only [oldSize_of_gt h ho hn]
  rw [if_neg]
  omega

/-- C19, at a write past the end: for the segment size 2, the offset 3 and the length 1 the
undo length of line 390 is 1, where `min(n, max(0, |s| - offset))` is 0: the subtraction is made
in `size_t` and wraps, so the clamp at 0 never applies.  The undo copy then reads index 3 of the
2-byte segment and `createTransaction` has no defined result.  The same holds for every offset
past the end and every positive length (both below 2^63). -/
theorem undo_length_wraps_past_end :
    oldSize 2 3 1 = 1 ∧ min (1 : Int) (max 0 ((2 : Int) - 3)) = 0 ∧
    toSizeT ((2 : Int) - 3) = 2 ^ 64 - 1 ∧
    createTransaction (BaseTransactionManager.new [97, 97]) 3 1 [98] = none ∧
    ∀ (size offset n : Nat), size < offset → offset < 2 ^ 63 → n < 2 ^ 63 →
      oldSize size offset n = n := by
  refine ⟨by decide, by decide, by decide, by decide, ?_⟩
  intro size offset n h ho hn
  exact oldSize_of_gt h ho hn

/-! ## C20: the ids `createTransaction` hands out -/

theorem count_step {s s' : Dir × TransactionManager} {op : Op} {ret : Int}
    (h : step s op = some (s', ret)) :
    s'.2.totalTransactionCount = s.2.totalTransactionCount + countCreates [op] ∧
      ∀ o l d, op = Op.create o l d → ret = (s.2.totalTransactionCount : Int) := by
  cases op with
  | create offset length newData =>
    simp only [step, Option.map_eq_some'] at h
    obtain ⟨⟨b, i⟩, h1, h2⟩ := h
    simp only [Prod.mk.injEq] at h2
    obtain ⟨c1, c2, _⟩ := createTransaction_some h1
    refine ⟨?_, ?_⟩
    · rw [← h2.1]
      simp only [c2, countCreates]
    · intro _ _ _ _
      rw [← h2.2, c1]
  | commit id bytes =>
    simp only [step, Option.some.injEq, Prod.mk.injEq] at h
    refine ⟨?_, fun _ _ _ e => by cases e⟩
    rw [← h.1]
    rcases commitTransaction_cases s.1 s.2 id bytes with hc | ⟨t, rest, _, _, hc⟩
    · rw [hc]; rfl
    · rw [hc]; rfl
  | abort id =>
    simp only [step, Option.map_eq_some'] at h
    obtain ⟨⟨b, r⟩, h1, h2⟩ := h
    simp only [Prod.mk.injEq] at h2
    refine ⟨?_, fun _ _ _ e => by cases e⟩
    rw [← h2.1]
    rcases abortTransaction_cases h1 with ⟨_, hb, _⟩ | ⟨t, rest, _, _, _, hb⟩
    · rw [hb]; rfl
    · rw [hb]; rfl
  | replay ts =>
    simp only [step, Option.some.injEq, Prod.mk.injEq] at h
    refine ⟨?_, fun _ _ _ e => by cases e⟩
    rw [← h.1]
    rfl

theorem countCreates_cons (op : Op) (ops : List Op) :
    countCreates (op :: ops) = countCreates [op] + countCreates ops := by
  cases op <;> simp [countCreates]
  omega

theorem createdIds_run : ∀ (ops : List Op) {s s' : Dir × TransactionManager},
    run s ops = some s' →
    s'.2.totalTransactionCount = s.2.totalTransactionCount + countCreates ops ∧
      createdIds s ops = some ((List.range (countCreates ops)).map
        (fun k => ((s.2.totalTransactionCount + k : Nat) : Int))) := by
  intro ops
  induction ops with
  | nil =>
    intro s s' h
    simp only [run, Option.some.injEq] at h
    subst h
    exact ⟨rfl, rfl⟩
  | cons op ops ih =>
    intro s s' h
    obtain ⟨s1, ret, h1, h2⟩ := run_cons_some h
    obtain ⟨i1, i2⟩ := ih h2
    obtain ⟨c1, c2⟩ := count_step h1
    refine ⟨?_, ?_⟩
    · rw [i1, c1, countCreates_cons op ops]
      omega
    · cases op with
      | create o l d =>
        have hret := c2 o l d rfl
        simp only [createdIds, h1, i2, Option.map_some', countCreates, List.range_succ_eq_map,
          List.map_cons, List.map_map, Option.some.injEq, c1]
        refine congrArg₂ _ ?_ ?_
        · rw [hret]; rfl
        · apply List.map_congr_left
          intro k _
          simp only [Function.comp, countCreates]
          congr 1
          omega
      | commit id bytes =>
        simp only [createdIds, h1, i2, countCreates, c1, Nat.add_zero]
      | abort id =>
        simp only [createdIds, h1, i2, countCreates, c1, Nat.add_zero]
      | replay ts =>
        simp only [createdIds, h1, i2, countCreates, c1, Nat.add_zero]

/-- C20: for every sequence of creates, commits, aborts and replays that runs on a fresh
manager, the `create` calls of the sequence return 0, 1, 2, ... in order (the k-th returns
`k - 1`), the counter afterwards is the number of creates, and a further `createTransaction`
returns that number; in the state reached, the ids of the table are strictly increasing in table
order, hence pairwise distinct, and all smaller than the counter. -/
theorem transaction_ids_increase (fs : Dir) (path : String) (segment : List Nat)
    (ops : List Op) (s : Dir × TransactionManager)
    (h : run (fs, TransactionManager.new path segment) ops = some s) :
    createdIds (fs, TransactionManager.new path segment) ops
      = some ((List.range (countCreates ops)).map (fun (k : Nat) => (k : Int))) ∧
    s.2.totalTransactionCount = countCreates ops ∧
    (∀ o l d s' ret, step s (Op.create o l d) = some (s', ret) →
      ret = (countCreates ops : Int)) ∧
    s.2.uncommittedTransactions.Pairwise (fun x y => x.transactionId < y.transactionId) ∧
    (s.2.uncommittedTransactions.map (fun t => t.transactionId)).Nodup ∧
    ∀ t ∈ s.2.uncommittedTransactions, t.transactionId < s.2.totalTransactionCount := by
  obtain ⟨h1, h2⟩ := createdIds_run ops h
  have hinv := tableInvariant_run (tableInvariant_new path segment) h
  have hcount : s.2.totalTransactionCount = countCreates ops := by
    rw [h1]
    simp [TransactionManager.new, BaseTransactionManager.new]
  refine ⟨?_, hcount, ?_, hinv.2.1, ?_, hinv.1⟩
  · rw [h2]
    congr 1
    apply List.map_congr_left
    intro k _
    simp [TransactionManager.new, BaseTransactionManager.new]
  · intro o l d s' ret hs
    rw [(count_step hs).2 o l d rfl, hcount]
  · rw [List.Nodup, List.pairwise_map]
    exact hinv.2.1.imp (fun hlt => Nat.ne_of_lt hlt)

/-- Witness for C20: on the 100 zero bytes of a test file, three writes of the 16-byte test
string interleaved with an abort, a commit and a replay receive the ids 0, 1 and 2. -/
theorem transaction_ids_increase_witness :
    ∃ s, run ([], TransactionManager.new "test10.txt" (List.replicate 100 0))
        [Op.create 0 16 testingString, Op.abort 0, Op.create 0 16 testingString,
          Op.commit 1 (-1), Op.replay [testingTransaction], Op.create 16 16 testingString]
        = some s ∧
      createdIds ([], TransactionManager.new "test10.txt" (List.replicate 100 0))
        [Op.create 0 16 testingString, Op.abort 0, Op.create 0 16 testingString,
          Op.commit 1 (-1), Op.replay [testingTransaction], Op.create 16 16 testingString]
        = some [0, 1, 2] ∧
      s.2.totalTransactionCount = 3 := by
  obtain ⟨s, hs⟩ := Option.isSome_iff_exists.1
    (by decide : (run ([], TransactionManager.new "test10.txt" (List.replicate 100 0))
        [Op.create 0 16 testingString, Op.abort 0, Op.create 0 16 testingString,
          Op.commit 1 (-1), Op.replay [testingTransaction],
          Op.create 16 16 testingString]).isSome = true)
  have T := transaction_ids_increase _ _ _ _ s hs
  exact ⟨s, hs, T.1, T.2.1⟩


/-! ## C21: replaying twice -/

theorem applyRedo_self (seg : List Nat) (rs : List Transaction)
    (h : ∀ r ∈ rs, r.offset + r.newData.length ≤ seg.length) :
    applyRedo (applyRedo seg rs) rs = applyRedo seg rs := by
  have hlen : (applyRedo seg rs).length = seg.length := length_applyRedo rs seg h
  apply List.ext_getElem?
  intro i
  rw [getElem?_applyRedo (applyRedo seg rs) i rs (fun r hr => by rw [hlen]; exact h r hr)]
  cases hc : lastCovering rs i with
  | none => rfl
  | some r =>
    simp only
    rw [getElem?_applyRedo seg i rs h, hc]

theorem replaySegment_idem (F : List Nat) (rs : List Transaction) :
    replaySegment (replaySegment F rs) rs = replaySegment F rs := by
  cases rs with
  | nil => rfl
  | cons x xs =>
    have hlen := length_replaySegment F (x :: xs)
    rw [replaySegment_of_ne_nil (replaySegment F (x :: xs)) (List.cons_ne_nil x xs),
      if_neg (by omega), replaySegment_of_ne_nil F (List.cons_ne_nil x xs)]
    apply applyRedo_self
    intro r hr
    have := le_maxOffset hr
    split
    · rw [length_resize]; exact this
    · omega

/-- C21: for every byte buffer `F` and every record list `rs`, replaying `rs` onto the result of
replaying `rs` onto `F` gives that result again, `replay(rs, replay(rs, F)) = replay(rs, F)`,
on the segment as through `replayTransactions` on a manager built on the buffer; and when the
data file already holds `replay(rs, F)`, where `rs` are the records single-log cleanup retains
from the log (all of them, or those within the budget), single-log cleanup returns 0 and writes
the data file back with the same content. -/
theorem replay_idempotent (F : List Nat) (rs : List Transaction) :
    replaySegment (replaySegment F rs) rs = replaySegment F rs ∧
    (replayTransactions (BaseTransactionManager.new
        (replayTransactions (BaseTransactionManager.new F) rs).1.vmSegment) rs).1.vmSegment
      = (replayTransactions (BaseTransactionManager.new F) rs).1.vmSegment ∧
    ∀ (fs : Dir) (logFilePath : String) (content : List Nat) (L : List Transaction)
      (bytes : Int),
      hasLogExtension logFilePath = true →
      lookupNode fs logFilePath = some (Node.regular content) →
      decodeLog content = some L →
      rs = (if bytes ≥ 0 then retainBudget L bytes.toNat else L) →
      lookupNode fs (originalPath logFilePath) = some (Node.regular (replaySegment F rs)) →
      ∃ fs', clean_n_bytes fs logFilePath bytes = some (fs', 0) ∧
        lookupNode fs' (originalPath logFilePath)
          = some (Node.regular (replaySegment F rs)) ∧
        lookupNode fs' logFilePath = none := by
  refine ⟨replaySegment_idem F rs, replaySegment_idem F rs, ?_⟩
  intro fs logFilePath content L bytes hext hlog hdec hrs horig
  have hne : originalPath logFilePath ≠ logFilePath := originalPath_ne hext
  refine ⟨_, clean_n_bytes_eq bytes hext hlog hdec (by rw [horig]; simp), ?_, ?_⟩
  · rw [lookupNode_removeNode, if_neg hne, lookupNode_storeNode, if_pos rfl,
      readFile_of_lookup horig, ← hrs, replaySegment_idem]
  · rw [lookupNode_removeNode, if_pos rfl]

/-- Witness for C21, from `test_truncate_log`: the two 16-byte records at offsets 0 and 20 have
been replayed onto the 100 zero bytes of `test3.txt` and the log is still there; single-log
cleanup writes the same 100 bytes back. -/
theorem replay_idempotent_witness :
    replaySegment (List.replicate 100 0) [⟨0, 0, [], testingString⟩, ⟨1, 20, [], testingString⟩]
      = testingString ++ List.replicate 4 0 ++ testingString ++ List.replicate 64 0 ∧
    ∃ fs', clean_n_bytes
        [("test3.txt", Node.regular
            (testingString ++ List.replicate 4 0 ++ testingString ++ List.replicate 64 0)),
         ("test3.txt.log", Node.regular
            (encodeLog [⟨0, 0, [], testingString⟩, ⟨1, 20, [], testingString⟩]))]
        "test3.txt.log" (-1) = some (fs', 0) ∧
      lookupNode fs' "test3.txt" = some (Node.regular
        (testingString ++ List.replicate 4 0 ++ testingString ++ List.replicate 64 0)) := by
  have hr : replaySegment (List.replicate 100 0)
      [⟨0, 0, [], testingString⟩, ⟨1, 20, [], testingString⟩]
      = testingString ++ List.replicate 4 0 ++ testingString ++ List.replicate 64 0 := by
    decide
  obtain ⟨fs', h1, h2, _⟩ := (replay_idempotent (List.replicate 100 0)
    [⟨0, 0, [], testingString⟩, ⟨1, 20, [], testingString⟩]).2.2
    [("test3.txt", Node.regular
        (testingString ++ List.replicate 4 0 ++ testingString ++ List.replicate 64 0)),
     ("test3.txt.log", Node.regular
        (encodeLog [⟨0, 0, [], testingString⟩, ⟨1, 20, [], testingString⟩]))]
    "test3.txt.log" (encodeLog [⟨0, 0, [], testingString⟩, ⟨1, 20, [], testingString⟩])
    [⟨0, 0, [], testingString⟩, ⟨1, 20, [], testingString⟩] (-1)
    (by decide) (by decide) (by decide) (by decide) (by rw [hr]; decide)
  refine ⟨hr, fs', h1, ?_⟩
  rw [← hr]
  exact h2

/-! ## C22: a file that cleanup made longer than its declared length -/

theorem gtfs_open_file_too_short (w : World) (g : gtfs_t) (filename : String) (d fd : Int)
    (c : List Nat) (hname : filename.length ≠ 0)
    (hfile : lookupNode w.files filename = some (Node.regular c))
    (hlt : toSizeT d < c.length) :
    gtfs_open_file w (some g) filename d fd = some (w, none) := by
  rcases gtfs_open_file_cases w g filename d fd hname (by rw [hfile]; simp) with
    ⟨_, e⟩ | ⟨hn, _⟩
  · exact e
  · rw [readFile_of_lookup hfile] at hn
    exact absurd hlt hn

/-- C22: take any directory in which the data file `f` holds `F`, of size at most the declared
length `d`, and its log decodes to records `L` of which one ends beyond `d` (what a synced write
with `offset + length > d` leaves).  Then `gtfs_open_file(f, d)` succeeds, on a segment that is
the replay of `L` (it shows the write); single-log cleanup of the log returns 0 and writes back
a data file of size `max(|F|, largest offset + redo length in L)`, which is longer than `d`; and
after it `gtfs_open_file(f, d)` with the same declared length returns null and changes
nothing.  Such a directory arises from the calls of the API: on a new file `test.txt` opened with
length 100, a 16-byte write at offset 90, sync and close, the next open with length 100 reads the
write back, `gtfs_clean` returns 0 and leaves 106 bytes, and the open with length 100 that
follows returns null. -/
theorem cleanup_can_block_reopen (fs : Dir) (locked : List (String × Int)) (g : gtfs_t)
    (f : String)
    (d : Nat) (fd : Int) (F content : List Nat) (L : List Transaction)
    (hname : f.length ≠ 0)
    (hfile : lookupNode fs f = some (Node.regular F))
    (hlog : lookupNode fs (f ++ ".log") = some (Node.regular content))
    (hdec : decodeLog content = some L)
    (hsize : F.length ≤ d) (hd : d < 2 ^ 31) (hover : d < maxOffset L)
    (hfd : fd ≠ -1) (hlock : f ∉ locked.map Prod.fst) :
    (∃ (w1 : World) (fl : file_t) (m : TransactionManager),
      gtfs_open_file ⟨fs, locked⟩ (some g) f d fd = some (w1, some fl) ∧
      fl.transactionManager = some m ∧ m.vmSegment = replaySegment (resize F d) L) ∧
    (∃ fs', clean_n_bytes fs (f ++ ".log") (-1) = some (fs', 0) ∧
      lookupNode fs' f = some (Node.regular (replaySegment F L)) ∧
      (replaySegment F L).length = max F.length (maxOffset L) ∧
      d < (replaySegment F L).length ∧
      lookupNode fs' (f ++ ".log") = none ∧
      gtfs_open_file ⟨fs', locked⟩ (some g) f d fd = some (⟨fs', locked⟩, none)) ∧
    reopenAfterClean ⟨[], []⟩ (some ⟨"."⟩) "test.txt" 100 90 testingString 3 4 5
      = some (some testingString, 0, 106, none) := by
  have hd64 : d < 2 ^ 64 := lt_two_pow_64_of_lt_31 hd
  have hF : readFile fs f = F := readFile_of_lookup hfile
  have hC : readFile fs (f ++ ".log") = content := readFile_of_lookup hlog
  refine ⟨?_, ?_, by set_option maxRecDepth 40000 in rfl⟩
  · obtain ⟨files2, h1, _, _⟩ := gtfs_open_file_ok ⟨fs, locked⟩ g f d fd L hname
      (by show lookupNode fs f ≠ _; rw [hfile]; simp)
      (by show (readFile fs f).length ≤ d; rw [hF]; exact hsize) hd64 hfd hlock
      (by show decodeLog (readFile fs (f ++ ".log")) = _; rw [hC]; exact hdec)
    refine ⟨_, _, _, h1, rfl, ?_⟩
    show replaySegment (resize (readFile fs f) d) L = _
    rw [hF]
  · have hext := hasLogExtension_append_log hname
    have horig := originalPath_append_log f
    have hclean := clean_n_bytes_eq (-1) hext hlog hdec
      (by rw [horig, hfile]; simp)
    rw [horig, hF] at hclean
    simp only [ge_iff_le, Left.nonneg_neg_iff, Int.reduceLE, if_false] at hclean
    have hlook : lookupNode (removeNode (storeNode fs f (Node.regular (replaySegment F L)))
        (f ++ ".log")) f = some (Node.regular (replaySegment F L)) := by
      rw [lookupNode_removeNode, if_neg (logPath_ne f).symm, lookupNode_storeNode, if_pos rfl]
    have hlen := length_replaySegment F L
    refine ⟨_, hclean, hlook, hlen, by omega, ?_, ?_⟩
    · rw [lookupNode_removeNode, if_pos rfl]
    · exact gtfs_open_file_too_short _ g f d fd _ hname hlook
        (by rw [toSizeT_natCast hd64]; omega)

/-- Witness for C22: the directory that the open of `test.txt` with length 100, the write of the
16-byte test string at offset 90, the sync and the close leave holds 100 zero bytes and a log of
one record ending at 106.  The open with length 100 succeeds there; after single-log cleanup the
file has 106 bytes and the same open returns null. -/
theorem cleanup_can_block_reopen_witness :
    (∃ (w1 : World) (fl : file_t) (m : TransactionManager),
      gtfs_open_file
          ⟨[("test.txt", Node.regular (List.replicate 100 0)),
            ("test.txt.log", Node.regular (encode ⟨0, 90, [], testingString⟩))], []⟩
          (some ⟨"."⟩) "test.txt" ((100 : Nat) : Int) 4 = some (w1, some fl) ∧
      fl.transactionManager = some m ∧
      m.vmSegment = replaySegment (resize (List.replicate 100 0) 100)
        [⟨0, 90, [], testingString⟩]) ∧
    ∃ fs', clean_n_bytes
        [("test.txt", Node.regular (List.replicate 100 0)),
         ("test.txt.log", Node.regular (encode ⟨0, 90, [], testingString⟩))]
        "test.txt.log" (-1) = some (fs', 0) ∧
      lookupNode fs' "test.txt" = some (Node.regular
        (replaySegment (List.replicate 100 0) [⟨0, 90, [], testingString⟩])) ∧
      (replaySegment (List.replicate 100 0) [⟨0, 90, [], testingString⟩]).length
        = max (List.replicate 100 0).length (maxOffset [⟨0, 90, [], testingString⟩]) ∧
      100 < (replaySegment (List.replicate 100 0) [⟨0, 90, [], testingString⟩]).length ∧
      lookupNode fs' "test.txt.log" = none ∧
      gtfs_open_file ⟨fs', []⟩ (some ⟨"."⟩) "test.txt" ((100 : Nat) : Int) 4
        = some (⟨fs', []⟩, none) := by
  have T := cleanup_can_block_reopen
    [("test.txt", Node.regular (List.replicate 100 0)),
     ("test.txt.log", Node.regular (encode ⟨0, 90, [], testingString⟩))] [] ⟨"."⟩ "test.txt"
    100 4 (List.replicate 100 0) (encode ⟨0, 90, [], testingString⟩)
    [⟨0, 90, [], testingString⟩]
    (by decide) (by decide) (by decide) (by decide) (by decide) (by norm_num) (by decide)
    (by decide) (by decide)
  exact ⟨T.1, T.2.1⟩

/-! ## C23: an abort under a newer write -/

theorem getElem?_undo {s : List Nat} {offset k i : Nat} (h1 : offset ≤ i)
    (h2 : i < offset + k) : ((s.drop offset).take k)[i - offset]? = s[i]? := by
  rw [List.getElem?_take_of_lt (by omega), List.getElem?_drop]
  congr 1
  omega

theorem length_undo (s : List Nat) (offset n : Nat) :
    ((s.drop offset).take (min n (s.length - offset))).length = min n (s.length - offset) := by
  rw [List.length_take, List.length_drop]
  omega

/-- C23: in every reachable manager state (segment `s`) whose log path can be opened for
appending, first, `abortTransaction` of a transaction `t1` of the table returns 0 and writes the
undo bytes of `t1` over `[t1.offset, t1.offset + |t1.undo|)` whatever the other transactions of
the table have written there since, every other transaction `t2` stays in the table as it is,
and `commitTransaction(t2.id)` then returns 0 and appends the encoding of `t2`, with its full
redo, to the log.  Second, for two writes `w1` then `w2` created one after the other, each
starting within the segment: after `abortTransaction(w1)` every index of the range of `w1` that
lies in `s` holds the byte `s` had there before `w1`, also where `w2` wrote, the other indexes
hold what they held after `w2`, and `w2` is in the table with its full redo and commits with
return code 0.  Third, a state in which the live segment and the image of the next open differ
on the overlap: on a 4-byte file `aaaa`, write `bb` at 0, write `cc` at 1, abort the first write
(the read of the 4 bytes gives `aaca`), sync the second, close and open again: the read gives
`acca`. -/
theorem abort_overwrites_newer_write (fs : Dir) (m : TransactionManager) (hm : Reachable m)
    (hlog : lookupNode fs m.logFilePath ≠ some Node.directory) :
    (∀ t1 ∈ m.uncommittedTransactions, ∃ b3 : BaseTransactionManager,
      abortTransaction m.toBaseTransactionManager t1.transactionId = some (b3, 0) ∧
      b3.vmSegment.length = m.vmSegment.length ∧
      (∀ i, t1.offset ≤ i → i < t1.offset + t1.oldData.length →
        b3.vmSegment[i]? = t1.oldData[i - t1.offset]?) ∧
      (∀ i, ¬ (t1.offset ≤ i ∧ i < t1.offset + t1.oldData.length) →
        b3.vmSegment[i]? = m.vmSegment[i]?) ∧
      ∀ t2 ∈ m.uncommittedTransactions, t2.transactionId ≠ t1.transactionId →
        t2 ∈ b3.uncommittedTransactions ∧
        commitTransaction fs { m with toBaseTransactionManager := b3 } t2.transactionId (-1)
          = (storeNode fs m.logFilePath
              (Node.regular (readFile fs m.logFilePath ++ encode t2)),
            { m with toBaseTransactionManager :=
                { b3 with uncommittedTransactions :=
                    withoutId b3.uncommittedTransactions t2.transactionId } }, 0)) ∧
    (∀ (offset1 n1 : Nat) (data1 : List Nat) (offset2 n2 : Nat) (data2 : List Nat),
      m.vmSegment.length + n1 < 2 ^ 64 →
      offset1 ≤ m.vmSegment.length → n1 ≤ data1.length →
      offset2 ≤ max m.vmSegment.length (offset1 + n1) → n2 ≤ data2.length →
      ∃ (b1 b2 b3 : BaseTransactionManager) (undo2 : List Nat),
        createTransaction m.toBaseTransactionManager offset1 n1 data1
          = some (b1, m.totalTransactionCount) ∧
        createTransaction b1 offset2 n2 data2 = some (b2, m.totalTransactionCount + 1) ∧
        abortTransaction b2 m.totalTransactionCount = some (b3, 0) ∧
        (∀ i, offset1 ≤ i → i < offset1 + n1 → i < m.vmSegment.length →
          b3.vmSegment[i]? = m.vmSegment[i]?) ∧
        (∀ i, ¬ (offset1 ≤ i ∧ i < offset1 + n1 ∧ i < m.vmSegment.length) →
          b3.vmSegment[i]? = b2.vmSegment[i]?) ∧
        (∀ i, offset2 ≤ i → i < offset2 + n2 →
          b2.vmSegment[i]? = some ((data2[i - offset2]?).getD 0)) ∧
        (⟨m.totalTransactionCount + 1, offset2, undo2, data2.take n2⟩ : Transaction)
          ∈ b3.uncommittedTransactions ∧
        (commitTransaction fs { m with toBaseTransactionManager := b3 }
            (m.totalTransactionCount + 1) (-1)).2.2 = 0 ∧
        readFile (commitTransaction fs { m with toBaseTransactionManager := b3 }
            (m.totalTransactionCount + 1) (-1)).1 m.logFilePath
          = readFile fs m.logFilePath
            ++ encode ⟨m.totalTransactionCount + 1, offset2, undo2, data2.take n2⟩) ∧
    abortUnderNewerWrite ⟨[("f.txt", Node.regular [97, 97, 97, 97])], []⟩ (some ⟨"."⟩) "f.txt" 4
        0 [98, 98] 1 [99, 99] 0 4 3 4
      = some (0, 0, some [97, 97, 99, 97], some [97, 99, 99, 97]) := by
  have hinv := tableInvariant_of_reachable hm
  refine ⟨?_, ?_, by decide⟩
  · intro t1 ht1
    have hab := abortTransaction_known hinv ht1
    have hguard := hinv.2.2 t1 ht1
    refine ⟨_, hab, length_copyInto hguard, ?_, ?_, ?_⟩
    · intro i h1 h2
      show (copyInto m.vmSegment t1.offset t1.oldData)[i]? = _
      rw [getElem?_copyInto hguard, if_pos ⟨h1, h2⟩]
    · intro i hi
      show (copyInto m.vmSegment t1.offset t1.oldData)[i]? = _
      rw [getElem?_copyInto hguard, if_neg hi]
    · intro t2 ht2 hne
      have hinv3 := tableInvariant_abort hinv hab
      have hmem : t2 ∈ withoutId m.uncommittedTransactions t1.transactionId :=
        mem_withoutId.2 ⟨ht2, hne⟩
      refine ⟨hmem, ?_⟩
      exact @commitTransaction_whole fs
        { m with toBaseTransactionManager :=
            { m.toBaseTransactionManager with
              vmSegment := copyInto m.vmSegment t1.offset t1.oldData
              uncommittedTransactions :=
                withoutId m.uncommittedTransactions t1.transactionId } } t2 hinv3 hmem hlog
  · intro offset1 n1 data1 offset2 n2 data2 hs ho1 hn1 ho2 hn2
    obtain ⟨b1, hc1, hl1, hg1, ht1⟩ := createTransaction_within m.toBaseTransactionManager
      offset1 n1 data1 (by omega) hn1 (Or.inl ho1)
    obtain ⟨b2, hc2, hl2, hg2, ht2⟩ := createTransaction_within b1 offset2 n2 data2
      (by rw [hl1]; omega) hn2 (Or.inl (by rw [hl1]; exact ho2))
    have hcount1 : b1.totalTransactionCount = m.totalTransactionCount + 1 :=
      (createTransaction_some hc1).2.1
    rw [hcount1] at hc2 ht2
    have hinv1 := tableInvariant_create hinv hc1
    have hinv2 := tableInvariant_create hinv1 hc2
    have hmem1 : (⟨m.totalTransactionCount, offset1,
        (m.vmSegment.drop offset1).take (min n1 (m.vmSegment.length - offset1)),
        data1.take n1⟩ : Transaction) ∈ b2.uncommittedTransactions := by
      rw [ht2, ht1]
      simp
    have hab := abortTransaction_known hinv2 hmem1
    have hguard := hinv2.2.2 _ hmem1
    simp only at hab hguard
    rw [length_undo] at hguard
    have hinv3 := tableInvariant_abort hinv2 hab
    have hmem2 : (⟨m.totalTransactionCount + 1, offset2,
        (b1.vmSegment.drop offset2).take (min n2 (b1.vmSegment.length - offset2)),
        data2.take n2⟩ : Transaction)
        ∈ withoutId b2.uncommittedTransactions m.totalTransactionCount := by
      apply mem_withoutId.2
      refine ⟨by rw [ht2]; simp, ?_⟩
      show m.totalTransactionCount + 1 ≠ m.totalTransactionCount
      omega
    have hcommit := @commitTransaction_whole fs
      { m with toBaseTransactionManager :=
          { b2 with
            vmSegment := copyInto b2.vmSegment offset1
              ((m.vmSegment.drop offset1).take (min n1 (m.vmSegment.length - offset1)))
            uncommittedTransactions :=
              withoutId b2.uncommittedTransactions m.totalTransactionCount } }
      _ hinv3 hmem2 hlog
    simp only at hcommit
    refine ⟨b1, b2, _, _, hc1, hc2, hab, ?_, ?_, ?_, hmem2, ?_, ?_⟩
    · intro i h1 h2 h3
      show (copyInto b2.vmSegment offset1 _)[i]? = _
      rw [getElem?_copyInto (by rw [length_undo]; exact hguard), length_undo,
        if_pos ⟨h1, by omega⟩, getElem?_undo h1 (by omega)]
    · intro i hi
      show (copyInto b2.vmSegment offset1 _)[i]? = _
      rw [getElem?_copyInto (by rw [length_undo]; exact hguard), length_undo,
        if_neg (by omega)]
    · intro i h1 h2
      rw [hg2 i (by omega), if_pos ⟨h1, h2⟩]
    · rw [hcommit]
    · rw [hcommit]
      show readFile (storeNode fs m.logFilePath _) m.logFilePath = _
      rw [readFile_storeNode, if_pos rfl]

/-- Witness for C23: the manager of the 4-byte file `aaaa` after the writes `bb` at 0 and `cc` at
1 (segment `bcca`) is reachable; the abort of the first write returns 0 and the byte at index 1,
written by the second write, is `a` again, while the second write stays in the table with its
redo `cc`; and on a new 100-byte file, after two 16-byte writes at 0 and 8 and the abort of the
first, the live read of the second write's range is empty where the next open shows the
write. -/
theorem abort_overwrites_newer_write_witness :
    (∃ b3 : BaseTransactionManager,
      abortTransaction (BaseTransactionManager.mk 2 [98, 99, 99, 97]
          [⟨0, 0, [97, 97], [98, 98]⟩, ⟨1, 1, [98, 97], [99, 99]⟩]) 0 = some (b3, 0) ∧
      b3.vmSegment[1]? = some 97 ∧
      (⟨1, 1, [98, 97], [99, 99]⟩ : Transaction) ∈ b3.uncommittedTransactions) ∧
    abortUnderNewerWrite ⟨[], []⟩ (some ⟨"."⟩) "test.txt" 100 0 testingString 8 testingString
        8 16 3 4
      = some (0, 0, some [], some testingString) := by
  have hm : Reachable ⟨⟨2, [98, 99, 99, 97],
      [⟨0, 0, [97, 97], [98, 98]⟩, ⟨1, 1, [98, 97], [99, 99]⟩]⟩, "f.txt.log"⟩ :=
    ⟨[], "f.txt", [97, 97, 97, 97], [Op.create 0 2 [98, 98], Op.create 1 2 [99, 99]], [],
      by decide⟩
  have T := (abort_overwrites_newer_write [] _ hm (by decide)).1
    ⟨0, 0, [97, 97], [98, 98]⟩ (by decide)
  obtain ⟨b3, h1, _, h3, _, h5⟩ := T
  refine ⟨⟨b3, h1, ?_, (h5 ⟨1, 1, [98, 97], [99, 99]⟩ (by decide) (by decide)).1⟩,
    by set_option maxRecDepth 40000 in rfl⟩
  exact (h3 1 (by decide) (by decide)).trans (by decide)

end GTFS
